import Mathlib

set_option maxRecDepth 100000

/-!
Verification of the `tam` proof-of-stake replicated state machine against its
specification. The development shallowly embeds the Rust sources
(`src/merkle.rs`, `src/state.rs`, `src/block.rs`, `src/node.rs`,
`src/txn.rs`, `src/account.rs`, `src/validator.rs`): pure Rust functions
become Lean functions, `u32`/`u64` arithmetic is `Nat` with explicit
wrap-around (`% 2^32`), fallible operations return `Except`/`Option`, and
panics are modelled by an outer `Option` layer. The external `sha2` crate is
modelled by an executable SHA-256; the external `ed25519_dalek`/`blst`
signature primitives are modelled symbolically (a signature records the
signer's public key and the signed serialisation, which is the standard
idealisation of an EUF-CMA scheme). Serde serialisations enter commitments
and signatures only as opaque byte encodings, so they are passed around as
explicit serialiser functions.
-/

namespace Tam

/-- 32-bit truncation, matching Rust `u32` wrap-around semantics. -/
def u32 (x : Nat) : Nat := x % 4294967296

/-- Rotate a 32-bit word right by `n` bits. -/
def rotr32 (n x : Nat) : Nat := u32 ((x >>> n) ||| ((x % (1 <<< n)) <<< (32 - n)))

/-- Big-endian byte encoding of a value in `w` bytes (most significant first),
matching Rust's `to_be_bytes`. -/
def beBytes : Nat → Nat → List Nat
  | 0, _ => []
  | w + 1, x => beBytes w (x / 256) ++ [x % 256]

/-- Big-endian 4-byte encoding of a `u32` (`u32::to_be_bytes`). -/
def be32 (x : Nat) : List Nat := beBytes 4 x

/-- Big-endian 8-byte encoding of a `u64` (`u64::to_be_bytes`). -/
def be64 (x : Nat) : List Nat := beBytes 8 x

namespace Sha256

/-- SHA-256 round constants (FIPS 180-4). -/
def K : List Nat :=
  [1116352408, 1899447441, 3049323471, 3921009573, 961987163, 1508970993, 2453635748, 2870763221,
   3624381080, 310598401, 607225278, 1426881987, 1925078388, 2162078206, 2614888103, 3248222580,
   3835390401, 4022224774, 264347078, 604807628, 770255983, 1249150122, 1555081692, 1996064986,
   2554220882, 2821834349, 2952996808, 3210313671, 3336571891, 3584528711, 113926993, 338241895,
   666307205, 773529912, 1294757372, 1396182291, 1695183700, 1986661051, 2177026350, 2456956037,
   2730485921, 2820302411, 3259730800, 3345764771, 3516065817, 3600352804, 4094571909, 275423344,
   430227734, 506948616, 659060556, 883997877, 958139571, 1322822218, 1537002063, 1747873779,
   1955562222, 2024104815, 2227730452, 2361852424, 2428436474, 2756734187, 3204031479, 3329325298]

/-- SHA-256 initial hash state (FIPS 180-4). -/
def H0 : List Nat :=
  [1779033703, 3144134277, 1013904242, 2773480762, 1359893119, 2600822924, 528734635, 1541459225]

/-- Group a byte list into big-endian 32-bit words. -/
def toWords : List Nat → List Nat
  | b0 :: b1 :: b2 :: b3 :: rest => (((b0 * 256 + b1) * 256 + b2) * 256 + b3) :: toWords rest
  | _ => []

/-- Message schedule extension: the accumulator holds the scheduled words most
recent first; each step pushes one more scheduled word. -/
def extendWords : Nat → List Nat → List Nat
  | 0, acc => acc
  | n + 1, acc =>
    let w2 := acc.getD 1 0
    let w7 := acc.getD 6 0
    let w15 := acc.getD 14 0
    let w16 := acc.getD 15 0
    let s0 := (rotr32 7 w15) ^^^ (rotr32 18 w15) ^^^ (w15 >>> 3)
    let s1 := (rotr32 17 w2) ^^^ (rotr32 19 w2) ^^^ (w2 >>> 10)
    extendWords n (u32 (s1 + w7 + s0 + w16) :: acc)

/-- One round of the SHA-256 compression function on the 8-word state. -/
def round (st : List Nat) (kw : Nat × Nat) : List Nat :=
  match st with
  | [a, b, c, d, e, f, g, h] =>
    let S1 := (rotr32 6 e) ^^^ (rotr32 11 e) ^^^ (rotr32 25 e)
    let ch := (e &&& f) ^^^ ((0xffffffff ^^^ e) &&& g)
    let t1 := u32 (h + S1 + ch + kw.1 + kw.2)
    let S0 := (rotr32 2 a) ^^^ (rotr32 13 a) ^^^ (rotr32 22 a)
    let mj := (a &&& b) ^^^ (a &&& c) ^^^ (b &&& c)
    let t2 := u32 (S0 + mj)
    [u32 (t1 + t2), a, b, c, u32 (d + t1), e, f, g]
  | st => st

/-- Compress one 64-byte chunk (given as its 16 words) into the hash state. -/
def compress (h : List Nat) (chunk : List Nat) : List Nat :=
  let w := (extendWords 48 chunk.reverse).reverse
  let st := (K.zip w).foldl round h
  (h.zip st).map (fun p => u32 (p.1 + p.2))

/-- Process the padded message 64 bytes at a time; the fuel keeps the
recursion structural so the kernel can evaluate it. -/
def chunksF (h : List Nat) : Nat → List Nat → List Nat
  | _, [] => h
  | 0, _ => h
  | f + 1, bs => chunksF (compress h (toWords (bs.take 64))) f (bs.drop 64)

/-- SHA-256 padding: append `0x80`, zeros, then the 64-bit bit length. -/
def pad (msg : List Nat) : List Nat :=
  let zeros := (64 - ((msg.length + 9) % 64)) % 64
  msg ++ [0x80] ++ List.replicate zeros 0 ++ be64 (8 * msg.length)

/-- SHA-256 of a byte list, as its 32 digest bytes. This models the external
`sha2` crate's `Sha256::digest` used throughout the repository. -/
def sha256 (msg : List Nat) : List Nat :=
  ((chunksF H0 (pad msg).length (pad msg)).map be32).flatten

end Sha256

export Sha256 (sha256)

/-!
The Merkle-Patricia trie of `src/merkle.rs`. The Rust node is
`Node { node: Option<TrieNode<T>>, commit: [u8; 32] }` with
`TrieNode { substr: Vec<u8>, value: Option<T>, children: Option<[Option<Arc<Node<T>>>; 16]> }`.
The embedding flattens the outer `Option` into two constructors (`wire` for
`node == None`, the shape that only occurs for wire transfer, and `mk` for a
present payload) and represents the 16-slot child array and its `Option`
wrappers by the mutually inductive `OKids`/`Kids`/`ONode` types, which is the
same data as `Option<[Option<Node>; 16]>` but lets every traversal be a
structural recursion the kernel can evaluate. `Arc` sharing is immaterial to
values and is dropped.
-/

mutual

inductive Node (T : Type) where
  | wire (commit : List Nat)
  | mk (substr : List Nat) (value : Option T) (children : OKids T) (commit : List Nat)

inductive OKids (T : Type) where
  | none
  | some (cs : Kids T)

inductive Kids (T : Type) where
  | nil
  | cons (hd : ONode T) (tl : Kids T)

inductive ONode (T : Type) where
  | none
  | some (n : Node T)

end

variable {T : Type}

/-- The cached `commit` field of a node. -/
def commitOf : Node T → List Nat
  | .wire c => c
  | .mk _ _ _ c => c

/-- Child slot list of given length with every slot empty; `empty_children_array`. -/
def emptyKids : Nat → Kids T
  | 0 => .nil
  | n + 1 => .cons .none (emptyKids n)

/-- Read child slot `i` (the Rust `children[i]`). -/
def kidAt : Kids T → Nat → ONode T
  | .nil, _ => .none
  | .cons hd _, 0 => hd
  | .cons _ tl, i + 1 => kidAt tl i

/-- Write child slot `i` (the Rust `children[i] = x`). -/
def kidSet : Kids T → Nat → ONode T → Kids T
  | .nil, _, _ => .nil
  | .cons _ tl, 0, x => .cons x tl
  | .cons hd tl, i + 1, x => .cons hd (kidSet tl (i) x)

/-- The present children together with their slot indices, in slot order
(`children.iter().enumerate().filter_map(...)`), indices offset by `i`. -/
def kidsPresent (i : Nat) : Kids T → List (Nat × Node T)
  | .nil => []
  | .cons .none tl => kidsPresent (i + 1) tl
  | .cons (.some n) tl => (i, n) :: kidsPresent (i + 1) tl

/-- Longest common prefix length of two nibble strings; `Node::prefix_len`. -/
def prefixLen : List Nat → List Nat → Nat
  | a :: as_, b :: bs => if a = b then prefixLen as_ bs + 1 else 0
  | _, _ => 0

/-- The `for i in 0..16` loop of `Node::commit`: walk the child slots in
ascending order, emitting the slot byte followed by the child's cached commit
for each present child, and counting the present children. -/
def kidsFold (i : Nat) : Kids T → List Nat × Nat
  | .nil => ([], 0)
  | .cons .none tl => kidsFold (i + 1) tl
  | .cons (.some c) tl =>
    let r := kidsFold (i + 1) tl
    (i :: (commitOf c ++ r.1), r.2 + 1)

/-- Number of slots in a child list. -/
def kidsCount : Kids T → Nat
  | .nil => 0
  | .cons _ tl => kidsCount tl + 1

/-- Weight of an optional value. -/
def optW (w : T → Nat) : Option T → Nat
  | Option.none => 0
  | Option.some v => w v

/-- The byte string fed to the hasher by `Node::commit`: substr bytes, the
serialised value if present, the child-slot loop output, the big-endian `u32`
length of substr, then the count of present children as one byte. -/
def commitPreimage (ser : T → List Nat) (substr : List Nat) (value : Option T)
    (children : OKids T) : List Nat :=
  let cb := match children with
    | .none => (([] : List Nat), 0)
    | .some cs => kidsFold 0 cs
  substr
    ++ (match value with | Option.none => [] | Option.some v => ser v)
    ++ cb.1
    ++ be32 substr.length
    ++ [cb.2]

/-- Recompute the commitment of a node from its own fields and its children's
cached commits; the body of `Node::commit`. Only defined on a present node
(the Rust code unwraps and panics on a wire node), so the caller matches. -/
def commitCalc (ser : T → List Nat) (substr : List Nat) (value : Option T)
    (children : OKids T) : List Nat :=
  sha256 (commitPreimage ser substr value children)

/-- Build a node and cache its freshly computed commit; `Node::new`. -/
def Node.new (ser : T → List Nat) (substr : List Nat) (value : Option T)
    (children : OKids T) : Node T :=
  .mk substr value children (commitCalc ser substr value children)

/-- The root of an empty map; `Node::default` (empty substr, no value,
no children). -/
def Node.default (ser : T → List Nat) : Node T := Node.new ser [] Option.none .none

/-- The `Node::split` operation: make the node branch at `cut_at`, moving the
old payload into a child; if `cut_at` is not inside `substr`, just materialise
the children array. Fails (`Err`) only on a wire node. -/
def Node.split (ser : T → List Nat) (n : Node T) (cutAt : Nat) : Except Unit (Node T) :=
  match n with
  | .wire _ => .error ()
  | .mk substr value children _ =>
    if cutAt < substr.length then
      let suffix := substr.drop (cutAt + 1)
      let child := Node.new ser suffix value children
      let cs := kidSet (emptyKids 16) (substr.getD cutAt 0) (.some child)
      .ok (Node.new ser (substr.take cutAt) Option.none (.some cs))
    else
      match children with
      | .none => .ok (Node.new ser substr value (.some (emptyKids 16)))
      | .some cs => .ok (Node.new ser substr value (.some cs))

/-- The `Node::unsplit` operation: if the node has no value and exactly one
present child, absorb that child by extending `substr`; in every case the
commit is recomputed. Fails on a wire node (or a wire single child). -/
def Node.unsplit (ser : T → List Nat) (n : Node T) : Except Unit (Node T) :=
  match n with
  | .wire _ => .error ()
  | .mk substr value children _ =>
    match value, children with
    | Option.none, .some cs =>
      match kidsPresent 0 cs with
      | [(i, child)] =>
        match child with
        | .wire _ => .error ()
        | .mk csub cval ckids _ =>
          .ok (Node.new ser (substr ++ i :: csub) cval ckids)
      | _ => .ok (Node.new ser substr Option.none (.some cs))
    | _, _ => .ok (Node.new ser substr value children)

/-- Fuel-indexed body of `Node::insert`; the fuel dominates the key length, so
one unit is consumed per recursive step into a child. -/
def Node.insertF (ser : T → List Nat) : Nat → Node T → List Nat → T →
    Except Unit (Node T × Option T)
  | 0, _, _, _ => .error ()
  | f + 1, n, k, v =>
    match n with
    | .wire _ => .error ()
    | .mk substr value children commit => do
      let cutAt := prefixLen k substr
      let clone ← Node.split ser (.mk substr value children commit) cutAt
      match clone with
      | .wire _ => .error ()
      | .mk csubstr cvalue cchildren _ =>
        if k.length > cutAt then
          let suffix := k.drop (cutAt + 1)
          let nibble := k.getD cutAt 0
          let cs := match cchildren with | .none => emptyKids 16 | .some cs => cs
          match kidAt cs nibble with
          | .some child => do
            let r ← Node.insertF ser f child suffix v
            let cs2 := kidSet cs nibble (.some r.1)
            .ok (Node.new ser csubstr cvalue (.some cs2), r.2)
          | .none =>
            let leaf := Node.new ser suffix (Option.some v) .none
            let cs2 := kidSet cs nibble (.some leaf)
            .ok (Node.new ser csubstr cvalue (.some cs2), Option.none)
        else
          if substr.length > cutAt then
            .ok (Node.new ser csubstr (Option.some v) cchildren, Option.none)
          else
            .ok (Node.new ser csubstr (Option.some v) cchildren, cvalue)

/-- The `Node::insert` operation (fuel instantiated with the key length). -/
def Node.insert (ser : T → List Nat) (n : Node T) (k : List Nat) (v : T) :
    Except Unit (Node T × Option T) :=
  Node.insertF ser (k.length + 1) n k v

/-- After a child was removed from, either drop it from the slot (when it
came back with no value and no children) or store the new version; the
`if let (None, None)` of `Node::remove`. -/
def dropKid (cs : Kids T) (nibble : Nat) (r1 : Node T) : Kids T :=
  match r1 with
  | .mk _ Option.none .none _ => kidSet cs nibble .none
  | _ => kidSet cs nibble (.some r1)

/-- Drop the whole child array when no slot is occupied any more; the
`children is empty, make it none` step of `Node::remove`. -/
def pruneKids (cs2 : Kids T) : OKids T :=
  match kidsPresent 0 cs2 with
  | [] => .none
  | _ => .some cs2

/-- Fuel-indexed body of `Node::remove`. -/
def Node.removeF (ser : T → List Nat) : Nat → Node T → List Nat →
    Except Unit (Node T × Option T)
  | 0, _, _ => .error ()
  | f + 1, n, k =>
    match n with
    | .wire _ => .error ()
    | .mk substr value children commit =>
      let cutAt := prefixLen k substr
      if k.length > cutAt then
        if substr.length > cutAt then
          .ok (.mk substr value children commit, Option.none)
        else
          match children with
          | .some cs =>
            let nibble := k.getD cutAt 0
            match kidAt cs nibble with
            | .some child => do
              let r ← Node.removeF ser f child (k.drop (cutAt + 1))
              match r.1 with
              | .wire _ => .error ()
              | .mk _ _ _ _ =>
                let children2 := pruneKids (dropKid cs nibble r.1)
                let uns ← Node.unsplit ser (.mk substr value children2 commit)
                match uns with
                | .wire _ => .error ()
                | .mk us uv uc _ => .ok (Node.new ser us uv uc, r.2)
            | .none => .ok (.mk substr value children commit, Option.none)
          | .none => .ok (.mk substr value children commit, Option.none)
      else
        if substr.length > cutAt then
          .ok (.mk substr value children commit, Option.none)
        else do
          let uns ← Node.unsplit ser (.mk substr Option.none children commit)
          .ok (uns, value)

/-- The `Node::remove` operation (fuel instantiated with the key length). -/
def Node.remove (ser : T → List Nat) (n : Node T) (k : List Nat) :
    Except Unit (Node T × Option T) :=
  Node.removeF ser (k.length + 1) n k

/-- Fuel-indexed body of `Node::get`. -/
def Node.getF : Nat → Node T → List Nat → Except Unit (Option T)
  | 0, _, _ => .error ()
  | f + 1, n, k =>
    match n with
    | .wire _ => .error ()
    | .mk substr value children _ =>
      let cutAt := prefixLen k substr
      if substr.length > cutAt then
        .ok Option.none
      else
        if k.length > cutAt then
          match children with
          | .some cs =>
            match kidAt cs (k.getD cutAt 0) with
            | .some child => Node.getF f child (k.drop (cutAt + 1))
            | .none => .ok Option.none
          | .none => .ok Option.none
        else
          .ok value

/-- The `Node::get` operation (fuel instantiated with the key length). -/
def Node.get (n : Node T) (k : List Nat) : Except Unit (Option T) :=
  Node.getF (k.length + 1) n k

/-- Lookup through an optional child: an absent child holds nothing. -/
def onodeGet : ONode T → List Nat → Except Unit (Option T)
  | .none, _ => .ok Option.none
  | .some n, k => Node.get n k

mutual

/-- Structural size of a node, used as a fuel bound for the iterator. -/
def Node.size : Node T → Nat
  | .wire _ => 1
  | .mk _ _ children _ => 1 + OKids.size children

def OKids.size : OKids T → Nat
  | .none => 0
  | .some cs => Kids.size cs

def Kids.size : Kids T → Nat
  | .nil => 0
  | .cons hd tl => ONode.size hd + Kids.size tl

def ONode.size : ONode T → Nat
  | .none => 0
  | .some n => Node.size n

end

mutual

/-- The `Node::valid_commits` integrity check: `some true` is `Ok(())`,
`some false` is `Err(())` (a cached commit differs from the recomputation),
and `none` is the panic the Rust code hits when it recomputes the commit of a
wire node. -/
def Node.validCommits (ser : T → List Nat) : Node T → Option Bool
  | .wire _ => Option.none
  | .mk s v c commit =>
    if commit = commitCalc ser s v c then OKids.validCommits ser c else Option.some false

def OKids.validCommits (ser : T → List Nat) : OKids T → Option Bool
  | .none => Option.some true
  | .some cs => Kids.validCommits ser cs

def Kids.validCommits (ser : T → List Nat) : Kids T → Option Bool
  | .nil => Option.some true
  | .cons hd tl =>
    match ONode.validCommits ser hd with
    | Option.some true => Kids.validCommits ser tl
    | r => r

def ONode.validCommits (ser : T → List Nat) : ONode T → Option Bool
  | .none => Option.some true
  | .some n => Node.validCommits ser n

end

mutual

/-- Every node of the tree carries its payload (`node` is `Some`); the wire
shape occurs nowhere. -/
def Node.noWire : Node T → Bool
  | .wire _ => false
  | .mk _ _ children _ => OKids.noWire children

def OKids.noWire : OKids T → Bool
  | .none => true
  | .some cs => Kids.noWire cs

def Kids.noWire : Kids T → Bool
  | .nil => true
  | .cons hd tl => ONode.noWire hd && Kids.noWire tl

def ONode.noWire : ONode T → Bool
  | .none => true
  | .some n => Node.noWire n

end

mutual

/-- Structural well-formedness: every substr entry is a nibble below 16 and
every materialised child array has exactly 16 slots. On the Rust side this is
forced by the types (`substr` holds nibbles of `u8` keys) and by
`empty_children_array`; outside it the Rust indexing `children[nibble]`
panics, so the embedding only reasons within it. -/
def Node.shape : Node T → Bool
  | .wire _ => true
  | .mk substr _ children _ => substr.all (fun x => x < 16) && OKids.shape children

def OKids.shape : OKids T → Bool
  | .none => true
  | .some cs => (kidsCount cs == 16) && Kids.shape cs

def Kids.shape : Kids T → Bool
  | .nil => true
  | .cons hd tl => ONode.shape hd && Kids.shape tl

def ONode.shape : ONode T → Bool
  | .none => true
  | .some n => Node.shape n

end

mutual

/-- Key-value pairs stored in the subtree in the order the depth-first
iterator emits them: each child subtree in ascending slot order first, then
the node's own value; keys are given relative to the node (its `substr`
prefixes every key). -/
def Node.keyvals : Node T → List (List Nat × T)
  | .wire _ => []
  | .mk substr value children _ =>
    OKids.keyvals children ++ (match value with
      | Option.none => []
      | Option.some v => [([], v)]) |>.map (fun p => (substr ++ p.1, p.2))

def OKids.keyvals : OKids T → List (List Nat × T)
  | .none => []
  | .some cs => Kids.keyvals 0 cs

def Kids.keyvals : Nat → Kids T → List (List Nat × T)
  | _, .nil => []
  | i, .cons hd tl => ONode.keyvals i hd ++ Kids.keyvals (i + 1) tl

def ONode.keyvals : Nat → ONode T → List (List Nat × T)
  | _, .none => []
  | i, .some n => (Node.keyvals n).map (fun p => (i :: p.1, p.2))

end

/-- The values of the subtree in depth-first post-order (children in
ascending slot order, then the node's own value). -/
def Node.postorderVals (n : Node T) : List T := (Node.keyvals n).map Prod.snd

mutual

/-- Sum of a `Nat` weight over every value stored in the subtree. -/
def Node.sumW (w : T → Nat) : Node T → Nat
  | .wire _ => 0
  | .mk _ value children _ =>
    (match value with | Option.none => 0 | Option.some v => w v) + OKids.sumW w children

def OKids.sumW (w : T → Nat) : OKids T → Nat
  | .none => 0
  | .some cs => Kids.sumW w cs

def Kids.sumW (w : T → Nat) : Kids T → Nat
  | .nil => 0
  | .cons hd tl => ONode.sumW w hd + Kids.sumW w tl

def ONode.sumW (w : T → Nat) : ONode T → Nat
  | .none => 0
  | .some n => Node.sumW w n

end

/-- Number of values stored in the subtree. -/
def Node.countVals (n : Node T) : Nat := Node.sumW (fun _ => 1) n

/-!
The depth-first iterator of `MerkleIterator`. The stack holds
`(node, explored)` pairs, head of the list on top. `advance` pushes child
frames until the top frame is explored; `next` then pops it and yields its
value if any. Fuel makes the loops structural; `none` covers both fuel
exhaustion and the panic the Rust `advance` hits when it unwraps the payload
of a wire node.
-/

/-- One `advance` call of `MerkleIterator` (the inner `while` loop). -/
def advanceF (fuel : Nat) : List (Node T × Bool) → Option (List (Node T × Bool)) :=
  match fuel with
  | 0 => fun _ => Option.none
  | f + 1 => fun st =>
    match st with
    | [] => Option.some []
    | (n, explored) :: rest =>
      if explored then Option.some ((n, true) :: rest)
      else
        match n with
        | .wire _ => Option.none
        | .mk _ _ children _ =>
          let pushed := match children with
            | .none => []
            | .some cs => (kidsPresent 0 cs).map (fun p => (p.2, false))
          advanceF f (pushed ++ (n, true) :: rest)

/-- One `next` call of `MerkleIterator` (the outer `while val is none` loop):
yields the next value and the remaining stack, or `some none` when the
traversal is finished. -/
def nextValF (fuel : Nat) : List (Node T × Bool) → Option (Option T × List (Node T × Bool)) :=
  match fuel with
  | 0 => fun _ => Option.none
  | f + 1 => fun st =>
    match advanceF (f + 1) st with
    | Option.none => Option.none
    | Option.some st2 =>
      match st2 with
      | [] => Option.some (Option.none, [])
      | (n, _) :: rest =>
        match n with
        | .wire _ => nextValF f rest
        | .mk _ value _ _ =>
          match value with
          | Option.some v => Option.some (Option.some v, rest)
          | Option.none => nextValF f rest

/-- Run the iterator to completion, collecting the yielded values. -/
def iterListF (fuel : Nat) : List (Node T × Bool) → Option (List T) :=
  match fuel with
  | 0 => fun _ => Option.none
  | f + 1 => fun st =>
    match nextValF (f + 1) st with
    | Option.none => Option.none
    | Option.some (Option.none, _) => Option.some []
    | Option.some (Option.some v, st2) =>
      match iterListF f st2 with
      | Option.none => Option.none
      | Option.some vs => Option.some (v :: vs)

/-- The full iteration of `node.iter()`, with fuel ample for the node's size. -/
def Node.iterList (n : Node T) : Option (List T) :=
  iterListF (4 * Node.size n + 4) [(n, false)]

/-- Values an iterator stack frame will still emit: an unexplored frame its
whole subtree in post-order, an explored frame only its own value. -/
def pendingVals : Node T × Bool → List T
  | (n, false) => Node.postorderVals n
  | (.wire _, true) => []
  | (.mk _ value _ _, true) =>
    match value with
    | Option.none => []
    | Option.some v => [v]

/-- Values a whole iterator stack will still emit, top frame first. -/
def stackVals (st : List (Node T × Bool)) : List T := (st.map pendingVals).flatten

/-- Remaining `advance` expansion steps of an iterator stack. -/
def expCost : List (Node T × Bool) → Nat
  | [] => 0
  | (n, false) :: rest => Node.size n + expCost rest
  | (_, true) :: rest => expCost rest

/-- Remaining pop steps of an iterator stack. -/
def popCost : List (Node T × Bool) → Nat
  | [] => 0
  | (n, false) :: rest => Node.size n + popCost rest
  | (_, true) :: rest => 1 + popCost rest

/-- No frame of the iterator stack holds a wire node. -/
def stackNoWire (st : List (Node T × Bool)) : Prop :=
  ∀ p ∈ st, Node.noWire p.1 = true

/-- Strict lexicographic order on nibble sequences. -/
def lexLtB : List Nat → List Nat → Bool
  | [], [] => false
  | [], _ :: _ => true
  | _ :: _, [] => false
  | x :: xs, y :: ys =>
    if x < y then true else if x = y then lexLtB xs ys else false

/-- Insert a key-value pair into a list sorted by ascending key. -/
def insertByKey (p : List Nat × T) : List (List Nat × T) → List (List Nat × T)
  | [] => [p]
  | q :: rest => if lexLtB q.1 p.1 then q :: insertByKey p rest else p :: q :: rest

/-- Sort key-value pairs by ascending nibble-lexicographic key. -/
def sortByKey : List (List Nat × T) → List (List Nat × T)
  | [] => []
  | p :: rest => insertByKey p (sortByKey rest)

/-- The iteration order the claim describes: the stored values in ascending
nibble-lexicographic order of their keys. Stated from the claim's words, to
be compared with the machine's actual output. -/
def lexOrderVals (n : Node T) : List T := (sortByKey (Node.keyvals n)).map Prod.snd

/-!
The `Map` wrapper of `src/merkle.rs`: byte keys are expanded to nibble
sequences (high nibble first) and handed to the root node. A failing
operation leaves the map unchanged (in Rust the `?` returns before the root
is reassigned).
-/

/-- Byte-to-nibble key expansion; `Map::to_digest`. On a `u8` the high
nibble `byte >> 4` is below 16; the extra `% 16` makes that true of the
model's unbounded naturals as well and agrees with the source on every
actual byte. -/
def toDigest (k : List Nat) : List Nat :=
  (k.map (fun b => [b / 16 % 16, b % 16])).flatten

structure MMap (T : Type) where
  root : Node T

/-- The empty map; `Map::default`. -/
def MMap.default (ser : T → List Nat) : MMap T := ⟨Node.default ser⟩

/-- The `Map::insert` operation. -/
def MMap.insert (ser : T → List Nat) (m : MMap T) (k : List Nat) (v : T) :
    Except Unit (MMap T × Option T) :=
  (Node.insert ser m.root (toDigest k) v).map (fun r => (⟨r.1⟩, r.2))

/-- The `Map::insert` operation with the result discarded, as callers that
ignore the returned `Result` see it: the map is unchanged on error. -/
def MMap.insertD (ser : T → List Nat) (m : MMap T) (k : List Nat) (v : T) : MMap T :=
  match MMap.insert ser m k v with
  | .ok r => r.1
  | .error _ => m

/-- The `Map::remove` operation. -/
def MMap.remove (ser : T → List Nat) (m : MMap T) (k : List Nat) :
    Except Unit (MMap T × Option T) :=
  (Node.remove ser m.root (toDigest k)).map (fun r => (⟨r.1⟩, r.2))

/-- The `Map::remove` operation with the result discarded. -/
def MMap.removeD (ser : T → List Nat) (m : MMap T) (k : List Nat) : MMap T :=
  match MMap.remove ser m k with
  | .ok r => r.1
  | .error _ => m

/-- The `Map::get` operation. -/
def MMap.get (m : MMap T) (k : List Nat) : Except Unit (Option T) :=
  Node.get m.root (toDigest k)

/-- The root commitment; `Map::commit` returns the cached root commit. -/
def MMap.commit (m : MMap T) : List Nat := commitOf m.root

/-- The `Map::valid_commits` integrity check. -/
def MMap.validCommits (ser : T → List Nat) (m : MMap T) : Option Bool :=
  Node.validCommits ser m.root

/-- The `Map::iter` traversal, collected to a list. -/
def MMap.iterList (m : MMap T) : Option (List T) := Node.iterList m.root

/-- Decimal ASCII digits of a natural number (fuelled so it evaluates). -/
def serNatF : Nat → Nat → List Nat
  | 0, _ => []
  | f + 1, n => if n < 10 then [48 + n] else serNatF f (n / 10) ++ [48 + n % 10]

/-- Decimal ASCII digits of a natural number; the `serde_json` encoding of an
unsigned integer. -/
def serNat (n : Nat) : List Nat := serNatF (n + 1) n

/-- The map lookup as the older `MerkleMap` API of `src/state.rs` sees it:
that API returned `Option<&V>` with no trie-level error, so a trie failure is
collapsed into an absent entry. -/
def MMap.getOpt (m : MMap T) (k : List Nat) : Option T :=
  match MMap.get m k with
  | .ok o => o
  | .error _ => Option.none

/-!
Accounts, signatures and transactions (`src/account.rs`, `src/txn.rs`).
Public keys are their raw bytes. A signature is modelled symbolically as the
pair of the signer's public key and the exact byte serialisation that was
signed: `verify` holds exactly when the signature was produced by the claimed
key over the claimed message, the standard idealisation of EdDSA.
-/

/-- A 32-byte ed25519 public key, as raw bytes. -/
def PublicKey := List Nat
deriving DecidableEq

/-- An idealised signature: the signer and the signed serialisation. -/
structure Sig where
  signer : List Nat
  signed : List Nat
deriving DecidableEq

/-- The byte representation of a signature (`Signature::to_bytes`), an
injective encoding used when a signature itself is hashed or serialised. -/
def sigBytes (s : Sig) : List Nat :=
  be64 s.signer.length ++ s.signer ++ s.signed

/-- An account keypair; only the public half matters to the semantics. -/
structure Keypair where
  pk : List Nat
deriving DecidableEq

/-- Produce a signature over already-serialised bytes (`Keypair::sign` after
`serde_json::to_string`). -/
def Keypair.signBytes (kp : Keypair) (bytes : List Nat) : Sig :=
  ⟨kp.pk, bytes⟩

/-- A signed value (`account::Signed<T>`). -/
structure Signed (T : Type) where
  msg : T
  fromPk : List Nat
  sig : Sig
deriving DecidableEq

/-- Signature verification (`Signed::verify`): the signature must name the
sender key and the serialisation of the carried message. -/
def Signed.verify (ser : T → List Nat) (s : Signed T) : Bool :=
  s.sig.signer = s.fromPk && s.sig.signed = ser s.msg

/-- Sign a value (`Keypair::sign`). -/
def Keypair.sign (kp : Keypair) (ser : T → List Nat) (v : T) : Signed T :=
  ⟨v, kp.pk, ⟨kp.pk, ser v⟩⟩

/-- Account state (`account::Data`): balance and nonce, both `u32`. -/
structure AccountData where
  bal : Nat
  nonce : Nat
deriving DecidableEq

/-- Validator slot state (`validator::Data`): the round the slot was staked,
the owner's account public key and the validator's 96-byte BLS public key. -/
structure ValidatorData where
  round : Nat
  owner : List Nat
  validator : List Nat
deriving DecidableEq

/-- A transaction (`txn::Txn`). The `BTreeMap<String, Vec<u8>>` data field is
an association list from ASCII key bytes to value bytes. -/
structure Txn where
  toA : List Nat
  amount : Nat
  nonce : Nat
  data : List (List Nat × List Nat)
deriving DecidableEq

/-- Lookup in the transaction data map (`BTreeMap::get`). -/
def dataGet (d : List (List Nat × List Nat)) (k : List Nat) : Option (List Nat) :=
  match d with
  | [] => Option.none
  | (k2, v) :: rest => if k2 = k then Option.some v else dataGet rest k

/-- ASCII bytes of the string "method". -/
def keyMethod : List Nat := [109, 101, 116, 104, 111, 100]

/-- ASCII bytes of the string "idx". -/
def keyIdx : List Nat := [105, 100, 120]

/-- ASCII bytes of the string "validator". -/
def keyValidator : List Nat := [118, 97, 108, 105, 100, 97, 116, 111, 114]

/-- ASCII bytes of the byte string literal "stake". -/
def bStake : List Nat := [115, 116, 97, 107, 101]

/-- ASCII bytes of the byte string literal "unstake". -/
def bUnstake : List Nat := [117, 110, 115, 116, 97, 107, 101]

/-- JSON array encoding of a byte list (serde_json of a byte sequence). -/
def serArr (l : List Nat) : List Nat :=
  [91] ++ ((l.map serNat).intersperse [44]).flatten ++ [93]

/-- JSON-style encoding of `account::Data` (serde_json model, used for
commitments over account maps). -/
def serAccountData (d : AccountData) : List Nat :=
  [123, 34, 98, 97, 108, 34, 58] ++ serNat d.bal
    ++ [44, 34, 110, 111, 110, 99, 101, 34, 58] ++ serNat d.nonce ++ [125]

/-- JSON-style encoding of `validator::Data`. -/
def serValidatorData (d : ValidatorData) : List Nat :=
  [123, 34, 114, 111, 117, 110, 100, 34, 58] ++ serNat d.round
    ++ [44, 34, 111, 119, 110, 101, 114, 34, 58] ++ serArr d.owner
    ++ [44, 34, 118, 97, 108, 105, 100, 97, 116, 111, 114, 34, 58] ++ serArr d.validator
    ++ [125]

/-- Serialisation of a transaction (serde_json model), the bytes that are
signed and that serialise a transaction inside a block body. -/
def serTxn (t : Txn) : List Nat :=
  [123] ++ serArr t.toA ++ [44] ++ serNat t.amount ++ [44] ++ serNat t.nonce ++ [44]
    ++ ((t.data.map (fun p => serArr p.1 ++ [58] ++ serArr p.2)).intersperse [44]).flatten
    ++ [125]

/-- Serialisation of a signed transaction, the value type of block bodies. -/
def serSignedTxn (s : Signed Txn) : List Nat :=
  [123] ++ serTxn s.msg ++ [44] ++ serArr s.fromPk ++ [44] ++ sigBytes s.sig ++ [125]

/-- `state::VALIDATOR_ROOT`, the all-zero account that routes staking. -/
def VALIDATOR_ROOT : List Nat := List.replicate 32 0

/-- `state::VALIDATOR_SLOTS`. -/
def VALIDATOR_SLOTS : Nat := 256

/-- `state::VALIDATOR_STAKE`. -/
def VALIDATOR_STAKE : Nat := 1024

/-- Transaction-level errors (`state::TxnError`). -/
inductive TxnError where
  | BadFromPk
  | BadSig
  | BadValidPk
  | BadStakeIdx
  | BadMethod
  | InsuffBal
  | InsuffStake
  | SmallNonce
  | BigNonce
deriving DecidableEq

/-- A pending write produced by `State::verify` (`state::Update`). -/
inductive Update where
  | AccountUp (addy : List Nat) (acc : Option AccountData)
  | ValidatorUp (idx : List Nat) (stake : Option ValidatorData)
deriving DecidableEq

/-- The chain state (`state::State`): the accounts map, the validator slot
map, the current round and seed. -/
structure State where
  accounts : MMap AccountData
  validators : MMap ValidatorData
  round : Nat
  seed : List Nat

/-- The pure verification pipeline `State::verify`: check sender account,
signature, nonce and balance, then build the update list for the payload
(payment, or staking when addressed to `VALIDATOR_ROOT`). -/
def State.verify (S : State) (stxn : Signed Txn) : Except TxnError (List Update) :=
  let fromAddy := sha256 stxn.fromPk
  match MMap.getOpt S.accounts fromAddy with
  | Option.none => .error TxnError.BadFromPk
  | Option.some fromAccount =>
    if ¬ Signed.verify serTxn stxn then .error TxnError.BadSig
    else if fromAccount.nonce > stxn.msg.nonce then .error TxnError.SmallNonce
    else if fromAccount.nonce < stxn.msg.nonce then .error TxnError.BigNonce
    else if fromAccount.bal < stxn.msg.amount then .error TxnError.InsuffBal
    else
      let fromAcc2 : AccountData :=
        ⟨fromAccount.bal - stxn.msg.amount, u32 (fromAccount.nonce + 1)⟩
      if stxn.msg.toA = VALIDATOR_ROOT then
        match dataGet stxn.msg.data keyMethod with
        | Option.none => .error TxnError.BadMethod
        | Option.some mv =>
          if mv = bStake then
            match dataGet stxn.msg.data keyIdx with
            | Option.none => .error TxnError.BadStakeIdx
            | Option.some idx =>
              if idx.length ≠ 4 then .error TxnError.BadStakeIdx
              else if stxn.msg.amount ≠ VALIDATOR_STAKE then .error TxnError.InsuffStake
              else
                match dataGet stxn.msg.data keyValidator with
                | Option.none => .error TxnError.BadValidPk
                | Option.some vpk =>
                  if vpk.length ≠ 96 then .error TxnError.BadValidPk
                  else if (MMap.getOpt S.validators idx).isSome then
                    .error TxnError.BadStakeIdx
                  else
                    .ok [Update.AccountUp fromAddy (Option.some fromAcc2),
                         Update.ValidatorUp idx (Option.some ⟨S.round, stxn.fromPk, vpk⟩)]
          else if mv = bUnstake then
            match dataGet stxn.msg.data keyIdx with
            | Option.none => .error TxnError.BadStakeIdx
            | Option.some idx =>
              if idx.length ≠ 4 then .error TxnError.BadStakeIdx
              else if stxn.msg.amount ≠ 0 then .error TxnError.InsuffStake
              else
                match MMap.getOpt S.validators idx with
                | Option.some stakeData =>
                  if stakeData.owner ≠ stxn.fromPk then .error TxnError.BadStakeIdx
                  else
                    .ok [Update.AccountUp fromAddy (Option.some
                          ⟨u32 (fromAcc2.bal + VALIDATOR_STAKE), fromAcc2.nonce⟩),
                         Update.ValidatorUp idx Option.none]
                | Option.none => .error TxnError.BadStakeIdx
          else .error TxnError.BadMethod
      else
        match MMap.getOpt S.accounts stxn.msg.toA with
        | Option.some toAccount =>
          let toAcc2 : AccountData :=
            if fromAddy ≠ stxn.msg.toA then
              ⟨u32 (toAccount.bal + stxn.msg.amount), toAccount.nonce⟩
            else ⟨toAccount.bal, u32 (toAccount.nonce + 1)⟩
          .ok [Update.AccountUp fromAddy (Option.some fromAcc2),
               Update.AccountUp stxn.msg.toA (Option.some toAcc2)]
        | Option.none =>
          .ok [Update.AccountUp fromAddy (Option.some fromAcc2),
               Update.AccountUp stxn.msg.toA (Option.some ⟨stxn.msg.amount, 0⟩)]

/-- Materialise one update into the state (the loop body of `State::apply`;
the ignored `Result` of the map operation leaves the map unchanged on error). -/
def State.applyUpdate (S : State) : Update → State
  | Update.AccountUp addy opt =>
    match opt with
    | Option.some acc => { S with accounts := MMap.insertD serAccountData S.accounts addy acc }
    | Option.none => { S with accounts := MMap.removeD serAccountData S.accounts addy }
  | Update.ValidatorUp idx opt =>
    match opt with
    | Option.some st => { S with validators := MMap.insertD serValidatorData S.validators idx st }
    | Option.none => { S with validators := MMap.removeD serValidatorData S.validators idx }

/-- `State::apply`: verify, then materialise the updates in order. The new
state is returned (the Rust method mutates in place). -/
def State.apply (S : State) (stxn : Signed Txn) : Except TxnError State :=
  match S.verify stxn with
  | .error e => .error e
  | .ok ups => .ok (ups.foldl State.applyUpdate S)

/-- Sum of all account balances in the accounts map. -/
def State.sumBal (S : State) : Nat := Node.sumW AccountData.bal S.accounts.root

/-- Number of occupied validator slots. -/
def State.slotCount (S : State) : Nat := Node.countVals S.validators.root

/-- The conserved quantity: balances plus locked stake. -/
def State.total (S : State) : Nat := S.sumBal + VALIDATOR_STAKE * S.slotCount

/-- Every `u32` field of the state is in range and both maps carry their
payloads everywhere; this is exactly what the Rust types guarantee, so it
delimits the states that exist at all on the Rust side. -/
def State.wf (S : State) : Prop :=
  Node.noWire S.accounts.root = true ∧ Node.noWire S.validators.root = true ∧
  (∀ p ∈ Node.keyvals S.accounts.root, (p.2 : AccountData).bal < 4294967296 ∧
    p.2.nonce < 4294967296)

/-!
Blocks (`src/block.rs`): header metadata, commits, builder and verifier.
-/

/-- `block::TXN_BATCH_SIZE`. -/
def TXN_BATCH_SIZE : Nat := 128

/-- `block::MAX_BLOCK_SIZE`. -/
def MAX_BLOCK_SIZE : Nat := 1024

/-- `block::BLOCK_TIME` in milliseconds. -/
def BLOCK_TIME : Nat := 2000

/-- Header metadata (`block::Metadata`). -/
structure Metadata where
  prevHash : List Nat
  round : Nat
  proposal : Nat
  timestamp : Nat
  seed : List Nat
  beacon : Sig
deriving DecidableEq

/-- Header commitments (`block::Commits`). -/
structure Commits where
  state : List Nat
  txnseq : List Nat
deriving DecidableEq

/-- A block header (`block::Header`). -/
structure Header where
  data : Metadata
  commits : Commits
deriving DecidableEq

/-- `Header::hash`: SHA-256 over the concatenated fields. -/
def Header.hash (h : Header) : List Nat :=
  sha256 (h.data.prevHash ++ be32 h.data.round ++ be32 h.data.proposal
    ++ be64 h.data.timestamp ++ h.data.seed ++ sigBytes h.data.beacon
    ++ h.commits.state ++ h.commits.txnseq)

/-- Serialisation of a header for signing (serde_json model). -/
def serHeader (h : Header) : List Nat :=
  [123] ++ h.data.prevHash ++ [44] ++ be32 h.data.round ++ [44] ++ be32 h.data.proposal
    ++ [44] ++ be64 h.data.timestamp ++ [44] ++ h.data.seed ++ [44]
    ++ sigBytes h.data.beacon ++ [44] ++ h.commits.state ++ [44] ++ h.commits.txnseq ++ [125]

/-- A block: signed header plus transaction-sequence map (`block::Block`). -/
structure Block where
  sheader : Signed Header
  txnseq : MMap (Signed Txn)

/-- A snap: block, its header hash, and the materialised state
(`block::Snap`). -/
structure Snap where
  block : Block
  blockHash : List Nat
  state : State

/-- Commitment of the whole state. Modelled from the spec: `State::commit` is
called by `src/block.rs` but absent from `src/state.rs` (the repository is
mid-refactor); the spec fixes it as the digest of the concatenation of the
component commitments in fixed order, which for this `State` are the accounts
and validator maps. -/
def State.commit (S : State) : List Nat :=
  sha256 (MMap.commit S.accounts ++ MMap.commit S.validators)

/-- `Metadata::new`: metadata for a block extending `head` at `proposal`. -/
def Metadata.new (kp : Keypair) (proposal : Nat) (head : Snap) : Metadata :=
  let timestamp := head.block.sheader.msg.data.timestamp + BLOCK_TIME * proposal
  let beacon := kp.signBytes head.block.sheader.msg.data.seed
  { prevHash := head.blockHash
    round := head.block.sheader.msg.data.round + 1
    proposal := proposal
    timestamp := timestamp
    seed := sha256 (sigBytes beacon)
    beacon := beacon }

/-- The block builder (`block::Builder`). -/
structure Builder where
  txnseq : MMap (Signed Txn)
  batch : Nat
  count : Nat
  state : State
  metadata : Metadata

/-- `Builder::new`: an empty body over a clone of the head state. -/
def Builder.new (kp : Keypair) (proposal : Nat) (head : Snap) : Builder :=
  { txnseq := MMap.default serSignedTxn
    count := 0
    batch := 0
    state := head.state
    metadata := Metadata.new kp proposal head }

/-- Result of one `Builder::add`: success, a rejected transaction with its
error, or the panic of the asserted map insert. -/
inductive AddRes where
  | ok (b : Builder)
  | fail (stxn : Signed Txn) (e : TxnError)
  | panic

/-- `Builder::add`: apply the transaction to the working state; on success
insert it at key `(batch << 32) | count` and advance the counters, rolling
`count` into `batch` every `TXN_BATCH_SIZE` transactions. The `src/state.rs`
`apply` in this tree takes no metadata argument, so the metadata the caller
passes is not consumed. -/
def Builder.add (b : Builder) (stxn : Signed Txn) : AddRes :=
  match State.apply b.state stxn with
  | .error e => AddRes.fail stxn e
  | .ok S2 =>
    let idx := b.batch * 4294967296 + b.count
    match MMap.insert serSignedTxn b.txnseq (be64 idx) stxn with
    | .error _ => AddRes.panic
    | .ok r =>
      let count2 := b.count + 1
      if count2 = TXN_BATCH_SIZE then
        AddRes.ok { b with state := S2, txnseq := r.1, count := 0, batch := u32 (b.batch + 1) }
      else
        AddRes.ok { b with state := S2, txnseq := r.1, count := count2 }

/-- Run a list of transactions through `Builder::add`, requiring every call
to return `Ok`. -/
def Builder.addAll (b : Builder) : List (Signed Txn) → Option Builder
  | [] => Option.some b
  | t :: ts =>
    match b.add t with
    | AddRes.ok b2 => Builder.addAll b2 ts
    | _ => Option.none

/-- `Builder::finalize`: commit state and body, sign the header, and wrap
everything into a `Snap`. -/
def Builder.finalize (b : Builder) (kp : Keypair) : Snap :=
  let header : Header :=
    { data := b.metadata
      commits := { state := b.state.commit, txnseq := MMap.commit b.txnseq } }
  let sig := (kp.sign serHeader header).sig
  { block := { sheader := ⟨header, kp.pk, sig⟩, txnseq := b.txnseq }
    blockHash := header.hash
    state := b.state }

/-- Block-level errors (`block::Error`). -/
inductive BlockError where
  | BadSig
  | BadRound
  | BadBlockTime
  | BadBeacon
  | BadSeed
  | BadTxnseq
  | BadTxn (stxn : Signed Txn) (e : TxnError)
  | BadState
  | NotLeader

/-- The leader draw. Modelled from the spec: `validator::leader` is called by
`src/block.rs` but absent from `src/validator.rs`; the spec draws an index
from the hash chain seeded at `seed`, skips unoccupied slots, counts down the
1-based `proposal`, and returns the owning validator's public key (the
account key the verifier compares the header signer against). The index draw
`floor((u64(H(s)[..8]) / 2^64) * VALIDATOR_SLOTS)` uses `f64` arithmetic, so
it stays an explicit parameter `idxF`; the fuel bounds the rehash chain and
`none` means the draw has not yet resolved within it. -/
def leaderDraw (idxF : List Nat → Nat) (validators : MMap ValidatorData) :
    Nat → List Nat → Nat → Option (List Nat)
  | 0, _, _ => Option.none
  | f + 1, seed, proposal =>
    let i := idxF seed
    let seed2 := sha256 seed
    match MMap.getOpt validators (be32 i) with
    | Option.some d =>
      if proposal ≤ 1 then Option.some d.owner
      else leaderDraw idxF validators f seed2 (proposal - 1)
    | Option.none => leaderDraw idxF validators f seed2 proposal

/-- `Snap::leader`: the leader draw over the head's seed and validator map. -/
def Snap.leader (idxF : List Nat → Nat) (fuel : Nat) (head : Snap) (proposal : Nat) :
    Option (List Nat) :=
  leaderDraw idxF head.state.validators fuel head.block.sheader.msg.data.seed proposal

/-- Replay the body transactions in order through `State::apply`, returning
the offending transaction and error on the first failure. -/
def replayTxns (S : State) : List (Signed Txn) → Except (Signed Txn × TxnError) State
  | [] => .ok S
  | t :: ts =>
    match State.apply S t with
    | .ok S2 => replayTxns S2 ts
    | .error e => .error (t, e)

/-- `Verifier::finalize`: the full check sequence of `src/block.rs`. The
outer `Option` is `none` on the panics of the Rust code (the `assert_eq` on
`prev_hash`, the `unwrap` of the leader draw, and an iterator panic on a
malformed body); `Except` carries the first failing clause. -/
def Verifier.finalize (idxF : List Nat → Nat) (fuel : Nat) (head : Snap) (block : Block) :
    Option (Except (Block × BlockError) Snap) := do
  let header := block.sheader.msg
  if header.data.prevHash ≠ head.blockHash then Option.none else
  if ¬ Signed.verify serHeader block.sheader then
    pure (.error (block, BlockError.BadSig)) else
  if header.data.round ≠ head.block.sheader.msg.data.round + 1 then
    pure (.error (block, BlockError.BadRound)) else
  if header.data.timestamp ≠
      head.block.sheader.msg.data.timestamp + header.data.proposal * BLOCK_TIME then
    pure (.error (block, BlockError.BadBlockTime)) else
  let sbeacon : Signed (List Nat) :=
    ⟨head.block.sheader.msg.data.seed, block.sheader.fromPk, header.data.beacon⟩
  if ¬ Signed.verify id sbeacon then
    pure (.error (block, BlockError.BadBeacon)) else
  if header.data.seed ≠ sha256 (sigBytes header.data.beacon) then
    pure (.error (block, BlockError.BadSeed)) else
  if header.commits.txnseq ≠ MMap.commit block.txnseq then
    pure (.error (block, BlockError.BadTxnseq)) else
  if MMap.validCommits serSignedTxn block.txnseq ≠ Option.some true then
    pure (.error (block, BlockError.BadTxnseq)) else
  let leader ← Snap.leader idxF fuel head header.data.proposal
  if leader ≠ block.sheader.fromPk then
    pure (.error (block, BlockError.NotLeader)) else
  let txns ← MMap.iterList block.txnseq
  match replayTxns head.state txns with
  | .error te => pure (.error (block, BlockError.BadTxn te.1 te.2))
  | .ok S2 =>
    if header.commits.state ≠ S2.commit then
      pure (.error (block, BlockError.BadState))
    else
      pure (.ok { block := block, blockHash := header.hash, state := S2 })

/-!
The node orchestrator (`src/node.rs`), restricted to the state `add_snap`
touches. Mutexes guard fields that are here plain record fields of a
single-threaded transition; the unused `rollups`/`reputations` fields (which
`Node::new` never even initialises) are omitted. `check_leader` reads the
wall clock, so it stays an explicit parameter.
-/

/-- `node::MAX_FORK`, the ring size. -/
def MAX_FORK : Nat := 256

/-- The node state: keypair, own nonce, the ring of snap maps indexed by
round mod `MAX_FORK`, the current head, the optional in-progress builder and
the transaction pool. -/
structure NodeSt where
  kp : Keypair
  nonce : Nat
  snaps : Nat → List (List Nat × Snap)
  head : Snap
  optBuilder : Option Builder
  txpool : List (Signed Txn)

/-- `HashMap::insert`: bind the key, replacing any previous binding. -/
def ringInsert (l : List (List Nat × Snap)) (k : List Nat) (v : Snap) :
    List (List Nat × Snap) :=
  (k, v) :: l.filter (fun p => p.1 ≠ k)

/-- `Node::add_snap`. The `assert!` bounds the round by `head.round + 1` and
is modelled by the outer `Option` (`none` is the panic); when the snap
advances the head, the ring slot is cleared, the head replaced, included
transactions pruned from the pool, and `check_leader` re-run (a parameter,
as it reads the wall clock); in every non-panicking case the snap is finally
inserted into its ring slot under its header hash. -/
def NodeSt.addSnap (checkLeaderF : NodeSt → NodeSt) (st : NodeSt) (snap : Snap) :
    Option NodeSt := do
  let r := snap.block.sheader.msg.data.round
  let hr := st.head.block.sheader.msg.data.round
  if r > hr + 1 then Option.none else
  let st2 ←
    if r = hr + 1 then do
      let included ← MMap.iterList snap.block.txnseq
      let cleared : NodeSt :=
        { st with
          snaps := fun i => if i = r % MAX_FORK then [] else st.snaps i
          head := snap
          txpool := st.txpool.filter (fun t => ¬ included.contains t) }
      pure (checkLeaderF cleared)
    else
      pure st
  pure { st2 with
    snaps := fun i =>
      if i = r % MAX_FORK then
        ringInsert (st2.snaps (r % MAX_FORK)) snap.block.sheader.msg.hash snap
      else st2.snaps i }

/-- The maps reachable from `Map::default()` by any finite sequence of
`insert` and `remove` calls (a failing call leaves the map unchanged, which
`insertD`/`removeD` capture). -/
inductive MapReach (ser : T → List Nat) : MMap T → Prop where
  | base : MapReach ser (MMap.default ser)
  | ins (m : MMap T) (k : List Nat) (v : T) :
      MapReach ser m → MapReach ser (MMap.insertD ser m k v)
  | rem (m : MMap T) (k : List Nat) :
      MapReach ser m → MapReach ser (MMap.removeD ser m k)

/-- The commitment preimage exactly as the claim describes it: the substr
bytes; if a value is present, its canonical serialisation; for each present
child at nibble `i` in ascending order the byte `i` followed by that child's
commitment; the big-endian `u32` length of substr; and one byte holding the
count of present children. Stated from the claim's words, to be compared
with the source-derived `commitPreimage`. -/
def specCommitBytes (ser : T → List Nat) (substr : List Nat) (value : Option T)
    (children : OKids T) : List Nat :=
  let pres := match children with
    | .none => []
    | .some cs => kidsPresent 0 cs
  substr
    ++ (match value with | Option.none => [] | Option.some v => ser v)
    ++ (pres.map (fun p => p.1 :: commitOf p.2)).flatten
    ++ be32 substr.length
    ++ [pres.length]

instance {e a : Type} [DecidableEq e] [DecidableEq a] : DecidableEq (Except e a) :=
  fun x y =>
    match x, y with
    | .ok u, .ok v =>
      if h : u = v then .isTrue (by rw [h]) else .isFalse (fun c => by cases c; exact h rfl)
    | .error u, .error v =>
      if h : u = v then .isTrue (by rw [h]) else .isFalse (fun c => by cases c; exact h rfl)
    | .ok _, .error _ => .isFalse (fun c => by cases c)
    | .error _, .ok _ => .isFalse (fun c => by cases c)

/-- A state holding two accounts of 3 000 000 000 units each: the sender at
`sha256 [1]` and a recipient stored under the id `[7]`. -/
def cexC2State : State :=
  ⟨MMap.insertD serAccountData
      (MMap.insertD serAccountData (MMap.default serAccountData)
        (sha256 [1]) ⟨3000000000, 0⟩) [7] ⟨3000000000, 0⟩,
    MMap.default serValidatorData, 0, []⟩

/-- A correctly signed payment of 2 000 000 000 units from the sender of
`cexC2State` to the recipient `[7]`, overflowing the recipient's `u32`
balance. -/
def cexC2Stxn : Signed Txn :=
  ⟨⟨[7], 2000000000, 0, []⟩, [1], ⟨[1], serTxn ⟨[7], 2000000000, 0, []⟩⟩⟩

/-- A one-account state: 5 units, nonce 0, at `sha256 [2]`. -/
def wC2State : State :=
  ⟨MMap.insertD serAccountData (MMap.default serAccountData)
      (sha256 [2]) ⟨5, 0⟩,
    MMap.default serValidatorData, 0, []⟩

/-- A correctly signed self-payment of 0 from the account of `wC2State`. -/
def wC2Stxn : Signed Txn :=
  ⟨⟨sha256 [2], 0, 0, []⟩, [2], ⟨[2], serTxn ⟨sha256 [2], 0, 0, []⟩⟩⟩

/-- The update list `State::verify` produces for the self-payment
`wC2Stxn` on `wC2State`. -/
def wC2Ups : List Update :=
  [Update.AccountUp (sha256 [2]) (Option.some ⟨5, 1⟩),
   Update.AccountUp (sha256 [2]) (Option.some ⟨5, 1⟩)]

/-- A minimal header at a given round (all byte fields empty). -/
def c7Header (r : Nat) : Header :=
  ⟨⟨[], r, 0, 0, [], ⟨[], []⟩⟩, ⟨[], []⟩⟩

/-- A minimal snap at a given round over empty components. -/
def c7Snap (r : Nat) : Snap :=
  ⟨⟨⟨c7Header r, [], ⟨[], []⟩⟩, MMap.default serSignedTxn⟩, [],
    ⟨MMap.default serAccountData, MMap.default serValidatorData, 0, []⟩⟩

/-- A node whose head sits at round 5, with an empty ring and pool. -/
def c7St : NodeSt :=
  ⟨⟨[]⟩, 0, fun _ => [], c7Snap 5, Option.none, []⟩

/-- A head snap over the one-account state `wC2State` (round 0). -/
def c6Head : Snap :=
  ⟨⟨⟨c7Header 0, [], ⟨[], []⟩⟩, MMap.default serSignedTxn⟩, [], wC2State⟩

/-- The `i`-th self-payment of the C6 chain: amount 0, nonce `i`, correctly
signed from the key `[2]`. -/
def c6Txn (i : Nat) : Signed Txn :=
  ⟨⟨sha256 [2], 0, i, []⟩, [2], ⟨[2], serTxn ⟨sha256 [2], 0, i, []⟩⟩⟩

/-- The self-payments with nonces `i, i + 1, ..., i + k - 1`. -/
def c6TxnsFrom : Nat → Nat → List (Signed Txn)
  | _, 0 => []
  | i, k + 1 => c6Txn i :: c6TxnsFrom (i + 1) k

/-- The key index `Builder::add` uses for the `i`-th accepted transaction:
`(batch << 32) | count` at `batch = i / 128`, `count = i % 128`. -/
def c6Idx (i : Nat) : Nat := i / 128 * 4294967296 + i % 128

/-- Big-endian byte decode, a left inverse of `beBytes`. -/
def debe (l : List Nat) : Nat := l.foldl (fun a b => a * 256 + b) 0

/-- The state after one C6 self-payment: the sender record is double-written
as `(5, u32 (i+1))`; validators, round and seed are untouched. -/
def c6NextState (S : State) (i : Nat) : State :=
  { accounts := MMap.insertD serAccountData
      (MMap.insertD serAccountData S.accounts (sha256 [2])
        ⟨5, u32 (i + 1)⟩) (sha256 [2]) ⟨5, u32 (i + 1)⟩,
    validators := S.validators, round := S.round, seed := S.seed }

/-- A fresh builder over `c6Head`. -/
def c6B0 : Builder := Builder.new ⟨[2]⟩ 1 c6Head

/-- The builder after that one `add` (total function of the `AddRes`). -/
def c6B1 : Builder :=
  match Builder.add c6B0 (c6Txn 0) with
  | AddRes.ok b2 => b2
  | _ => c6B0

/-- A one-account state whose account sits at the `u32` nonce ceiling. -/
def cexC8State : State :=
  ⟨MMap.insertD serAccountData (MMap.default serAccountData)
      (sha256 [3]) ⟨7, 4294967295⟩,
    MMap.default serValidatorData, 0, []⟩

/-- A correctly signed self-payment of 0 at nonce `2^32 - 1` from the
account of `cexC8State`. -/
def cexC8Stxn : Signed Txn :=
  ⟨⟨sha256 [3], 0, 4294967295, []⟩, [3],
    ⟨[3], serTxn ⟨sha256 [3], 0, 4294967295, []⟩⟩⟩

/-- A one-validator slot map: slot 0 owned by the account key `[7]`. -/
def c1Vals : MMap ValidatorData :=
  MMap.insertD serValidatorData (MMap.default serValidatorData) (be32 0) ⟨0, [7], [9]⟩

/-- A head snap whose state has the single validator of `c1Vals`, so the
constant-zero index draw elects the owner `[7]` at proposal 1. -/
def c1Head : Snap :=
  ⟨⟨⟨c7Header 0, [], ⟨[], []⟩⟩, MMap.default serSignedTxn⟩, [],
    ⟨MMap.default serAccountData, c1Vals, 0, []⟩⟩

section MerkleSanity

/-!
Sanity checks reproducing the unit tests of `src/merkle.rs` (`tests::insert`,
`tests::get`, `tests::remove`, `tests::iter`) against the embedding, with
`T = Nat` and the `serde_json` integer encoding.
-/

private def sN : Nat → List Nat := serNat

private def n0 : Node Nat := Node.default sN

private def insOk (n : Node Nat) (k : List Nat) (v : Nat) : Node Nat :=
  match Node.insert sN n k v with
  | .ok r => r.1
  | .error _ => n

example :
    (Node.insert sN (insOk (insOk (insOk n0 [0, 1, 2, 3] 0) [0, 1, 2] 1) [0] 2)
      [0, 1, 2] 9).map (fun r => r.2) = .ok (Option.some 1) := by decide

example :
    ((insOk (insOk (insOk (insOk (insOk n0 [0, 1, 0] 0) [0, 1, 2, 3, 4] 1) [1] 2)
      [0, 2] 3) [0, 3, 4] 4).get [0, 1, 2, 3, 4]) = .ok (Option.some 1) := by decide

example :
    ((insOk (insOk (insOk (insOk (insOk n0 [0, 1, 0] 0) [0, 1, 2, 3, 4] 1) [1] 2)
      [0, 2] 3) [0, 3, 4] 4).get [0, 1, 2, 3]) = .ok Option.none := by decide

example :
    (insOk (insOk (insOk (insOk (insOk (insOk n0 [] 0) [0, 1, 2, 3] 1)
      [0, 1, 2, 3, 4, 5] 2) [1, 2, 3, 4, 5] 3) [1, 2, 3, 4, 6] 4) [2] 5).iterList =
      Option.some [2, 1, 3, 4, 5, 0] := by decide

example :
    (Node.remove sN (insOk (insOk n0 [] 0) [0, 2, 4] 3) [0, 2, 4]).map
      (fun r => r.2) = .ok (Option.some 3) := by decide

example :
    (Node.validCommits sN (insOk (insOk n0 [] 0) [0, 1, 2, 3, 4, 5] 2)) =
      Option.some true := by decide

end MerkleSanity

/-!
General lemmas about the trie operations, used by the claim proofs below.
-/

section TrieLemmas

variable {T : Type} {ser : T → List Nat} {w : T → Nat}

theorem prefixLen_le_left : ∀ (a b : List Nat), prefixLen a b ≤ a.length
  | [], _ => by simp [prefixLen]
  | _ :: _, [] => by simp [prefixLen]
  | a :: as_, b :: bs => by
    by_cases h : a = b <;> simp [prefixLen, h]
    exact prefixLen_le_left as_ bs

theorem prefixLen_le_right : ∀ (a b : List Nat), prefixLen a b ≤ b.length
  | [], _ => by simp [prefixLen]
  | _ :: _, [] => by simp [prefixLen]
  | a :: as_, b :: bs => by
    by_cases h : a = b <;> simp [prefixLen, h]
    exact prefixLen_le_right as_ bs

theorem prefixLen_refl : ∀ (a : List Nat), prefixLen a a = a.length
  | [] => by simp [prefixLen]
  | a :: as_ => by simp [prefixLen, prefixLen_refl as_]

theorem prefixLen_left_prefix : ∀ (a b : List Nat), prefixLen a b = a.length →
    a = b.take a.length
  | [], b => by simp
  | a :: as_, [] => by simp [prefixLen]
  | a :: as_, b :: bs => by
    by_cases h : a = b <;> simp [prefixLen, h]
    intro h2
    exact prefixLen_left_prefix as_ bs h2

theorem prefixLen_take : ∀ (a b : List Nat) (c : Nat),
    prefixLen a (b.take c) = min (prefixLen a b) c
  | [], b, c => by simp [prefixLen]
  | a :: as_, [], c => by simp [prefixLen]
  | a :: as_, b :: bs, 0 => by simp [prefixLen]
  | a :: as_, b :: bs, c + 1 => by
    by_cases h : a = b <;> simp [prefixLen, h, prefixLen_take as_ bs c]
    omega

theorem prefixLen_drop : ∀ (a b : List Nat) (j : Nat), j ≤ prefixLen a b →
    prefixLen (a.drop j) (b.drop j) = prefixLen a b - j
  | a, b, 0, _ => by simp
  | a :: as_, b :: bs, j + 1, h => by
    by_cases hab : a = b
    · have h2 : j ≤ prefixLen as_ bs := by simp [prefixLen, hab] at h; omega
      have h3 := prefixLen_drop as_ bs j h2
      simp [prefixLen, hab, List.drop_succ_cons, h3]
    · simp [prefixLen, hab] at h
  | [], b, j + 1, h => by simp [prefixLen] at h
  | a :: as_, [], j + 1, h => by simp [prefixLen] at h

theorem prefixLen_take_self (a b : List Nat) :
    prefixLen a (b.take (prefixLen a b)) = prefixLen a b := by
  simp [prefixLen_take]

theorem prefixLen_mismatch : ∀ (a b : List Nat), prefixLen a b < a.length →
    prefixLen a b < b.length → a.getD (prefixLen a b) 0 ≠ b.getD (prefixLen a b) 0
  | [], b, h, _ => by simp at h
  | a :: as_, [], _, h => by simp [prefixLen] at h
  | a :: as_, b :: bs, h1, h2 => by
    by_cases h : a = b
    · have h1a : prefixLen as_ bs < as_.length := by simp [prefixLen, h] at h1; omega
      have h2a : prefixLen as_ bs < bs.length := by simp [prefixLen, h] at h2; omega
      have h3 := prefixLen_mismatch as_ bs h1a h2a
      simpa [prefixLen, h] using h3
    · simp [prefixLen, h]

theorem prefixLen_agree : ∀ (a b : List Nat) (j : Nat), j < prefixLen a b →
    a.getD j 0 = b.getD j 0
  | a :: as_, b :: bs, 0, h => by
    by_cases hab : a = b
    · simpa using hab
    · simp [prefixLen, hab] at h
  | a :: as_, b :: bs, j + 1, h => by
    by_cases hab : a = b
    · have h2 : j < prefixLen as_ bs := by simp [prefixLen, hab] at h; omega
      simpa using prefixLen_agree as_ bs j h2
    · simp [prefixLen, hab] at h
  | [], b, j, h => by simp [prefixLen] at h
  | a :: as_, [], j, h => by simp [prefixLen] at h

theorem kidAt_emptyKids : ∀ (n i : Nat), kidAt (emptyKids n : Kids T) i = .none
  | 0, _ => by simp [emptyKids, kidAt]
  | n + 1, 0 => by simp [emptyKids, kidAt]
  | n + 1, i + 1 => by simpa [emptyKids, kidAt] using kidAt_emptyKids n i

theorem kidsLen_emptyKids : ∀ n : Nat, (emptyKids n : Kids T).size = 0 := by
  intro n
  induction n with
  | zero => simp [emptyKids, Kids.size]
  | succ n ih => simp [emptyKids, Kids.size, ONode.size, ih]

theorem kidsCount_emptyKids : ∀ n : Nat, kidsCount (emptyKids n : Kids T) = n
  | 0 => by simp [emptyKids, kidsCount]
  | n + 1 => by simp [emptyKids, kidsCount, kidsCount_emptyKids n]

theorem kidsCount_kidSet : ∀ (cs : Kids T) (i : Nat) (x : ONode T),
    kidsCount (kidSet cs i x) = kidsCount cs
  | .nil, _, _ => rfl
  | .cons _ tl, 0, x => rfl
  | .cons hd tl, i + 1, x => by simp [kidSet, kidsCount, kidsCount_kidSet tl i x]

theorem kidAt_kidSet_same : ∀ (cs : Kids T) (i : Nat) (x : ONode T),
    i < kidsCount cs → kidAt (kidSet cs i x) i = x
  | .cons _ tl, 0, x, _ => rfl
  | .cons hd tl, i + 1, x, h => by
    simpa [kidSet, kidAt] using kidAt_kidSet_same tl i x (by simpa [kidsCount] using h)
  | .nil, i, x, h => by simp [kidsCount] at h

theorem kidAt_kidSet_ne : ∀ (cs : Kids T) (i j : Nat) (x : ONode T),
    j ≠ i → kidAt (kidSet cs i x) j = kidAt cs j
  | .nil, _, _, _, _ => rfl
  | .cons _ tl, 0, 0, x, h => absurd rfl h
  | .cons _ tl, 0, j + 1, x, h => rfl
  | .cons _ tl, i + 1, 0, x, h => rfl
  | .cons hd tl, i + 1, j + 1, x, h => by
    simpa [kidSet, kidAt] using kidAt_kidSet_ne tl i j x (by omega)

theorem kidsSumW_kidSet (w : T → Nat) : ∀ (cs : Kids T) (i : Nat) (x : ONode T),
    i < kidsCount cs →
    Kids.sumW w (kidSet cs i x) + ONode.sumW w (kidAt cs i) =
      Kids.sumW w cs + ONode.sumW w x
  | .nil, i, x, h => by simp [kidsCount] at h
  | .cons hd tl, 0, x, _ => by simp [kidSet, kidAt, Kids.sumW]; omega
  | .cons hd tl, i + 1, x, h => by
    have h2 := kidsSumW_kidSet w tl i x (by simpa [kidsCount] using h)
    simp only [kidSet, kidAt, Kids.sumW]
    omega

theorem kidsNoWire_kidSet : ∀ (cs : Kids T) (i : Nat) (x : ONode T),
    Kids.noWire cs = true → ONode.noWire x = true →
    Kids.noWire (kidSet cs i x) = true
  | .nil, _, _, h, _ => h
  | .cons hd tl, 0, x, h, hx => by
    simp [Kids.noWire] at h
    simp [kidSet, Kids.noWire, hx, h.2]
  | .cons hd tl, i + 1, x, h, hx => by
    simp [Kids.noWire] at h
    simp [kidSet, Kids.noWire, h.1, kidsNoWire_kidSet tl i x h.2 hx]

theorem kidsValid_kidSet : ∀ (cs : Kids T) (i : Nat) (x : ONode T),
    Kids.validCommits ser cs = Option.some true →
    ONode.validCommits ser x = Option.some true →
    Kids.validCommits ser (kidSet cs i x) = Option.some true
  | .nil, _, _, h, _ => h
  | .cons hd tl, 0, x, h, hx => by
    simp only [Kids.validCommits] at h ⊢
    cases hh : ONode.validCommits ser hd with
    | none => simp [hh] at h
    | some b =>
      cases b with
      | false => simp [hh] at h
      | true => simp [hh] at h; simp [kidSet, Kids.validCommits, hx, h]
  | .cons hd tl, i + 1, x, h, hx => by
    simp only [Kids.validCommits] at h ⊢
    cases hh : ONode.validCommits ser hd with
    | none => simp [hh] at h
    | some b =>
      cases b with
      | false => simp [hh] at h
      | true =>
        simp [hh] at h
        simp [kidSet, Kids.validCommits, hh, kidsValid_kidSet tl i x h hx]

theorem kidsNoWire_kidAt : ∀ (cs : Kids T) (i : Nat),
    Kids.noWire cs = true → ONode.noWire (kidAt cs i) = true
  | .nil, _, _ => rfl
  | .cons hd tl, 0, h => by simp [Kids.noWire] at h; simpa [kidAt] using h.1
  | .cons hd tl, i + 1, h => by
    simp [Kids.noWire] at h
    simpa [kidAt] using kidsNoWire_kidAt tl i h.2

theorem kidsValid_kidAt : ∀ (cs : Kids T) (i : Nat) (c : Node T),
    Kids.validCommits ser cs = Option.some true → kidAt cs i = .some c →
    Node.validCommits ser c = Option.some true
  | .cons hd tl, 0, c, h, ha => by
    simp only [Kids.validCommits] at h
    cases hh : ONode.validCommits ser hd with
    | none => simp [hh] at h
    | some b =>
      cases b with
      | false => simp [hh] at h
      | true => simp [kidAt] at ha; subst ha; simpa [ONode.validCommits] using hh
  | .cons hd tl, i + 1, c, h, ha => by
    simp only [Kids.validCommits] at h
    cases hh : ONode.validCommits ser hd with
    | none => simp [hh] at h
    | some b =>
      cases b with
      | false => simp [hh] at h
      | true => simp [hh] at h; exact kidsValid_kidAt tl i c h (by simpa [kidAt] using ha)
  | .nil, i, c, h, ha => by simp [kidAt] at ha

theorem kidsSumW_kidAt (w : T → Nat) : ∀ (cs : Kids T) (i : Nat),
    ONode.sumW w (kidAt cs i) ≤ Kids.sumW w cs
  | .nil, _ => by simp [kidAt, ONode.sumW]
  | .cons hd tl, 0 => by simp only [kidAt, Kids.sumW]; omega
  | .cons hd tl, i + 1 => by
    have h2 := kidsSumW_kidAt w tl i
    simp only [kidAt, Kids.sumW]
    omega

theorem getD_drop : ∀ (l : List Nat) (j i : Nat), (l.drop j).getD i 0 = l.getD (j + i) 0
  | l, 0, i => by simp
  | [], j + 1, i => by simp
  | x :: xs, j + 1, i => by
    simpa [List.drop_succ_cons, Nat.succ_add] using getD_drop xs j i

theorem kidsShape_kidSet : ∀ (cs : Kids T) (i : Nat) (x : ONode T),
    Kids.shape cs = true → ONode.shape x = true →
    Kids.shape (kidSet cs i x) = true
  | .nil, _, _, h, _ => h
  | .cons hd tl, 0, x, h, hx => by
    simp [Kids.shape] at h
    simp [kidSet, Kids.shape, hx, h.2]
  | .cons hd tl, i + 1, x, h, hx => by
    simp [Kids.shape] at h
    simp [kidSet, Kids.shape, h.1, kidsShape_kidSet tl i x h.2 hx]

theorem kidsShape_kidAt : ∀ (cs : Kids T) (i : Nat),
    Kids.shape cs = true → ONode.shape (kidAt cs i) = true
  | .nil, _, _ => rfl
  | .cons hd tl, 0, h => by simp [Kids.shape] at h; simpa [kidAt] using h.1
  | .cons hd tl, i + 1, h => by
    simp [Kids.shape] at h
    simpa [kidAt] using kidsShape_kidAt tl i h.2

theorem kidsShape_emptyKids : ∀ n : Nat, Kids.shape (emptyKids n : Kids T) = true
  | 0 => rfl
  | n + 1 => by simp [emptyKids, Kids.shape, ONode.shape, kidsShape_emptyKids n]

theorem kidsNoWire_emptyKids : ∀ n : Nat, Kids.noWire (emptyKids n : Kids T) = true
  | 0 => rfl
  | n + 1 => by simp [emptyKids, Kids.noWire, ONode.noWire, kidsNoWire_emptyKids n]

theorem kidsValid_emptyKids : ∀ n : Nat,
    Kids.validCommits ser (emptyKids n : Kids T) = Option.some true
  | 0 => rfl
  | n + 1 => by
    simp [emptyKids, Kids.validCommits, ONode.validCommits, kidsValid_emptyKids n]

theorem kidsSumW_emptyKids (w : T → Nat) : ∀ n : Nat, Kids.sumW w (emptyKids n : Kids T) = 0
  | 0 => rfl
  | n + 1 => by simp [emptyKids, Kids.sumW, ONode.sumW, kidsSumW_emptyKids w n]

theorem sumW_mk (w : T → Nat) (s : List Nat) (v : Option T) (c : OKids T) (cm : List Nat) :
    Node.sumW w (.mk s v c cm) = optW w v + OKids.sumW w c := by
  cases v <;> rfl

theorem sumW_new (w : T → Nat) (s : List Nat) (v : Option T) (c : OKids T) :
    Node.sumW w (Node.new ser s v c) = optW w v + OKids.sumW w c := by
  cases v <;> rfl

theorem noWire_new (s : List Nat) (v : Option T) (c : OKids T) :
    Node.noWire (Node.new ser s v c) = OKids.noWire c := rfl

theorem shape_new (s : List Nat) (v : Option T) (c : OKids T) :
    Node.shape (Node.new ser s v c) = (s.all (fun x => x < 16) && OKids.shape c) := rfl

theorem commitOf_new (s : List Nat) (v : Option T) (c : OKids T) :
    commitOf (Node.new ser s v c) = commitCalc ser s v c := rfl

theorem validCommits_new (s : List Nat) (v : Option T) (c : OKids T) :
    Node.validCommits ser (Node.new ser s v c) = OKids.validCommits ser c := by
  simp [Node.new, Node.validCommits]

theorem validCommits_mk_iff (s : List Nat) (v : Option T) (c : OKids T) (cm : List Nat) :
    Node.validCommits ser (.mk s v c cm) = Option.some true ↔
      (cm = commitCalc ser s v c ∧ OKids.validCommits ser c = Option.some true) := by
  simp only [Node.validCommits]
  by_cases h : cm = commitCalc ser s v c <;> simp [h]

theorem getF_mono : ∀ (f g : Nat) (n : Node T) (k : List Nat), k.length < f → k.length < g →
    Node.getF f n k = Node.getF g n k
  | f + 1, g + 1, .wire c, k, _, _ => rfl
  | f + 1, g + 1, .mk s v c cm, k, hf, hg => by
    simp only [Node.getF]
    by_cases h1 : s.length > prefixLen k s
    · simp [h1]
    · simp only [if_neg h1]
      by_cases h2 : k.length > prefixLen k s
      · simp only [if_pos h2]
        cases c with
        | none => rfl
        | some cs =>
          dsimp only
          cases hk : kidAt cs (k.getD (prefixLen k s) 0) with
          | none => rfl
          | some child =>
            have hl : (k.drop (prefixLen k s + 1)).length < f := by
              simp only [List.length_drop]; omega
            have hl2 : (k.drop (prefixLen k s + 1)).length < g := by
              simp only [List.length_drop]; omega
            exact getF_mono f g child _ hl hl2
      · simp [h2]
  | 0, _, _, k, hf, _ => by omega
  | _ + 1, 0, _, k, _, hg => by omega

/-- One-step unfolding of `Node::get` on a present node, with the recursive
call phrased through the fuel-free wrapper. -/
theorem get_unfold (s : List Nat) (v : Option T) (c : OKids T) (cm : List Nat) (k : List Nat) :
    Node.get (.mk s v c cm) k =
      if s.length > prefixLen k s then .ok Option.none
      else if k.length > prefixLen k s then
        (match c with
          | OKids.some cs =>
            (match kidAt cs (k.getD (prefixLen k s) 0) with
              | ONode.some child => Node.get child (k.drop (prefixLen k s + 1))
              | ONode.none => .ok Option.none)
          | OKids.none => .ok Option.none)
      else .ok v := by
  simp only [Node.get, Node.getF]
  by_cases h1 : s.length > prefixLen k s
  · simp [h1]
  · simp only [if_neg h1]
    by_cases h2 : k.length > prefixLen k s
    · simp only [if_pos h2]
      cases c with
      | none => rfl
      | some cs =>
        dsimp only
        cases hk : kidAt cs (k.getD (prefixLen k s) 0) with
        | none => rfl
        | some child =>
          have hp := prefixLen_le_left k s
          exact getF_mono k.length ((k.drop (prefixLen k s + 1)).length + 1) child
            (k.drop (prefixLen k s + 1)) (by simp only [List.length_drop]; omega) (by omega)
    · simp [h2]

/-- A freshly created leaf holds its value exactly at its substr key. -/
theorem get_leaf (s : List Nat) (v : T) (k : List Nat) :
    Node.get (Node.new ser s (Option.some v) .none) k =
      .ok (if k = s then Option.some v else Option.none) := by
  rw [Node.new, get_unfold]
  by_cases h1 : s.length > prefixLen k s
  · simp only [if_pos h1]
    have : k ≠ s := by
      intro h; subst h; simp [prefixLen_refl] at h1
    simp [this]
  · simp only [if_neg h1]
    by_cases h2 : k.length > prefixLen k s
    · simp only [if_pos h2]
      have : k ≠ s := by
        intro h; subst h; simp [prefixLen_refl] at h2
      simp [this]
    · have hp1 := prefixLen_le_left k s
      have hp2 := prefixLen_le_right k s
      have hk : prefixLen k s = k.length := by omega
      have hs : prefixLen k s = s.length := by omega
      have hks : k = s := by
        have h3 := prefixLen_left_prefix k s hk
        have hls : k.length = s.length := by omega
        rw [hls, List.take_length] at h3
        exact h3
      rw [if_neg h2, if_pos hks]

/-- Keys shorter than or diverging from the substr of a childless node
resolve to nothing. -/
theorem get_strip (s : List Nat) (v : Option T) (c : OKids T) (cm cm2 : List Nat)
    (k : List Nat) (j : Nat) (hj : j ≤ prefixLen k s) :
    Node.get (.mk (s.drop j) v c cm2) (k.drop j) = Node.get (.mk s v c cm) k := by
  have hps := prefixLen_le_right k s
  have hpk := prefixLen_le_left k s
  have hd := prefixLen_drop k s j hj
  rw [get_unfold, get_unfold]
  simp only [List.length_drop, hd]
  by_cases h1 : s.length > prefixLen k s
  · have : s.length - j > prefixLen k s - j := by omega
    simp [h1, this]
  · have h1b : ¬ s.length - j > prefixLen k s - j := by omega
    simp only [if_neg h1, if_neg h1b]
    by_cases h2 : k.length > prefixLen k s
    · have h2b : k.length - j > prefixLen k s - j := by omega
      simp only [if_pos h2, if_pos h2b]
      have hidx : (k.drop j).getD (prefixLen k s - j) 0 = k.getD (prefixLen k s) 0 := by
        rw [getD_drop]; congr 1; omega
      rw [hidx]
      cases c with
      | none => rfl
      | some cs =>
        dsimp only
        cases kidAt cs (k.getD (prefixLen k s) 0) with
        | none => rfl
        | some child =>
          have hdd : List.drop (prefixLen k s - j + 1) (List.drop j k) =
              List.drop (prefixLen k s + 1) k := by
            rw [List.drop_drop]; congr 1; omega
          rw [hdd]
    · have h2b : ¬ k.length - j > prefixLen k s - j := by omega
      simp [h2, h2b]


theorem getD_mem : ∀ (l : List Nat) (i : Nat), i < l.length → l.getD i 0 ∈ l
  | x :: xs, 0, _ => by simp
  | x :: xs, i + 1, h => by
    simpa using Or.inr (getD_mem xs i (by simpa using h))

theorem split_lt (s : List Nat) (v : Option T) (c : OKids T) (cm : List Nat) (cut : Nat)
    (h : cut < s.length) :
    Node.split ser (.mk s v c cm) cut = .ok (Node.new ser (s.take cut) Option.none
      (.some (kidSet (emptyKids 16) (s.getD cut 0)
        (.some (Node.new ser (s.drop (cut + 1)) v c))))) := by
  simp [Node.split, h]

theorem split_ge_some (s : List Nat) (v : Option T) (cs : Kids T) (cm : List Nat) (cut : Nat)
    (h : ¬ cut < s.length) :
    Node.split ser (.mk s v (.some cs) cm) cut = .ok (Node.new ser s v (.some cs)) := by
  simp [Node.split, h]

theorem split_ge_none (s : List Nat) (v : Option T) (cm : List Nat) (cut : Nat)
    (h : ¬ cut < s.length) :
    Node.split ser (.mk s v .none cm) cut =
      .ok (Node.new ser s v (.some (emptyKids 16))) := by
  simp [Node.split, h]

theorem get_split (s : List Nat) (v : Option T) (c : OKids T) (cm : List Nat)
    (hs16 : ∀ x ∈ s, x < 16) (cut : Nat) (n2 : Node T)
    (h : Node.split ser (.mk s v c cm) cut = .ok n2) (k2 : List Nat) :
    Node.get n2 k2 = Node.get (.mk s v c cm) k2 := by
  by_cases hc : cut < s.length
  · rw [split_lt s v c cm cut hc] at h
    injection h with h
    subst h
    have hp1 := prefixLen_le_left k2 s
    have hp2 := prefixLen_le_right k2 s
    conv_lhs => rw [Node.new, get_unfold]
    simp only [prefixLen_take, List.length_take]
    by_cases ha : prefixLen k2 s < cut
    · have h1 : min cut s.length > min (prefixLen k2 s) cut := by omega
      rw [if_pos h1, get_unfold, if_pos (show s.length > prefixLen k2 s by omega)]
    · have hmin : min (prefixLen k2 s) cut = cut := by omega
      have h1 : ¬ min cut s.length > min (prefixLen k2 s) cut := by omega
      rw [if_neg h1]
      by_cases hb : k2.length > cut
      · have hb2 : k2.length > min (prefixLen k2 s) cut := by omega
        rw [if_pos hb2, hmin]
        by_cases hdiv : prefixLen k2 s = cut
        · have hne : k2.getD cut 0 ≠ s.getD cut 0 := by
            have h3 := prefixLen_mismatch k2 s (by omega) (by omega)
            rwa [hdiv] at h3
          rw [kidAt_kidSet_ne _ _ _ _ hne, kidAt_emptyKids]
          rw [get_unfold, if_pos (show s.length > prefixLen k2 s by omega)]
        · have hgt : cut < prefixLen k2 s := by omega
          have heq : k2.getD cut 0 = s.getD cut 0 := prefixLen_agree k2 s cut hgt
          rw [heq, kidAt_kidSet_same _ _ _ (by rw [kidsCount_emptyKids]; exact hs16 _ (getD_mem s cut hc))]
          rw [Node.new]
          exact get_strip s v c cm _ k2 (cut + 1) (by omega)
      · have hb2 : ¬ k2.length > min (prefixLen k2 s) cut := by omega
        rw [if_neg hb2, get_unfold, if_pos (show s.length > prefixLen k2 s by omega)]
  · cases c with
    | some cs =>
      rw [split_ge_some s v cs cm cut hc] at h
      injection h with h
      subst h
      rw [Node.new, get_unfold, get_unfold]
    | none =>
      rw [split_ge_none s v cm cut hc] at h
      injection h with h
      subst h
      rw [Node.new, get_unfold, get_unfold]
      by_cases h1 : s.length > prefixLen k2 s
      · simp [h1]
      · rw [if_neg h1, if_neg h1]
        by_cases h2 : k2.length > prefixLen k2 s
        · rw [if_pos h2, if_pos h2]
          dsimp only
          rw [kidAt_emptyKids]
        · rw [if_neg h2, if_neg h2]


theorem prefixLen_take_eq : ∀ (a b : List Nat) (c : Nat), c ≤ prefixLen a b →
    a.take c = b.take c
  | _, _, 0, _ => by simp
  | a :: as_, b :: bs, c + 1, h => by
    by_cases hab : a = b
    · have h2 : c ≤ prefixLen as_ bs := by simp [prefixLen, hab] at h; omega
      simp [hab, prefixLen_take_eq as_ bs c h2]
    · simp [prefixLen, hab] at h
  | [], b, c + 1, h => by simp [prefixLen] at h
  | a :: as_, [], c + 1, h => by simp [prefixLen] at h

theorem list_eq_of_parts : ∀ (k k2 : List Nat) (c : Nat), c < k.length → c < k2.length →
    k.take c = k2.take c → k.getD c 0 = k2.getD c 0 → k.drop (c + 1) = k2.drop (c + 1) →
    k = k2
  | a :: as_, b :: bs, 0, _, _, _, hg, hd => by
    simp at hg hd
    simp [hg, hd]
  | a :: as_, b :: bs, c + 1, h1, h2, ht, hg, hd => by
    simp at ht hg hd
    have := list_eq_of_parts as_ bs c (by simpa using h1) (by simpa using h2) ht.2
      (by simpa using hg) (by simpa using hd)
    simp [ht.1, this]
  | [], _, c, h1, _, _, _, _ => by simp at h1
  | a :: as_, [], c, _, h2, _, _, _ => by simp at h2

/-- The fork case of `Node::insert`: the key leaves the substr at `cutAt`
inside it, so the node splits and a fresh leaf is hung off the key's nibble. -/
theorem insertF_fork (f : Nat) (s : List Nat) (v : Option T) (c : OKids T) (cm : List Nat)
    (k : List Nat) (vnew : T)
    (hk : k.length > prefixLen k s) (hs : prefixLen k s < s.length) :
    Node.insertF ser (f + 1) (.mk s v c cm) k vnew =
      .ok (Node.new ser (s.take (prefixLen k s)) Option.none
        (.some (kidSet
          (kidSet (emptyKids 16) (s.getD (prefixLen k s) 0)
            (.some (Node.new ser (s.drop (prefixLen k s + 1)) v c)))
          (k.getD (prefixLen k s) 0)
          (.some (Node.new ser (k.drop (prefixLen k s + 1)) (Option.some vnew) .none)))),
        Option.none) := by
  have hne : k.getD (prefixLen k s) 0 ≠ s.getD (prefixLen k s) 0 :=
    prefixLen_mismatch k s hk hs
  simp only [Node.insertF, split_lt s v c cm _ hs, Except.bind, bind]
  rw [Node.new]
  simp only [if_pos hk]
  rw [kidAt_kidSet_ne _ _ _ _ hne, kidAt_emptyKids]

/-- The continue case of `Node::insert` with a present child: recurse. -/
theorem insertF_child (f : Nat) (s : List Nat) (v : Option T) (cs : Kids T) (cm : List Nat)
    (k : List Nat) (vnew : T) (child : Node T) (r : Node T × Option T)
    (hk : k.length > prefixLen k s) (hs : ¬ prefixLen k s < s.length)
    (hc : kidAt cs (k.getD (prefixLen k s) 0) = .some child)
    (hr : Node.insertF ser f child (k.drop (prefixLen k s + 1)) vnew = .ok r) :
    Node.insertF ser (f + 1) (.mk s v (.some cs) cm) k vnew =
      .ok (Node.new ser s v (.some (kidSet cs (k.getD (prefixLen k s) 0) (.some r.1))), r.2) := by
  simp only [Node.insertF, split_ge_some s v cs cm _ hs, Except.bind, bind]
  rw [Node.new]
  simp only [if_pos hk]
  rw [hc]
  simp only [hr]

/-- The continue case of `Node::insert` with no child at the nibble: hang a
fresh leaf. -/
theorem insertF_leaf_some (f : Nat) (s : List Nat) (v : Option T) (cs : Kids T) (cm : List Nat)
    (k : List Nat) (vnew : T)
    (hk : k.length > prefixLen k s) (hs : ¬ prefixLen k s < s.length)
    (hc : kidAt cs (k.getD (prefixLen k s) 0) = .none) :
    Node.insertF ser (f + 1) (.mk s v (.some cs) cm) k vnew =
      .ok (Node.new ser s v (.some (kidSet cs (k.getD (prefixLen k s) 0)
        (.some (Node.new ser (k.drop (prefixLen k s + 1)) (Option.some vnew) .none)))),
        Option.none) := by
  simp only [Node.insertF, split_ge_some s v cs cm _ hs, Except.bind, bind]
  rw [Node.new]
  simp only [if_pos hk]
  rw [hc]

/-- As `insertF_leaf_some`, starting from a node with no child array. -/
theorem insertF_leaf_none (f : Nat) (s : List Nat) (v : Option T) (cm : List Nat)
    (k : List Nat) (vnew : T)
    (hk : k.length > prefixLen k s) (hs : ¬ prefixLen k s < s.length) :
    Node.insertF ser (f + 1) (.mk s v .none cm) k vnew =
      .ok (Node.new ser s v (.some (kidSet (emptyKids 16) (k.getD (prefixLen k s) 0)
        (.some (Node.new ser (k.drop (prefixLen k s + 1)) (Option.some vnew) .none)))),
        Option.none) := by
  simp only [Node.insertF, split_ge_none s v cm _ hs, Except.bind, bind]
  rw [Node.new]
  simp only [if_pos hk]
  rw [kidAt_emptyKids]

/-- The contained case of `Node::insert`: the key ends strictly inside the
substr; split there and take the value. -/
theorem insertF_contained (f : Nat) (s : List Nat) (v : Option T) (c : OKids T) (cm : List Nat)
    (k : List Nat) (vnew : T)
    (hk : ¬ k.length > prefixLen k s) (hs : prefixLen k s < s.length) :
    Node.insertF ser (f + 1) (.mk s v c cm) k vnew =
      .ok (Node.new ser (s.take (prefixLen k s)) (Option.some vnew)
        (.some (kidSet (emptyKids 16) (s.getD (prefixLen k s) 0)
          (.some (Node.new ser (s.drop (prefixLen k s + 1)) v c)))),
        Option.none) := by
  simp only [Node.insertF, split_lt s v c cm _ hs, Except.bind, bind]
  rw [Node.new]
  simp only [if_neg hk, if_pos (show s.length > prefixLen k s from hs)]

/-- The exact case of `Node::insert` on a node with a child array: replace
the value and return the old one. -/
theorem insertF_exact_some (f : Nat) (s : List Nat) (v : Option T) (cs : Kids T) (cm : List Nat)
    (k : List Nat) (vnew : T)
    (hk : ¬ k.length > prefixLen k s) (hs : ¬ prefixLen k s < s.length) :
    Node.insertF ser (f + 1) (.mk s v (.some cs) cm) k vnew =
      .ok (Node.new ser s (Option.some vnew) (.some cs), v) := by
  simp only [Node.insertF, split_ge_some s v cs cm _ hs, Except.bind, bind]
  rw [Node.new]
  simp only [if_neg hk, if_neg (show ¬ s.length > prefixLen k s from hs)]

/-- As `insertF_exact_some`, materialising the empty child array. -/
theorem insertF_exact_none (f : Nat) (s : List Nat) (v : Option T) (cm : List Nat)
    (k : List Nat) (vnew : T)
    (hk : ¬ k.length > prefixLen k s) (hs : ¬ prefixLen k s < s.length) :
    Node.insertF ser (f + 1) (.mk s v .none cm) k vnew =
      .ok (Node.new ser s (Option.some vnew) (.some (emptyKids 16)), v) := by
  simp only [Node.insertF, split_ge_none s v cm _ hs, Except.bind, bind]
  rw [Node.new]
  simp only [if_neg hk, if_neg (show ¬ s.length > prefixLen k s from hs)]


/-- Only the node's own value distinguishes the two sides, and the key does
not end exactly at the substr, so the lookups agree. -/
theorem get_replace_value (s2 : List Nat) (v1 v2 : Option T) (c : OKids T)
    (cm1 cm2 : List Nat) (k2 : List Nat) (hk2 : k2 ≠ s2) :
    Node.get (.mk s2 v1 c cm1) k2 = Node.get (.mk s2 v2 c cm2) k2 := by
  rw [get_unfold, get_unfold]
  by_cases h1 : s2.length > prefixLen k2 s2
  · simp [h1]
  · rw [if_neg h1, if_neg h1]
    by_cases h2 : k2.length > prefixLen k2 s2
    · rw [if_pos h2, if_pos h2]
    · exfalso
      have hp1 := prefixLen_le_left k2 s2
      have hp2 := prefixLen_le_right k2 s2
      have hkl : prefixLen k2 s2 = k2.length := by omega
      have hsl : k2.length = s2.length := by omega
      have h3 := prefixLen_left_prefix k2 s2 hkl
      rw [hsl, List.take_length] at h3
      exact hk2 h3

/-- Replacing the child at one slot only changes lookups that descend into
that slot, and there only as the replacement differs from the original. -/
theorem get_replace_child (s2 : List Nat) (v2 : Option T) (cs : Kids T)
    (cm1 cm2 : List Nat) (idx : Nat) (x : ONode T) (k2 : List Nat)
    (hcount : kidsCount cs = 16) (hidx : idx < 16)
    (hrepl : prefixLen k2 s2 = s2.length → k2.length > s2.length →
      k2.getD s2.length 0 = idx →
      onodeGet x (k2.drop (s2.length + 1)) =
        onodeGet (kidAt cs idx) (k2.drop (s2.length + 1))) :
    Node.get (.mk s2 v2 (.some (kidSet cs idx x)) cm1) k2 =
      Node.get (.mk s2 v2 (.some cs) cm2) k2 := by
  rw [get_unfold, get_unfold]
  by_cases h1 : s2.length > prefixLen k2 s2
  · simp [h1]
  · rw [if_neg h1, if_neg h1]
    by_cases h2 : k2.length > prefixLen k2 s2
    · rw [if_pos h2, if_pos h2]
      have hp2 := prefixLen_le_right k2 s2
      have hps : prefixLen k2 s2 = s2.length := by omega
      dsimp only
      by_cases hj : k2.getD (prefixLen k2 s2) 0 = idx
      · rw [hj, kidAt_kidSet_same _ _ _ (by omega)]
        have h3 := hrepl hps (by omega) (by rw [← hps]; exact hj)
        rw [← hps] at h3
        cases x with
        | none =>
          simp only [onodeGet] at h3
          cases hki : kidAt cs idx with
          | none => rfl
          | some child => rw [hki] at h3; simpa [onodeGet] using h3
        | some xn =>
          simp only [onodeGet] at h3
          cases hki : kidAt cs idx with
          | none => rw [hki] at h3; simpa [onodeGet] using h3
          | some child => rw [hki] at h3; simpa [onodeGet] using h3
      · rw [kidAt_kidSet_ne _ _ _ _ hj]
    · rw [if_neg h2, if_neg h2]


theorem shape_mk (s : List Nat) (v : Option T) (c : OKids T) (cm : List Nat) :
    Node.shape (.mk s v c cm) = (s.all (fun x => x < 16) && OKids.shape c) := rfl

theorem okidsShape_some (cs : Kids T) :
    OKids.shape (.some cs) = ((kidsCount cs == 16) && Kids.shape cs) := rfl

theorem okidsSumW_some (w : T → Nat) (cs : Kids T) :
    OKids.sumW w (.some cs) = Kids.sumW w cs := rfl

theorem okidsSumW_none (w : T → Nat) : OKids.sumW w (.none : OKids T) = 0 := rfl

theorem onodeSumW_some (w : T → Nat) (n : Node T) : ONode.sumW w (.some n) = Node.sumW w n := rfl

theorem onodeSumW_none (w : T → Nat) : ONode.sumW w (.none : ONode T) = 0 := rfl

theorem insertF_child_err (f : Nat) (s : List Nat) (v : Option T) (cs : Kids T)
    (cm : List Nat) (k : List Nat) (vnew : T) (child : Node T) (e : Unit)
    (hk : k.length > prefixLen k s) (hs : ¬ prefixLen k s < s.length)
    (hc : kidAt cs (k.getD (prefixLen k s) 0) = .some child)
    (hr : Node.insertF ser f child (k.drop (prefixLen k s + 1)) vnew = .error e) :
    Node.insertF ser (f + 1) (.mk s v (.some cs) cm) k vnew = .error e := by
  simp only [Node.insertF, split_ge_some s v cs cm _ hs, Except.bind, bind]
  rw [Node.new]
  simp only [if_pos hk]
  rw [hc]
  simp only [hr]

/-- A materialised empty child array looks exactly like no child array to
lookups. -/
theorem get_none_vs_empty (s : List Nat) (v : Option T) (cm1 cm2 : List Nat)
    (k2 : List Nat) :
    Node.get (.mk s v (.some (emptyKids 16)) cm1) k2 = Node.get (.mk s v .none cm2) k2 := by
  rw [get_unfold, get_unfold]
  by_cases h1 : s.length > prefixLen k2 s
  · simp [h1]
  · rw [if_neg h1, if_neg h1]
    by_cases h2 : k2.length > prefixLen k2 s
    · rw [if_pos h2, if_pos h2]
      dsimp only
      rw [kidAt_emptyKids]
    · rw [if_neg h2, if_neg h2]

theorem all16_sub (s t : List Nat) (hsub : ∀ x ∈ t, x ∈ s)
    (h : s.all (fun x => x < 16) = true) : t.all (fun x => x < 16) = true := by
  simp only [List.all_eq_true, decide_eq_true_eq] at h ⊢
  exact fun x hx => h x (hsub x hx)

theorem noWire_mk (s : List Nat) (v : Option T) (c : OKids T) (cm : List Nat) :
    Node.noWire (.mk s v c cm) = OKids.noWire c := rfl

theorem okidsNoWire_some (cs : Kids T) : OKids.noWire (.some cs) = Kids.noWire cs := rfl

theorem onodeNoWire_some (n : Node T) : ONode.noWire (.some n) = Node.noWire n := rfl

theorem okidsValid_some (cs : Kids T) :
    OKids.validCommits ser (.some cs) = Kids.validCommits ser cs := rfl

theorem onodeValid_some (n : Node T) :
    ONode.validCommits ser (.some n) = Node.validCommits ser n := rfl

theorem onodeShape_some (n : Node T) : ONode.shape (.some n) = Node.shape n := rfl

/-- The full behavioural specification of one successful `Node::insert`:
the key now reads the new value, the returned value is the previous lookup,
every other key is untouched, and shape, payload presence, commit validity
and weighted value sums are maintained. -/
theorem insert_spec : ∀ (f : Nat) (n : Node T) (k : List Nat) (vnew : T)
    (n2 : Node T) (old : Option T),
    Node.insertF ser f n k vnew = .ok (n2, old) →
    Node.shape n = true → (∀ x ∈ k, x < 16) →
    Node.get n2 k = .ok (Option.some vnew) ∧
    Node.get n k = .ok old ∧
    (∀ k2, k2 ≠ k → Node.get n2 k2 = Node.get n k2) ∧
    Node.shape n2 = true ∧
    (Node.noWire n = true → Node.noWire n2 = true) ∧
    (Node.validCommits ser n = Option.some true →
      Node.validCommits ser n2 = Option.some true) ∧
    (∀ w : T → Nat, Node.sumW w n2 + optW w old = Node.sumW w n + w vnew)
  | 0, n, k, vnew, n2, old, h, _, _ => by simp [Node.insertF] at h
  | f + 1, .wire cm, k, vnew, n2, old, h, _, _ => by simp [Node.insertF] at h
  | f + 1, .mk s v c cm, k, vnew, n2, old, h, hshape, hk16 => by
    have hpk := prefixLen_le_left k s
    have hps := prefixLen_le_right k s
    have hsh : s.all (fun x => x < 16) = true ∧ OKids.shape c = true := by
      rw [shape_mk] at hshape; simpa using hshape
    have hs16 : ∀ x ∈ s, x < 16 := by
      have h4 := hsh.1; simpa [List.all_eq_true] using h4
    by_cases hk : k.length > prefixLen k s
    · have hik : k.getD (prefixLen k s) 0 < 16 := hk16 _ (getD_mem k _ hk)
      by_cases hs : prefixLen k s < s.length
      · rw [insertF_fork f s v c cm k vnew hk hs] at h
        injection h with h
        rw [Prod.mk.injEq] at h
        obtain ⟨h1, h2⟩ := h
        subst h1; subst h2
        have his : s.getD (prefixLen k s) 0 < 16 := hs16 _ (getD_mem s _ hs)
        have hne : k.getD (prefixLen k s) 0 ≠ s.getD (prefixLen k s) 0 :=
          prefixLen_mismatch k s hk hs
        have hc0 : kidsCount (kidSet (emptyKids 16) (s.getD (prefixLen k s) 0)
            (.some (Node.new ser (s.drop (prefixLen k s + 1)) v c)) : Kids T) = 16 := by
          rw [kidsCount_kidSet, kidsCount_emptyKids]
        have hsplen : (s.take (prefixLen k s)).length = prefixLen k s := by
          simp; omega
        have hktake : k.take (prefixLen k s) = s.take (prefixLen k s) :=
          prefixLen_take_eq k s _ (le_refl _)
        refine ⟨?_, ?_, ?_, ?_, ?_, ?_, ?_⟩
        · rw [Node.new, get_unfold, prefixLen_take, min_self, hsplen,
            if_neg (lt_irrefl (prefixLen k s)), if_pos hk]
          dsimp only
          rw [kidAt_kidSet_same _ _ _ (by rw [kidsCount_kidSet, kidsCount_emptyKids]; exact hik)]
          dsimp only
          rw [get_leaf, if_pos rfl]
        · rw [get_unfold, if_pos hs]
        · intro k2 hk2
          have hsplit := @get_split T ser s v c cm hs16 (prefixLen k s) _
            (@split_lt T ser s v c cm _ hs) k2
          rw [← hsplit, Node.new, Node.new]
          refine get_replace_child _ _ _ _ _ _ _ k2 hc0 hik ?_
          rw [hsplen]
          intro hpp hlen hidx
          rw [kidAt_kidSet_ne _ _ _ _ hne, kidAt_emptyKids]
          simp only [onodeGet]
          have hkne : ¬ (k2.drop (prefixLen k s + 1) = k.drop (prefixLen k s + 1)) := by
            intro hdrop
            refine hk2 (list_eq_of_parts k2 k (prefixLen k s) (by omega) (by omega) ?_ ?_ hdrop)
            · have h5 := prefixLen_take_eq k2 (s.take (prefixLen k s)) (prefixLen k s)
                (by rw [hpp])
              rw [List.take_take, min_self] at h5
              rw [h5, hktake]
            · rw [hidx]
          rw [get_leaf, if_neg hkne]
        · rw [shape_new]
          simp only [Bool.and_eq_true, okidsShape_some, beq_iff_eq]
          refine ⟨all16_sub s _ (fun x hx => List.take_subset _ _ hx) hsh.1, ?_, ?_⟩
          · rw [kidsCount_kidSet, kidsCount_kidSet, kidsCount_emptyKids]
          · refine kidsShape_kidSet _ _ _ (kidsShape_kidSet _ _ _ (kidsShape_emptyKids 16) ?_) ?_
            · rw [onodeShape_some, shape_new]
              simp only [Bool.and_eq_true]
              exact ⟨all16_sub s _ (fun x hx => List.drop_subset _ _ hx) hsh.1, hsh.2⟩
            · rw [onodeShape_some, shape_new]
              simp only [Bool.and_eq_true]
              refine ⟨?_, rfl⟩
              simp only [List.all_eq_true, decide_eq_true_eq]
              exact fun x hx => hk16 x (List.drop_subset _ _ hx)
        · intro hnw
          rw [noWire_mk] at hnw
          rw [noWire_new, okidsNoWire_some]
          refine kidsNoWire_kidSet _ _ _ (kidsNoWire_kidSet _ _ _ (kidsNoWire_emptyKids 16) ?_) ?_
          · rw [onodeNoWire_some, noWire_new]; exact hnw
          · rw [onodeNoWire_some, noWire_new]; rfl
        · intro hv
          rw [validCommits_mk_iff] at hv
          rw [validCommits_new, okidsValid_some]
          refine kidsValid_kidSet _ _ _ (kidsValid_kidSet _ _ _ (kidsValid_emptyKids 16) ?_) ?_
          · rw [onodeValid_some, validCommits_new]; exact hv.2
          · rw [onodeValid_some, validCommits_new]; rfl
        · intro w
          have e1 := kidsSumW_kidSet w
            (kidSet (emptyKids 16) (s.getD (prefixLen k s) 0)
              (.some (Node.new ser (s.drop (prefixLen k s + 1)) v c)))
            (k.getD (prefixLen k s) 0)
            (.some (Node.new ser (k.drop (prefixLen k s + 1)) (Option.some vnew) .none))
            (by rw [hc0]; exact hik)
          have e2 := kidsSumW_kidSet w (emptyKids 16) (s.getD (prefixLen k s) 0)
            (.some (Node.new ser (s.drop (prefixLen k s + 1)) v c))
            (by rw [kidsCount_emptyKids]; exact his)
          rw [kidAt_kidSet_ne _ _ _ _ hne, kidAt_emptyKids] at e1
          rw [kidAt_emptyKids, kidsSumW_emptyKids] at e2
          simp only [onodeSumW_none, onodeSumW_some, sumW_new, sumW_mk,
            okidsSumW_some, okidsSumW_none, optW] at e1 e2 ⊢
          omega
      · cases c with
        | some cs =>
          have hcnt : kidsCount cs = 16 := by
            rw [okidsShape_some] at hsh
            have h4 := hsh.2
            simp [Bool.and_eq_true, beq_iff_eq] at h4
            exact h4.1
          have hkshape : Kids.shape cs = true := by
            rw [okidsShape_some] at hsh
            have h4 := hsh.2
            simp [Bool.and_eq_true] at h4
            exact h4.2
          cases hcc : kidAt cs (k.getD (prefixLen k s) 0) with
          | some child =>
            cases hr : Node.insertF ser f child (k.drop (prefixLen k s + 1)) vnew with
            | error e =>
              rw [insertF_child_err f s v cs cm k vnew child e hk hs hcc hr] at h
              cases h
            | ok r =>
              rw [insertF_child f s v cs cm k vnew child r hk hs hcc hr] at h
              injection h with h
              rw [Prod.mk.injEq] at h
              obtain ⟨h1, h2⟩ := h
              subst h1; subst h2
              have hchsh : Node.shape child = true := by
                have h4 := kidsShape_kidAt cs (k.getD (prefixLen k s) 0) hkshape
                rw [hcc, onodeShape_some] at h4
                exact h4
              have hsfx : ∀ x ∈ k.drop (prefixLen k s + 1), x < 16 :=
                fun x hx => hk16 x (List.drop_subset _ _ hx)
              obtain ⟨ih1, ih2, ih3, ih4, ih5, ih6, ih7⟩ :=
                insert_spec f child (k.drop (prefixLen k s + 1)) vnew r.1 r.2
                  (by rw [hr]) hchsh hsfx
              have hseq : prefixLen k s = s.length := by omega
              refine ⟨?_, ?_, ?_, ?_, ?_, ?_, ?_⟩
              · rw [Node.new, get_unfold, if_neg hs, if_pos hk]
                dsimp only
                rw [kidAt_kidSet_same _ _ _ (by rw [hcnt]; exact hik)]
                dsimp only
                exact ih1
              · rw [get_unfold, if_neg hs, if_pos hk]
                dsimp only
                rw [hcc]
                exact ih2
              · intro k2 hk2
                rw [Node.new]
                refine get_replace_child _ _ _ _ _ _ _ k2 hcnt hik ?_
                rw [← hseq]
                intro hpp hlen hidx
                rw [hcc]
                simp only [onodeGet]
                refine ih3 _ ?_
                intro hdrop
                refine hk2 (list_eq_of_parts k2 k (prefixLen k s) (by omega) (by omega) ?_ ?_ hdrop)
                · have h5 := prefixLen_take_eq k2 s (prefixLen k s) (by omega)
                  have h6 := prefixLen_take_eq k s (prefixLen k s) (by omega)
                  rw [h5, h6]
                · rw [hidx]
              · rw [shape_new]
                simp only [Bool.and_eq_true, okidsShape_some, beq_iff_eq]
                exact ⟨hsh.1, by rw [kidsCount_kidSet]; exact hcnt,
                  kidsShape_kidSet _ _ _ hkshape (by rw [onodeShape_some]; exact ih4)⟩
              · intro hnw
                rw [noWire_mk, okidsNoWire_some] at hnw
                rw [noWire_new, okidsNoWire_some]
                have hchnw : Node.noWire child = true := by
                  have h4 := kidsNoWire_kidAt cs (k.getD (prefixLen k s) 0) hnw
                  rw [hcc, onodeNoWire_some] at h4
                  exact h4
                exact kidsNoWire_kidSet _ _ _ hnw (by rw [onodeNoWire_some]; exact ih5 hchnw)
              · intro hv
                rw [validCommits_mk_iff] at hv
                rw [validCommits_new, okidsValid_some]
                rw [okidsValid_some] at hv
                have hchv : Node.validCommits ser child = Option.some true :=
                  kidsValid_kidAt cs _ child hv.2 hcc
                exact kidsValid_kidSet _ _ _ hv.2 (by rw [onodeValid_some]; exact ih6 hchv)
              · intro w
                have e1 := kidsSumW_kidSet w cs (k.getD (prefixLen k s) 0) (.some r.1)
                  (by rw [hcnt]; exact hik)
                rw [hcc] at e1
                have e3 := ih7 w
                simp only [onodeSumW_some, sumW_new, sumW_mk, okidsSumW_some] at e1 e3 ⊢
                omega
          | none =>
            rw [insertF_leaf_some f s v cs cm k vnew hk hs hcc] at h
            injection h with h
            rw [Prod.mk.injEq] at h
            obtain ⟨h1, h2⟩ := h
            subst h1; subst h2
            have hseq : prefixLen k s = s.length := by omega
            refine ⟨?_, ?_, ?_, ?_, ?_, ?_, ?_⟩
            · rw [Node.new, get_unfold, if_neg hs, if_pos hk]
              dsimp only
              rw [kidAt_kidSet_same _ _ _ (by rw [hcnt]; exact hik)]
              dsimp only
              rw [get_leaf, if_pos rfl]
            · rw [get_unfold, if_neg hs, if_pos hk]
              dsimp only
              rw [hcc]
            · intro k2 hk2
              rw [Node.new]
              refine get_replace_child _ _ _ _ _ _ _ k2 hcnt hik ?_
              rw [← hseq]
              intro hpp hlen hidx
              rw [hcc]
              simp only [onodeGet]
              have hkne : ¬ (k2.drop (prefixLen k s + 1) = k.drop (prefixLen k s + 1)) := by
                intro hdrop
                refine hk2 (list_eq_of_parts k2 k (prefixLen k s) (by omega) (by omega) ?_ ?_ hdrop)
                · have h5 := prefixLen_take_eq k2 s (prefixLen k s) (by omega)
                  have h6 := prefixLen_take_eq k s (prefixLen k s) (by omega)
                  rw [h5, h6]
                · rw [hidx]
              rw [get_leaf, if_neg hkne]
            · rw [shape_new]
              simp only [Bool.and_eq_true, okidsShape_some, beq_iff_eq]
              refine ⟨hsh.1, by rw [kidsCount_kidSet]; exact hcnt,
                kidsShape_kidSet _ _ _ hkshape ?_⟩
              rw [onodeShape_some, shape_new]
              simp only [Bool.and_eq_true]
              refine ⟨?_, rfl⟩
              simp only [List.all_eq_true, decide_eq_true_eq]
              exact fun x hx => hk16 x (List.drop_subset _ _ hx)
            · intro hnw
              rw [noWire_mk, okidsNoWire_some] at hnw
              rw [noWire_new, okidsNoWire_some]
              exact kidsNoWire_kidSet _ _ _ hnw (by rw [onodeNoWire_some, noWire_new]; rfl)
            · intro hv
              rw [validCommits_mk_iff] at hv
              rw [validCommits_new, okidsValid_some]
              rw [okidsValid_some] at hv
              exact kidsValid_kidSet _ _ _ hv.2 (by rw [onodeValid_some, validCommits_new]; rfl)
            · intro w
              have e1 := kidsSumW_kidSet w cs (k.getD (prefixLen k s) 0)
                (.some (Node.new ser (k.drop (prefixLen k s + 1)) (Option.some vnew) .none))
                (by rw [hcnt]; exact hik)
              rw [hcc] at e1
              simp only [onodeSumW_none, onodeSumW_some, sumW_new, sumW_mk,
                okidsSumW_some, okidsSumW_none, optW] at e1 ⊢
              omega
        | none =>
          rw [insertF_leaf_none f s v cm k vnew hk hs] at h
          injection h with h
          rw [Prod.mk.injEq] at h
          obtain ⟨h1, h2⟩ := h
          subst h1; subst h2
          have hseq : prefixLen k s = s.length := by omega
          refine ⟨?_, ?_, ?_, ?_, ?_, ?_, ?_⟩
          · rw [Node.new, get_unfold, if_neg hs, if_pos hk]
            dsimp only
            rw [kidAt_kidSet_same _ _ _ (by rw [kidsCount_emptyKids]; exact hik)]
            dsimp only
            rw [get_leaf, if_pos rfl]
          · rw [get_unfold, if_neg hs, if_pos hk]
          · intro k2 hk2
            rw [Node.new]
            rw [show Node.get (.mk s v .none cm) k2 =
              Node.get (.mk s v (.some (emptyKids 16)) cm) k2 from
              (get_none_vs_empty s v _ cm k2).symm]
            refine get_replace_child _ _ _ _ _ _ _ k2 (kidsCount_emptyKids 16) hik ?_
            rw [← hseq]
            intro hpp hlen hidx
            rw [kidAt_emptyKids]
            simp only [onodeGet]
            have hkne : ¬ (k2.drop (prefixLen k s + 1) = k.drop (prefixLen k s + 1)) := by
              intro hdrop
              refine hk2 (list_eq_of_parts k2 k (prefixLen k s) (by omega) (by omega) ?_ ?_ hdrop)
              · have h5 := prefixLen_take_eq k2 s (prefixLen k s) (by omega)
                have h6 := prefixLen_take_eq k s (prefixLen k s) (by omega)
                rw [h5, h6]
              · rw [hidx]
            rw [get_leaf, if_neg hkne]
          · rw [shape_new]
            simp only [Bool.and_eq_true, okidsShape_some, beq_iff_eq]
            refine ⟨hsh.1, by rw [kidsCount_kidSet, kidsCount_emptyKids],
              kidsShape_kidSet _ _ _ (kidsShape_emptyKids 16) ?_⟩
            rw [onodeShape_some, shape_new]
            simp only [Bool.and_eq_true]
            refine ⟨?_, rfl⟩
            simp only [List.all_eq_true, decide_eq_true_eq]
            exact fun x hx => hk16 x (List.drop_subset _ _ hx)
          · intro hnw
            rw [noWire_new, okidsNoWire_some]
            exact kidsNoWire_kidSet _ _ _ (kidsNoWire_emptyKids 16)
              (by rw [onodeNoWire_some, noWire_new]; rfl)
          · intro hv
            rw [validCommits_new, okidsValid_some]
            exact kidsValid_kidSet _ _ _ (kidsValid_emptyKids 16)
              (by rw [onodeValid_some, validCommits_new]; rfl)
          · intro w
            have e1 := kidsSumW_kidSet w (emptyKids 16) (k.getD (prefixLen k s) 0)
              (.some (Node.new ser (k.drop (prefixLen k s + 1)) (Option.some vnew) .none))
              (by rw [kidsCount_emptyKids]; exact hik)
            rw [kidAt_emptyKids, kidsSumW_emptyKids] at e1
            simp only [onodeSumW_none, onodeSumW_some, sumW_new, sumW_mk,
              okidsSumW_some, okidsSumW_none, optW] at e1 ⊢
            omega
    · have hkl : prefixLen k s = k.length := by omega
      have hkeq : k = s.take (prefixLen k s) := by
        have h5 := prefixLen_left_prefix k s hkl
        rw [← hkl] at h5
        exact h5
      by_cases hs : prefixLen k s < s.length
      · rw [insertF_contained f s v c cm k vnew hk hs] at h
        injection h with h
        rw [Prod.mk.injEq] at h
        obtain ⟨h1, h2⟩ := h
        subst h1; subst h2
        have his : s.getD (prefixLen k s) 0 < 16 := hs16 _ (getD_mem s _ hs)
        have hsplen : (s.take (prefixLen k s)).length = prefixLen k s := by
          simp; omega
        refine ⟨?_, ?_, ?_, ?_, ?_, ?_, ?_⟩
        · rw [Node.new, get_unfold, prefixLen_take, min_self, hsplen,
            if_neg (lt_irrefl (prefixLen k s)), if_neg (by omega : ¬ k.length > prefixLen k s)]
        · rw [get_unfold, if_pos hs]
        · intro k2 hk2
          have hsplit := @get_split T ser s v c cm hs16 (prefixLen k s) _
            (@split_lt T ser s v c cm _ hs) k2
          rw [← hsplit, Node.new, Node.new]
          refine get_replace_value _ _ _ _ _ _ k2 ?_
          rw [← hkeq]
          exact hk2
        · rw [shape_new]
          simp only [Bool.and_eq_true, okidsShape_some, beq_iff_eq]
          refine ⟨all16_sub s _ (fun x hx => List.take_subset _ _ hx) hsh.1,
            by rw [kidsCount_kidSet, kidsCount_emptyKids], ?_⟩
          refine kidsShape_kidSet _ _ _ (kidsShape_emptyKids 16) ?_
          rw [onodeShape_some, shape_new]
          simp only [Bool.and_eq_true]
          exact ⟨all16_sub s _ (fun x hx => List.drop_subset _ _ hx) hsh.1, hsh.2⟩
        · intro hnw
          rw [noWire_mk] at hnw
          rw [noWire_new, okidsNoWire_some]
          refine kidsNoWire_kidSet _ _ _ (kidsNoWire_emptyKids 16) ?_
          rw [onodeNoWire_some, noWire_new]
          exact hnw
        · intro hv
          rw [validCommits_mk_iff] at hv
          rw [validCommits_new, okidsValid_some]
          refine kidsValid_kidSet _ _ _ (kidsValid_emptyKids 16) ?_
          rw [onodeValid_some, validCommits_new]
          exact hv.2
        · intro w
          have e2 := kidsSumW_kidSet w (emptyKids 16) (s.getD (prefixLen k s) 0)
            (.some (Node.new ser (s.drop (prefixLen k s + 1)) v c))
            (by rw [kidsCount_emptyKids]; exact his)
          rw [kidAt_emptyKids, kidsSumW_emptyKids] at e2
          simp only [onodeSumW_none, onodeSumW_some, sumW_new, sumW_mk,
            okidsSumW_some, okidsSumW_none, optW] at e2 ⊢
          omega
      · have hseq : prefixLen k s = s.length := by omega
        have hkseq : k = s := by
          have h5 := prefixLen_left_prefix k s hkl
          rw [hkl] at hkl
          have hls : k.length = s.length := by omega
          rw [hls, List.take_length] at h5
          exact h5
        cases c with
        | some cs =>
          rw [insertF_exact_some f s v cs cm k vnew hk hs] at h
          injection h with h
          rw [Prod.mk.injEq] at h
          obtain ⟨h1, h2⟩ := h
          subst h1; subst h2
          refine ⟨?_, ?_, ?_, ?_, ?_, ?_, ?_⟩
          · rw [Node.new, get_unfold, if_neg hs, if_neg hk]
          · rw [get_unfold, if_neg hs, if_neg hk]
          · intro k2 hk2
            rw [Node.new]
            refine get_replace_value _ _ _ _ _ _ k2 ?_
            rw [← hkseq]
            exact hk2
          · rw [shape_new]
            simp only [Bool.and_eq_true]
            exact ⟨hsh.1, hsh.2⟩
          · intro hnw
            rw [noWire_mk] at hnw
            rw [noWire_new]
            exact hnw
          · intro hv
            rw [validCommits_mk_iff] at hv
            rw [validCommits_new]
            exact hv.2
          · intro w
            simp only [sumW_new, sumW_mk, optW, okidsSumW_some]
            cases v <;> simp [optW] <;> omega
        | none =>
          rw [insertF_exact_none f s v cm k vnew hk hs] at h
          injection h with h
          rw [Prod.mk.injEq] at h
          obtain ⟨h1, h2⟩ := h
          subst h1; subst h2
          refine ⟨?_, ?_, ?_, ?_, ?_, ?_, ?_⟩
          · rw [Node.new, get_unfold, if_neg hs, if_neg hk]
          · rw [get_unfold, if_neg hs, if_neg hk]
          · intro k2 hk2
            rw [Node.new]
            rw [show Node.get (.mk s v .none cm) k2 =
              Node.get (.mk s v (.some (emptyKids 16)) cm) k2 from
              (get_none_vs_empty s v _ cm k2).symm]
            refine get_replace_value _ _ _ _ _ _ k2 ?_
            rw [← hkseq]
            exact hk2
          · rw [shape_new]
            simp only [Bool.and_eq_true, okidsShape_some, beq_iff_eq]
            exact ⟨hsh.1, kidsCount_emptyKids 16, kidsShape_emptyKids 16⟩
          · intro hnw
            rw [noWire_new, okidsNoWire_some]
            exact kidsNoWire_emptyKids 16
          · intro hv
            rw [validCommits_new, okidsValid_some]
            exact kidsValid_emptyKids 16
          · intro w
            simp only [sumW_new, sumW_mk, optW, okidsSumW_some, okidsSumW_none,
              kidsSumW_emptyKids]
            cases v <;> simp [optW] <;> omega


theorem kidsPresent_mem_bound : ∀ (cs : Kids T) (i : Nat) (p : Nat × Node T),
    p ∈ kidsPresent i cs → i ≤ p.1 ∧ p.1 < i + kidsCount cs
  | .nil, i, p, h => by simp [kidsPresent] at h
  | .cons .none tl, i, p, h => by
    have h2 := kidsPresent_mem_bound tl (i + 1) p (by simpa [kidsPresent] using h)
    simp only [kidsCount]
    omega
  | .cons (.some n) tl, i, p, h => by
    simp only [kidsPresent, List.mem_cons] at h
    rcases h with h | h
    · simp only [h, kidsCount]
      omega
    · have h2 := kidsPresent_mem_bound tl (i + 1) p h
      simp only [kidsCount]
      omega

theorem kidsPresent_mem_shape : ∀ (cs : Kids T) (i : Nat) (p : Nat × Node T),
    Kids.shape cs = true → p ∈ kidsPresent i cs → Node.shape p.2 = true
  | .nil, i, p, _, h => by simp [kidsPresent] at h
  | .cons .none tl, i, p, hs, h => by
    simp only [Kids.shape, Bool.and_eq_true] at hs
    exact kidsPresent_mem_shape tl (i + 1) p hs.2 (by simpa [kidsPresent] using h)
  | .cons (.some n) tl, i, p, hs, h => by
    simp only [Kids.shape, Bool.and_eq_true] at hs
    simp only [kidsPresent, List.mem_cons] at h
    rcases h with h | h
    · rw [h]
      exact hs.1
    · exact kidsPresent_mem_shape tl (i + 1) p hs.2 h

theorem kidsPresent_mem_noWire : ∀ (cs : Kids T) (i : Nat) (p : Nat × Node T),
    Kids.noWire cs = true → p ∈ kidsPresent i cs → Node.noWire p.2 = true
  | .nil, i, p, _, h => by simp [kidsPresent] at h
  | .cons .none tl, i, p, hs, h => by
    simp only [Kids.noWire, Bool.and_eq_true] at hs
    exact kidsPresent_mem_noWire tl (i + 1) p hs.2 (by simpa [kidsPresent] using h)
  | .cons (.some n) tl, i, p, hs, h => by
    simp only [Kids.noWire, Bool.and_eq_true] at hs
    simp only [kidsPresent, List.mem_cons] at h
    rcases h with h | h
    · rw [h]
      exact hs.1
    · exact kidsPresent_mem_noWire tl (i + 1) p hs.2 h

theorem kidsPresent_mem_valid : ∀ (cs : Kids T) (i : Nat) (p : Nat × Node T),
    Kids.validCommits ser cs = Option.some true → p ∈ kidsPresent i cs →
    Node.validCommits ser p.2 = Option.some true
  | .nil, i, p, _, h => by simp [kidsPresent] at h
  | .cons hd tl, i, p, hs, h => by
    simp only [Kids.validCommits] at hs
    cases hh : ONode.validCommits ser hd with
    | none => simp [hh] at hs
    | some b =>
      cases b with
      | false => simp [hh] at hs
      | true =>
        simp only [hh] at hs
        cases hd with
        | none => exact kidsPresent_mem_valid tl (i + 1) p hs (by simpa [kidsPresent] using h)
        | some n =>
          simp only [kidsPresent, List.mem_cons] at h
          rcases h with h | h
          · rw [h]
            simpa [ONode.validCommits] using hh
          · exact kidsPresent_mem_valid tl (i + 1) p hs h

theorem kidsSumW_presentSum (w : T → Nat) : ∀ (i : Nat) (cs : Kids T),
    Kids.sumW w cs = ((kidsPresent i cs).map (fun p => Node.sumW w p.2)).sum
  | i, .nil => rfl
  | i, .cons .none tl => by
    simp [kidsPresent, Kids.sumW, ONode.sumW, kidsSumW_presentSum w (i + 1) tl]
  | i, .cons (.some n) tl => by
    simp [kidsPresent, Kids.sumW, ONode.sumW]
    exact kidsSumW_presentSum w (i + 1) tl

theorem okidsSumW_pruneKids (w : T → Nat) (cs2 : Kids T) :
    OKids.sumW w (pruneKids cs2) = Kids.sumW w cs2 := by
  unfold pruneKids
  cases hp : kidsPresent 0 cs2 with
  | nil =>
    have h2 := kidsSumW_presentSum w 0 cs2
    rw [hp] at h2
    simpa [okidsSumW_none] using h2.symm
  | cons hd tl => rfl

theorem okidsShape_pruneKids (cs2 : Kids T) (hcnt : kidsCount cs2 = 16)
    (hs : Kids.shape cs2 = true) : OKids.shape (pruneKids cs2) = true := by
  unfold pruneKids
  cases kidsPresent 0 cs2 with
  | nil => rfl
  | cons hd tl => simp [okidsShape_some, hcnt, hs]

theorem okidsNoWire_pruneKids (cs2 : Kids T) (hs : Kids.noWire cs2 = true) :
    OKids.noWire (pruneKids cs2) = true := by
  unfold pruneKids
  cases kidsPresent 0 cs2 with
  | nil => rfl
  | cons hd tl => simpa [okidsNoWire_some] using hs

theorem okidsValid_pruneKids (cs2 : Kids T)
    (hs : Kids.validCommits ser cs2 = Option.some true) :
    OKids.validCommits ser (pruneKids cs2) = Option.some true := by
  unfold pruneKids
  cases kidsPresent 0 cs2 with
  | nil => rfl
  | cons hd tl => simpa [okidsValid_some] using hs

theorem kidsCount_dropKid (cs : Kids T) (nib : Nat) (r1 : Node T) :
    kidsCount (dropKid cs nib r1) = kidsCount cs := by
  unfold dropKid
  cases r1 with
  | wire cm => rw [kidsCount_kidSet]
  | mk rs rv rc rcm =>
    cases rv <;> cases rc <;> simp only [kidsCount_kidSet]

theorem kidsShape_dropKid (cs : Kids T) (nib : Nat) (r1 : Node T)
    (hcs : Kids.shape cs = true) (hr : Node.shape r1 = true) :
    Kids.shape (dropKid cs nib r1) = true := by
  unfold dropKid
  cases r1 with
  | wire cm => exact kidsShape_kidSet cs nib _ hcs (by rw [onodeShape_some]; exact hr)
  | mk rs rv rc rcm =>
    cases rv <;> cases rc <;>
      first
        | exact kidsShape_kidSet cs nib _ hcs rfl
        | exact kidsShape_kidSet cs nib _ hcs (by rw [onodeShape_some]; exact hr)

theorem kidsNoWire_dropKid (cs : Kids T) (nib : Nat) (r1 : Node T)
    (hcs : Kids.noWire cs = true) (hr : Node.noWire r1 = true) :
    Kids.noWire (dropKid cs nib r1) = true := by
  unfold dropKid
  cases r1 with
  | wire cm => simp [Node.noWire] at hr
  | mk rs rv rc rcm =>
    cases rv <;> cases rc <;>
      first
        | exact kidsNoWire_kidSet cs nib _ hcs rfl
        | exact kidsNoWire_kidSet cs nib _ hcs (by rw [onodeNoWire_some]; exact hr)

theorem kidsValid_dropKid (cs : Kids T) (nib : Nat) (r1 : Node T)
    (hcs : Kids.validCommits ser cs = Option.some true)
    (hr : Node.validCommits ser r1 = Option.some true) :
    Kids.validCommits ser (dropKid cs nib r1) = Option.some true := by
  unfold dropKid
  cases r1 with
  | wire cm => simp [Node.validCommits] at hr
  | mk rs rv rc rcm =>
    cases rv <;> cases rc <;>
      first
        | exact kidsValid_kidSet cs nib _ hcs rfl
        | exact kidsValid_kidSet cs nib _ hcs (by rw [onodeValid_some]; exact hr)

theorem kidsSumW_dropKid (w : T → Nat) (cs : Kids T) (nib : Nat) (r1 : Node T)
    (hnib : nib < kidsCount cs) :
    Kids.sumW w (dropKid cs nib r1) + ONode.sumW w (kidAt cs nib) =
      Kids.sumW w cs + Node.sumW w r1 := by
  unfold dropKid
  cases r1 with
  | wire cm =>
    have h2 := kidsSumW_kidSet w cs nib (.some (.wire cm)) hnib
    simpa [onodeSumW_some, Node.sumW] using h2
  | mk rs rv rc rcm =>
    cases rv with
    | none =>
      cases rc with
      | none =>
        have h2 := kidsSumW_kidSet w cs nib .none hnib
        have h3 : Node.sumW w (.mk rs Option.none .none rcm) = 0 := rfl
        simpa [onodeSumW_none, h3] using h2
      | some rcs =>
        have h2 := kidsSumW_kidSet w cs nib (.some (.mk rs Option.none (.some rcs) rcm)) hnib
        simpa [onodeSumW_some] using h2
    | some rv2 =>
      cases rc with
      | none =>
        have h2 := kidsSumW_kidSet w cs nib (.some (.mk rs (Option.some rv2) .none rcm)) hnib
        simpa [onodeSumW_some] using h2
      | some rcs =>
        have h2 := kidsSumW_kidSet w cs nib
          (.some (.mk rs (Option.some rv2) (.some rcs) rcm)) hnib
        simpa [onodeSumW_some] using h2

theorem all16_append (a b : List Nat) (ha : a.all (fun x => x < 16) = true)
    (hb : b.all (fun x => x < 16) = true) :
    (a ++ b).all (fun x => x < 16) = true := by
  simp only [List.all_eq_true, decide_eq_true_eq] at ha hb ⊢
  intro x hx
  rcases List.mem_append.mp hx with h | h
  · exact ha x h
  · exact hb x h

/-- Behavioural specification of a successful `Node::unsplit`: the stored
values (weighted sums), shape, payload presence and commit validity carry
over from the pre-state's fields. -/
theorem unsplit_spec (s : List Nat) (v : Option T) (c2 : OKids T) (cm : List Nat)
    (u : Node T) (h : Node.unsplit ser (.mk s v c2 cm) = .ok u) :
    (∀ w : T → Nat, Node.sumW w u = optW w v + OKids.sumW w c2) ∧
    (s.all (fun x => x < 16) = true → OKids.shape c2 = true → Node.shape u = true) ∧
    (OKids.noWire c2 = true → Node.noWire u = true) ∧
    (OKids.validCommits ser c2 = Option.some true →
      Node.validCommits ser u = Option.some true) := by
  cases v with
  | some x =>
    simp only [Node.unsplit] at h
    injection h with h
    subst h
    refine ⟨fun w => by rw [sumW_new], ?_, ?_, ?_⟩
    · intro h1 h2
      rw [shape_new]
      simp [h1, h2]
    · intro h1
      rw [noWire_new]
      exact h1
    · intro h1
      rw [validCommits_new]
      exact h1
  | none =>
    cases c2 with
    | none =>
      simp only [Node.unsplit] at h
      injection h with h
      subst h
      refine ⟨fun w => by rw [sumW_new], ?_, ?_, ?_⟩
      · intro h1 h2
        rw [shape_new]
        simp [h1, h2]
      · intro h1
        rw [noWire_new]
        exact h1
      · intro h1
        rw [validCommits_new]
        exact h1
    | some cs =>
      simp only [Node.unsplit] at h
      cases hp : kidsPresent 0 cs with
      | nil =>
        rw [hp] at h
        injection h with h
        subst h
        refine ⟨fun w => by rw [sumW_new], ?_, ?_, ?_⟩
        · intro h1 h2
          rw [shape_new]
          simp [h1, h2]
        · intro h1
          rw [noWire_new]
          exact h1
        · intro h1
          rw [validCommits_new]
          exact h1
      | cons hd tl =>
        cases tl with
        | cons p2 rest =>
          rw [hp] at h
          injection h with h
          subst h
          refine ⟨fun w => by rw [sumW_new], ?_, ?_, ?_⟩
          · intro h1 h2
            rw [shape_new]
            simp [h1, h2]
          · intro h1
            rw [noWire_new]
            exact h1
          · intro h1
            rw [validCommits_new]
            exact h1
        | nil =>
          obtain ⟨i, child⟩ := hd
          have hmem : (i, child) ∈ kidsPresent 0 cs := by rw [hp]; simp
          cases child with
          | wire ccm =>
            rw [hp] at h
            cases h
          | mk csub cval ckids ccm =>
            rw [hp] at h
            injection h with h
            subst h
            have hsum : ∀ w : T → Nat,
                Kids.sumW w cs = optW w cval + OKids.sumW w ckids := by
              intro w
              have h2 := kidsSumW_presentSum w 0 cs
              rw [hp] at h2
              simpa [sumW_mk] using h2
            refine ⟨?_, ?_, ?_, ?_⟩
            · intro w
              rw [sumW_new]
              have h3 := hsum w
              have h5 : optW w (Option.none : Option T) = 0 := rfl
              rw [okidsSumW_some, h3, h5]
              omega
            · intro h1 h2
              rw [okidsShape_some] at h2
              simp only [Bool.and_eq_true, beq_iff_eq] at h2
              have hchs := kidsPresent_mem_shape cs 0 _ h2.2 hmem
              rw [shape_mk] at hchs
              simp only [Bool.and_eq_true] at hchs
              have hib := kidsPresent_mem_bound cs 0 _ hmem
              rw [shape_new]
              simp only [Bool.and_eq_true]
              refine ⟨all16_append _ _ h1 ?_, hchs.2⟩
              simp only [List.all_cons, Bool.and_eq_true, decide_eq_true_eq]
              exact ⟨by omega, hchs.1⟩
            · intro h1
              rw [okidsNoWire_some] at h1
              have hcn := kidsPresent_mem_noWire cs 0 _ h1 hmem
              rw [noWire_mk] at hcn
              rw [noWire_new]
              exact hcn
            · intro h1
              rw [okidsValid_some] at h1
              have hcv := kidsPresent_mem_valid cs 0 _ h1 hmem
              rw [validCommits_mk_iff] at hcv
              rw [validCommits_new]
              exact hcv.2


/-- The full behavioural specification of one successful `Node::remove`:
the returned value is the previous lookup at the key, and shape, payload
presence, commit validity and the weighted-sum accounting are preserved. -/
theorem remove_spec : ∀ (f : Nat) (n : Node T) (k : List Nat) (n2 : Node T) (old : Option T),
    Node.removeF ser f n k = .ok (n2, old) →
    Node.shape n = true → (∀ x ∈ k, x < 16) →
    Node.get n k = .ok old ∧
    Node.shape n2 = true ∧
    (Node.noWire n = true → Node.noWire n2 = true) ∧
    (Node.validCommits ser n = Option.some true →
      Node.validCommits ser n2 = Option.some true) ∧
    (∀ w : T → Nat, Node.sumW w n2 + optW w old = Node.sumW w n)
  | 0, n, k, n2, old, h, _, _ => by simp [Node.removeF] at h
  | f + 1, .wire cm, k, n2, old, h, _, _ => by simp [Node.removeF] at h
  | f + 1, .mk s v c cm, k, n2, old, h, hshape, hk16 => by
    have hpk := prefixLen_le_left k s
    have hps := prefixLen_le_right k s
    have hsh : s.all (fun x => x < 16) = true ∧ OKids.shape c = true := by
      rw [shape_mk] at hshape
      simpa using hshape
    by_cases hk : k.length > prefixLen k s
    · by_cases hs : s.length > prefixLen k s
      · simp only [Node.removeF, if_pos hk, if_pos hs] at h
        injection h with h
        rw [Prod.mk.injEq] at h
        obtain ⟨h1, h2⟩ := h
        subst h1
        subst h2
        refine ⟨?_, hshape, fun hnw => hnw, fun hv => hv, ?_⟩
        · rw [get_unfold, if_pos hs]
        · intro w
          simp [optW]
      · cases c with
        | none =>
          simp only [Node.removeF, if_pos hk, if_neg hs] at h
          injection h with h
          rw [Prod.mk.injEq] at h
          obtain ⟨h1, h2⟩ := h
          subst h1
          subst h2
          refine ⟨?_, hshape, fun hnw => hnw, fun hv => hv, ?_⟩
          · rw [get_unfold, if_neg hs, if_pos hk]
          · intro w
            simp [optW]
        | some cs =>
          have hcs : kidsCount cs = 16 ∧ Kids.shape cs = true := by
            have h4 := hsh.2
            rw [okidsShape_some] at h4
            simpa using h4
          have hik : k.getD (prefixLen k s) 0 < 16 := hk16 _ (getD_mem k _ hk)
          simp only [Node.removeF, if_pos hk, if_neg hs] at h
          cases hc : kidAt cs (k.getD (prefixLen k s) 0) with
          | none =>
            rw [hc] at h
            dsimp only at h
            injection h with h
            rw [Prod.mk.injEq] at h
            obtain ⟨h1, h2⟩ := h
            subst h1
            subst h2
            refine ⟨?_, hshape, fun hnw => hnw, fun hv => hv, ?_⟩
            · rw [get_unfold, if_neg hs, if_pos hk]
              dsimp only
              rw [hc]
            · intro w
              simp [optW]
          | some child =>
            rw [hc] at h
            dsimp only at h
            have hchsh : Node.shape child = true := by
              have h4 := kidsShape_kidAt cs (k.getD (prefixLen k s) 0) hcs.2
              rw [hc, onodeShape_some] at h4
              exact h4
            cases hrec : Node.removeF ser f child (k.drop (prefixLen k s + 1)) with
            | error e =>
              simp [hrec, Except.bind, bind] at h
            | ok r =>
              obtain ⟨r1, r2⟩ := r
              simp only [hrec, Except.bind, bind] at h
              have IH := remove_spec f child (k.drop (prefixLen k s + 1)) r1 r2 hrec
                hchsh (fun x hx => hk16 x (List.drop_subset _ _ hx))
              cases r1 with
              | wire rcm => simp at h
              | mk rs rv rc rcm =>
                dsimp only at h
                cases hu : Node.unsplit ser
                    (.mk s v (pruneKids (dropKid cs (k.getD (prefixLen k s) 0)
                      (.mk rs rv rc rcm))) cm) with
                | error e =>
                  rw [hu] at h
                  simp [Except.bind, bind] at h
                | ok u =>
                  rw [hu] at h
                  simp only [Except.bind, bind] at h
                  cases u with
                  | wire ucm => simp at h
                  | mk us uv uc ucm =>
                    dsimp only at h
                    injection h with h
                    rw [Prod.mk.injEq] at h
                    obtain ⟨h1, h2⟩ := h
                    subst h1
                    subst h2
                    have hspec := unsplit_spec s v
                      (pruneKids (dropKid cs (k.getD (prefixLen k s) 0) (.mk rs rv rc rcm))) cm
                      (.mk us uv uc ucm) hu
                    refine ⟨?_, ?_, ?_, ?_, ?_⟩
                    · rw [get_unfold, if_neg hs, if_pos hk]
                      dsimp only
                      rw [hc]
                      dsimp only
                      exact IH.1
                    · have hpr : OKids.shape (pruneKids (dropKid cs
                          (k.getD (prefixLen k s) 0) (.mk rs rv rc rcm))) = true := by
                        refine okidsShape_pruneKids _ ?_ ?_
                        · rw [kidsCount_dropKid]
                          exact hcs.1
                        · exact kidsShape_dropKid cs _ _ hcs.2 IH.2.1
                      have h4 := hspec.2.1 hsh.1 hpr
                      rw [shape_mk] at h4
                      rw [shape_new]
                      exact h4
                    · intro hnw
                      rw [noWire_mk, okidsNoWire_some] at hnw
                      have hcn : Node.noWire child = true := by
                        have h4 := kidsNoWire_kidAt cs (k.getD (prefixLen k s) 0) hnw
                        rw [hc, onodeNoWire_some] at h4
                        exact h4
                      have hrn := IH.2.2.1 hcn
                      have hpn : OKids.noWire (pruneKids (dropKid cs
                          (k.getD (prefixLen k s) 0) (.mk rs rv rc rcm))) = true :=
                        okidsNoWire_pruneKids _ (kidsNoWire_dropKid cs _ _ hnw hrn)
                      have h4 := hspec.2.2.1 hpn
                      rw [noWire_mk] at h4
                      rw [noWire_new]
                      exact h4
                    · intro hv
                      rw [validCommits_mk_iff, okidsValid_some] at hv
                      have hcv : Node.validCommits ser child = Option.some true :=
                        kidsValid_kidAt cs (k.getD (prefixLen k s) 0) child hv.2 hc
                      have hrv := IH.2.2.2.1 hcv
                      have hpv : OKids.validCommits ser (pruneKids (dropKid cs
                          (k.getD (prefixLen k s) 0) (.mk rs rv rc rcm))) =
                          Option.some true :=
                        okidsValid_pruneKids _ (kidsValid_dropKid cs _ _ hv.2 hrv)
                      have h4 := hspec.2.2.2 hpv
                      rw [validCommits_mk_iff] at h4
                      rw [validCommits_new]
                      exact h4.2
                    · intro w
                      have h4 := hspec.1 w
                      rw [sumW_mk, okidsSumW_pruneKids] at h4
                      have h5 := kidsSumW_dropKid w cs (k.getD (prefixLen k s) 0)
                        (.mk rs rv rc rcm) (by omega)
                      rw [hc, onodeSumW_some] at h5
                      have h6 := IH.2.2.2.2 w
                      rw [sumW_new, sumW_mk, okidsSumW_some]
                      omega
    · by_cases hs : s.length > prefixLen k s
      · simp only [Node.removeF, if_neg hk, if_pos hs] at h
        injection h with h
        rw [Prod.mk.injEq] at h
        obtain ⟨h1, h2⟩ := h
        subst h1
        subst h2
        refine ⟨?_, hshape, fun hnw => hnw, fun hv => hv, ?_⟩
        · rw [get_unfold, if_pos hs]
        · intro w
          simp [optW]
      · simp only [Node.removeF, if_neg hk, if_neg hs] at h
        cases hu : Node.unsplit ser (.mk s Option.none c cm) with
        | error e =>
          rw [hu] at h
          simp [Except.bind, bind] at h
        | ok u =>
          rw [hu] at h
          simp only [Except.bind, bind] at h
          injection h with h
          rw [Prod.mk.injEq] at h
          obtain ⟨h1, h2⟩ := h
          subst h1
          subst h2
          have hspec := unsplit_spec s Option.none c cm u hu
          refine ⟨?_, ?_, ?_, ?_, ?_⟩
          · rw [get_unfold, if_neg hs, if_neg hk]
          · exact hspec.2.1 hsh.1 hsh.2
          · intro hnw
            rw [noWire_mk] at hnw
            exact hspec.2.2.1 hnw
          · intro hv
            rw [validCommits_mk_iff] at hv
            exact hspec.2.2.2 hv.2
          · intro w
            have h4 := hspec.1 w
            rw [sumW_mk]
            have h5 : optW w (Option.none : Option T) = 0 := rfl
            rw [h4, h5]
            omega


theorem toDigest_lt16 (k : List Nat) : ∀ x ∈ toDigest k, x < 16 := by
  intro x hx
  simp only [toDigest, List.mem_flatten, List.mem_map] at hx
  obtain ⟨l, ⟨b, _, hb⟩, hxl⟩ := hx
  subst hb
  simp only [List.mem_cons, List.not_mem_nil, or_false] at hxl
  rcases hxl with rfl | rfl
  · exact Nat.mod_lt _ (by norm_num)
  · exact Nat.mod_lt _ (by norm_num)

/-- `Node::unsplit` succeeds whenever the child array carries no wire node. -/
theorem unsplit_ok (s : List Nat) (v : Option T) (c : OKids T) (cm : List Nat)
    (hnw : OKids.noWire c = true) :
    ∃ u, Node.unsplit ser (.mk s v c cm) = .ok u := by
  cases v with
  | some x => exact ⟨_, rfl⟩
  | none =>
    cases c with
    | none => exact ⟨_, rfl⟩
    | some cs =>
      simp only [Node.unsplit]
      cases hp : kidsPresent 0 cs with
      | nil => exact ⟨_, rfl⟩
      | cons hd tl =>
        cases tl with
        | cons p2 rest => exact ⟨_, rfl⟩
        | nil =>
          obtain ⟨i, child⟩ := hd
          have hmem : (i, child) ∈ kidsPresent 0 cs := by
            rw [hp]
            simp
          cases child with
          | wire ccm =>
            have h2 := kidsPresent_mem_noWire cs 0 _
              (by rwa [okidsNoWire_some] at hnw) hmem
            simp [Node.noWire] at h2
          | mk csub cval ckids ccm => exact ⟨_, rfl⟩

/-- `Node::insert` succeeds on any wire-free node with ample fuel. -/
theorem insertF_ok : ∀ (f : Nat) (n : Node T) (k : List Nat) (vnew : T),
    k.length < f → Node.noWire n = true →
    ∃ r, Node.insertF ser f n k vnew = .ok r
  | 0, _, k, _, hf, _ => by omega
  | f + 1, .wire cm, k, vnew, _, hnw => by simp [Node.noWire] at hnw
  | f + 1, .mk s v c cm, k, vnew, hf, hnw => by
    by_cases hk : k.length > prefixLen k s
    · by_cases hs : prefixLen k s < s.length
      · exact ⟨_, insertF_fork f s v c cm k vnew hk hs⟩
      · cases c with
        | none => exact ⟨_, insertF_leaf_none f s v cm k vnew hk hs⟩
        | some cs =>
          cases hc : kidAt cs (k.getD (prefixLen k s) 0) with
          | none => exact ⟨_, insertF_leaf_some f s v cs cm k vnew hk hs hc⟩
          | some child =>
            have hcn : Node.noWire child = true := by
              have h2 := kidsNoWire_kidAt cs (k.getD (prefixLen k s) 0)
                (by rwa [noWire_mk, okidsNoWire_some] at hnw)
              rw [hc, onodeNoWire_some] at h2
              exact h2
            have hlen : (k.drop (prefixLen k s + 1)).length < f := by
              simp only [List.length_drop]
              omega
            obtain ⟨r, hr⟩ := insertF_ok f child (k.drop (prefixLen k s + 1)) vnew hlen hcn
            exact ⟨_, insertF_child f s v cs cm k vnew child r hk hs hc hr⟩
    · by_cases hs : prefixLen k s < s.length
      · exact ⟨_, insertF_contained f s v c cm k vnew hk hs⟩
      · cases c with
        | none => exact ⟨_, insertF_exact_none f s v cm k vnew hk hs⟩
        | some cs => exact ⟨_, insertF_exact_some f s v cs cm k vnew hk hs⟩

/-- `Node::get` succeeds on any wire-free node with ample fuel. -/
theorem getF_ok : ∀ (f : Nat) (n : Node T) (k : List Nat),
    k.length < f → Node.noWire n = true →
    ∃ o, Node.getF f n k = .ok o
  | 0, _, k, hf, _ => by omega
  | f + 1, .wire cm, k, _, hnw => by simp [Node.noWire] at hnw
  | f + 1, .mk s v c cm, k, hf, hnw => by
    simp only [Node.getF]
    by_cases hs : s.length > prefixLen k s
    · rw [if_pos hs]
      exact ⟨_, rfl⟩
    · rw [if_neg hs]
      by_cases hk : k.length > prefixLen k s
      · rw [if_pos hk]
        cases c with
        | none => exact ⟨_, rfl⟩
        | some cs =>
          dsimp only
          cases hc : kidAt cs (k.getD (prefixLen k s) 0) with
          | none => exact ⟨_, rfl⟩
          | some child =>
            have hcn : Node.noWire child = true := by
              have h2 := kidsNoWire_kidAt cs (k.getD (prefixLen k s) 0)
                (by rwa [noWire_mk, okidsNoWire_some] at hnw)
              rw [hc, onodeNoWire_some] at h2
              exact h2
            have hlen : (k.drop (prefixLen k s + 1)).length < f := by
              simp only [List.length_drop]
              omega
            exact getF_ok f child (k.drop (prefixLen k s + 1)) hlen hcn
      · rw [if_neg hk]
        exact ⟨_, rfl⟩

/-- `Node::remove` succeeds on any well-shaped wire-free node with ample
fuel, over a nibble key. -/
theorem removeF_ok : ∀ (f : Nat) (n : Node T) (k : List Nat),
    k.length < f → Node.shape n = true → Node.noWire n = true → (∀ x ∈ k, x < 16) →
    ∃ r, Node.removeF ser f n k = .ok r
  | 0, _, k, hf, _, _, _ => by omega
  | f + 1, .wire cm, k, _, _, hnw, _ => by simp [Node.noWire] at hnw
  | f + 1, .mk s v c cm, k, hf, hshape, hnw, hk16 => by
    have hsh : s.all (fun x => x < 16) = true ∧ OKids.shape c = true := by
      rw [shape_mk] at hshape
      simpa using hshape
    simp only [Node.removeF]
    by_cases hk : k.length > prefixLen k s
    · rw [if_pos hk]
      by_cases hs : s.length > prefixLen k s
      · rw [if_pos hs]
        exact ⟨_, rfl⟩
      · rw [if_neg hs]
        cases c with
        | none => exact ⟨_, rfl⟩
        | some cs =>
          dsimp only
          cases hc : kidAt cs (k.getD (prefixLen k s) 0) with
          | none => exact ⟨_, rfl⟩
          | some child =>
            have hkn : Kids.noWire cs = true := by rwa [noWire_mk, okidsNoWire_some] at hnw
            have hcn : Node.noWire child = true := by
              have h2 := kidsNoWire_kidAt cs (k.getD (prefixLen k s) 0) hkn
              rw [hc, onodeNoWire_some] at h2
              exact h2
            have hchsh : Node.shape child = true := by
              have h4 := hsh.2
              rw [okidsShape_some] at h4
              simp only [Bool.and_eq_true] at h4
              have h2 := kidsShape_kidAt cs (k.getD (prefixLen k s) 0) h4.2
              rw [hc, onodeShape_some] at h2
              exact h2
            have hlen : (k.drop (prefixLen k s + 1)).length < f := by
              simp only [List.length_drop]
              omega
            have hk16s : ∀ x ∈ k.drop (prefixLen k s + 1), x < 16 :=
              fun x hx => hk16 x (List.drop_subset _ _ hx)
            obtain ⟨⟨r1, r2⟩, hr⟩ :=
              removeF_ok f child (k.drop (prefixLen k s + 1)) hlen hchsh hcn hk16s
            have hspec := remove_spec f child (k.drop (prefixLen k s + 1)) r1 r2 hr
              hchsh hk16s
            have hrnw := hspec.2.2.1 hcn
            dsimp only
            rw [hr]
            simp only [Except.bind, bind]
            cases r1 with
            | wire rcm => simp [Node.noWire] at hrnw
            | mk rs rv rc rcm =>
              dsimp only
              have hdnw : Kids.noWire (dropKid cs (k.getD (prefixLen k s) 0)
                  (.mk rs rv rc rcm)) = true :=
                kidsNoWire_dropKid cs _ _ hkn hrnw
              have hpnw : OKids.noWire (pruneKids (dropKid cs (k.getD (prefixLen k s) 0)
                  (.mk rs rv rc rcm))) = true :=
                okidsNoWire_pruneKids _ hdnw
              obtain ⟨u, hu⟩ := unsplit_ok s v
                (pruneKids (dropKid cs (k.getD (prefixLen k s) 0) (.mk rs rv rc rcm))) cm hpnw
              rw [hu]
              simp only [Except.bind, bind]
              have hspec2 := unsplit_spec s v
                (pruneKids (dropKid cs (k.getD (prefixLen k s) 0) (.mk rs rv rc rcm))) cm u hu
              have hunw := hspec2.2.2.1 hpnw
              cases u with
              | wire ucm => simp [Node.noWire] at hunw
              | mk us uv uc ucm => exact ⟨_, rfl⟩
    · rw [if_neg hk]
      by_cases hs : s.length > prefixLen k s
      · rw [if_pos hs]
        exact ⟨_, rfl⟩
      · rw [if_neg hs]
        obtain ⟨u, hu⟩ := unsplit_ok s Option.none c cm (by rwa [noWire_mk] at hnw)
        rw [hu]
        simp only [Except.bind, bind]
        exact ⟨_, rfl⟩


/-- Every map reachable from `Map::default()` by inserts and removes is
well-shaped, wire-free, and carries a correct cached commit at every node. -/
theorem reach_inv (m : MMap T) (h : MapReach ser m) :
    Node.shape m.root = true ∧ Node.noWire m.root = true ∧
    Node.validCommits ser m.root = Option.some true := by
  induction h with
  | base =>
    refine ⟨rfl, rfl, ?_⟩
    rw [MMap.default, Node.default, validCommits_new]
    rfl
  | ins m k v hm ih =>
    obtain ⟨hsh, hnw, hv⟩ := ih
    cases hN : Node.insert ser m.root (toDigest k) v with
    | error e =>
      have heq : MMap.insertD ser m k v = m := by
        simp [MMap.insertD, MMap.insert, hN, Except.map]
      rw [heq]
      exact ⟨hsh, hnw, hv⟩
    | ok r =>
      obtain ⟨n2, old⟩ := r
      have heq : MMap.insertD ser m k v = ⟨n2⟩ := by
        simp [MMap.insertD, MMap.insert, hN, Except.map]
      have hspec := insert_spec ((toDigest k).length + 1) m.root (toDigest k) v n2 old
        hN hsh (toDigest_lt16 k)
      rw [heq]
      exact ⟨hspec.2.2.2.1, hspec.2.2.2.2.1 hnw, hspec.2.2.2.2.2.1 hv⟩
  | rem m k hm ih =>
    obtain ⟨hsh, hnw, hv⟩ := ih
    cases hN : Node.remove ser m.root (toDigest k) with
    | error e =>
      have heq : MMap.removeD ser m k = m := by
        simp [MMap.removeD, MMap.remove, hN, Except.map]
      rw [heq]
      exact ⟨hsh, hnw, hv⟩
    | ok r =>
      obtain ⟨n2, old⟩ := r
      have heq : MMap.removeD ser m k = ⟨n2⟩ := by
        simp [MMap.removeD, MMap.remove, hN, Except.map]
      have hspec := remove_spec ((toDigest k).length + 1) m.root (toDigest k) n2 old
        hN hsh (toDigest_lt16 k)
      rw [heq]
      exact ⟨hspec.2.1, hspec.2.2.1 hnw, hspec.2.2.2.1 hv⟩


theorem size_pos : ∀ n : Node T, 1 ≤ Node.size n
  | .wire _ => le_refl 1
  | .mk s v c cm => by simp [Node.size]

theorem stackVals_cons (p : Node T × Bool) (rest : List (Node T × Bool)) :
    stackVals (p :: rest) = pendingVals p ++ stackVals rest := rfl

theorem expCost_cons_false (n : Node T) (rest : List (Node T × Bool)) :
    expCost ((n, false) :: rest) = Node.size n + expCost rest := rfl

theorem expCost_cons_true (n : Node T) (rest : List (Node T × Bool)) :
    expCost ((n, true) :: rest) = expCost rest := rfl

theorem popCost_cons_false (n : Node T) (rest : List (Node T × Bool)) :
    popCost ((n, false) :: rest) = Node.size n + popCost rest := rfl

theorem popCost_cons_true (n : Node T) (rest : List (Node T × Bool)) :
    popCost ((n, true) :: rest) = 1 + popCost rest := rfl

theorem stackVals_append (a b : List (Node T × Bool)) :
    stackVals (a ++ b) = stackVals a ++ stackVals b := by
  simp [stackVals]

theorem expCost_append : ∀ a b : List (Node T × Bool),
    expCost (a ++ b) = expCost a + expCost b
  | [], b => by simp [expCost]
  | (n, false) :: t, b => by
    rw [List.cons_append, expCost_cons_false, expCost_cons_false, expCost_append t b]
    omega
  | (n, true) :: t, b => by
    rw [List.cons_append, expCost_cons_true, expCost_cons_true, expCost_append t b]

theorem popCost_append : ∀ a b : List (Node T × Bool),
    popCost (a ++ b) = popCost a + popCost b
  | [], b => by simp [popCost]
  | (n, false) :: t, b => by
    rw [List.cons_append, popCost_cons_false, popCost_cons_false, popCost_append t b]
    omega
  | (n, true) :: t, b => by
    rw [List.cons_append, popCost_cons_true, popCost_cons_true, popCost_append t b]
    omega

theorem expCost_pushed : ∀ l : List (Nat × Node T),
    expCost (l.map (fun p => (p.2, false))) = (l.map (fun p => Node.size p.2)).sum
  | [] => rfl
  | p :: t => by
    simp only [List.map_cons, expCost, List.sum_cons, expCost_pushed t]

theorem popCost_pushed : ∀ l : List (Nat × Node T),
    popCost (l.map (fun p => (p.2, false))) = (l.map (fun p => Node.size p.2)).sum
  | [] => rfl
  | p :: t => by
    simp only [List.map_cons, popCost, List.sum_cons, popCost_pushed t]

theorem stackVals_pushed : ∀ l : List (Nat × Node T),
    stackVals (l.map (fun p => (p.2, false))) =
      (l.map (fun p => Node.postorderVals p.2)).flatten
  | [] => rfl
  | p :: t => by
    simp only [List.map_cons, stackVals, List.flatten_cons, pendingVals]
    have h2 := stackVals_pushed t
    simp only [stackVals] at h2
    rw [h2]

theorem kidsSize_present : ∀ (i : Nat) (cs : Kids T),
    Kids.size cs = ((kidsPresent i cs).map (fun p => Node.size p.2)).sum
  | i, .nil => rfl
  | i, .cons .none tl => by
    simp only [Kids.size, ONode.size, kidsPresent, kidsSize_present (i + 1) tl]
    omega
  | i, .cons (.some n) tl => by
    simp only [Kids.size, ONode.size, kidsPresent, List.map_cons, List.sum_cons,
      kidsSize_present (i + 1) tl]

theorem kidsVals_present : ∀ (i : Nat) (cs : Kids T),
    (Kids.keyvals i cs).map Prod.snd =
      ((kidsPresent i cs).map (fun p => Node.postorderVals p.2)).flatten
  | i, .nil => rfl
  | i, .cons .none tl => by
    simp only [Kids.keyvals, ONode.keyvals, kidsPresent, List.nil_append]
    exact kidsVals_present (i + 1) tl
  | i, .cons (.some n) tl => by
    simp only [Kids.keyvals, ONode.keyvals, kidsPresent, List.map_cons, List.flatten_cons,
      List.map_append, List.map_map]
    rw [kidsVals_present (i + 1) tl]
    congr 1

theorem pvals_mk (s : List Nat) (v : Option T) (c : OKids T) (cm : List Nat) :
    Node.postorderVals (.mk s v c cm) =
      (OKids.keyvals c).map Prod.snd ++
        (match v with | Option.none => [] | Option.some x => [x]) := by
  cases v <;> simp [Node.postorderVals, Node.keyvals]

/-- One full `advance` phase: the stack is expanded until its top is an
explored frame (or it is empty), preserving the pending values, the pop
budget and the wire-freeness, and not increasing the expansion budget. -/
theorem advance_ok : ∀ (f : Nat) (st : List (Node T × Bool)), stackNoWire st →
    expCost st < f →
    ∃ st2, advanceF f st = Option.some st2 ∧ stackVals st2 = stackVals st ∧
      stackNoWire st2 ∧ expCost st2 ≤ expCost st ∧ popCost st2 = popCost st ∧
      (st2 = [] ∨ ∃ n rest, st2 = (n, true) :: rest)
  | 0, st, _, hf => by omega
  | f + 1, [], _, _ =>
    ⟨[], rfl, rfl, by intro p hp; simp at hp, le_refl _, rfl, Or.inl rfl⟩
  | f + 1, (n, true) :: rest, hnw, hf =>
    ⟨(n, true) :: rest, rfl, rfl, hnw, le_refl _, rfl, Or.inr ⟨n, rest, rfl⟩⟩
  | f + 1, (n, false) :: rest, hnw, hf => by
    have hn := hnw (n, false) (by simp)
    have hnwrest : stackNoWire rest := fun p hp => hnw p (by simp [hp])
    cases n with
    | wire cm => simp [Node.noWire] at hn
    | mk s v c cm =>
      cases c with
      | none =>
        have hc1 : expCost ((Node.mk s v (.none : OKids T) cm, true) :: rest) < f := by
          rw [expCost_cons_true]
          rw [expCost_cons_false] at hf
          simp only [Node.size, OKids.size] at hf
          omega
        have hnw2 : stackNoWire ((Node.mk s v (.none : OKids T) cm, true) :: rest) := by
          intro p hp
          rcases List.mem_cons.mp hp with h | h
          · rw [h]
            exact hn
          · exact hnwrest p h
        obtain ⟨st2, heq, hvals, hnw3, hexp, hpop, hshape⟩ :=
          advance_ok f ((Node.mk s v (.none : OKids T) cm, true) :: rest) hnw2 hc1
        refine ⟨st2, ?_, ?_, hnw3, ?_, ?_, hshape⟩
        · exact heq
        · rw [hvals, stackVals_cons, stackVals_cons]
          congr 1
          cases v <;> rfl
        · refine le_trans hexp ?_
          rw [expCost_cons_true, expCost_cons_false]
          omega
        · rw [hpop, popCost_cons_true, popCost_cons_false]
          simp only [Node.size, OKids.size]
      | some cs =>
        have hkn : Kids.noWire cs = true := by rwa [noWire_mk, okidsNoWire_some] at hn
        have hpush : stackNoWire (((kidsPresent 0 cs).map (fun p => (p.2, false)))
            ++ (Node.mk s v (.some cs) cm, true) :: rest) := by
          intro p hp
          rcases List.mem_append.mp hp with h | h
          · obtain ⟨q, hq, hq2⟩ := List.mem_map.mp h
            rw [← hq2]
            exact kidsPresent_mem_noWire cs 0 q hkn hq
          · rcases List.mem_cons.mp h with h2 | h2
            · rw [h2]
              exact hn
            · exact hnwrest p h2
        have hsz : Kids.size cs = ((kidsPresent 0 cs).map (fun p => Node.size p.2)).sum :=
          kidsSize_present 0 cs
        have hc1 : expCost (((kidsPresent 0 cs).map (fun p => (p.2, false)))
            ++ (Node.mk s v (.some cs) cm, true) :: rest) < f := by
          rw [expCost_append, expCost_pushed, expCost_cons_true]
          rw [expCost_cons_false] at hf
          simp only [Node.size, OKids.size] at hf
          omega
        obtain ⟨st2, heq, hvals, hnw3, hexp, hpop, hshape⟩ :=
          advance_ok f (((kidsPresent 0 cs).map (fun p => (p.2, false)))
            ++ (Node.mk s v (.some cs) cm, true) :: rest) hpush hc1
        refine ⟨st2, ?_, ?_, hnw3, ?_, ?_, hshape⟩
        · exact heq
        · rw [hvals, stackVals_append, stackVals_pushed, stackVals_cons, stackVals_cons]
          rw [← List.append_assoc]
          congr 1
          have hpend : pendingVals ((Node.mk s v (.some cs) cm), false) =
              ((kidsPresent 0 cs).map (fun p => Node.postorderVals p.2)).flatten ++
                pendingVals ((Node.mk s v (.some cs) cm), true) := by
            cases v <;>
              simp [pendingVals, pvals_mk, OKids.keyvals, kidsVals_present 0 cs]
          rw [hpend]
        · refine le_trans hexp ?_
          rw [expCost_append, expCost_pushed, expCost_cons_true, expCost_cons_false]
          simp only [Node.size, OKids.size]
          omega
        · rw [hpop, popCost_append, popCost_pushed, popCost_cons_true, popCost_cons_false]
          simp only [Node.size, OKids.size]
          omega

/-- One `next` call: with ample fuel it pops the next pending value (or
reports the end), preserving the invariants and shrinking the budget. -/
theorem nextVal_ok : ∀ (f : Nat) (st : List (Node T × Bool)), stackNoWire st →
    expCost st + popCost st < f →
    ∃ res, nextValF f st = Option.some res ∧ stackNoWire res.2 ∧
      expCost res.2 + popCost res.2 ≤ expCost st + popCost st ∧
      ((res.1 = Option.none ∧ stackVals st = []) ∨
       (∃ v, res.1 = Option.some v ∧ stackVals st = v :: stackVals res.2 ∧
         expCost res.2 + popCost res.2 < expCost st + popCost st))
  | 0, st, _, hf => by omega
  | f + 1, st, hnw, hf => by
    obtain ⟨st2, heq, hvals, hnw2, hexp, hpop, hshape⟩ :=
      advance_ok (f + 1) st hnw (by omega)
    rw [show nextValF (f + 1) st = (match advanceF (f + 1) st with
      | Option.none => Option.none
      | Option.some st2 =>
        match st2 with
        | [] => Option.some (Option.none, [])
        | (n, _) :: rest =>
          match n with
          | .wire _ => nextValF f rest
          | .mk _ value _ _ =>
            match value with
            | Option.some v => Option.some (Option.some v, rest)
            | Option.none => nextValF f rest) from rfl, heq]
    rcases hshape with h | ⟨n, rest, h⟩
    · subst h
      refine ⟨(Option.none, []), rfl, hnw2, ?_, Or.inl ⟨rfl, ?_⟩⟩
      · dsimp only
        omega
      · rw [← hvals]
        rfl
    · subst h
      have hn := hnw2 (n, true) (by simp)
      have hnwrest : stackNoWire rest := fun p hp => hnw2 p (by simp [hp])
      cases n with
      | wire cm => simp [Node.noWire] at hn
      | mk s v c cm =>
        dsimp only
        rw [expCost_cons_true] at hexp
        rw [popCost_cons_true] at hpop
        cases v with
        | some v0 =>
          refine ⟨(Option.some v0, rest), rfl, hnwrest, ?_, Or.inr ⟨v0, rfl, ?_, ?_⟩⟩
          · dsimp only
            omega
          · rw [← hvals, stackVals_cons]
            rfl
          · dsimp only
            omega
        | none =>
          have hrest : expCost rest + popCost rest < f := by omega
          obtain ⟨res, heq2, hnw3, hm, hcase⟩ := nextVal_ok f rest hnwrest hrest
          refine ⟨res, heq2, hnw3, by omega, ?_⟩
          have hv2 : stackVals st = stackVals rest := by
            rw [← hvals, stackVals_cons]
            rfl
          rcases hcase with ⟨h1, h2⟩ | ⟨v1, h1, h2, h3⟩
          · exact Or.inl ⟨h1, by rw [hv2]; exact h2⟩
          · refine Or.inr ⟨v1, h1, by rw [hv2]; exact h2, ?_⟩
            omega

/-- Running the iterator to completion with ample fuel yields exactly the
pending values of the stack. -/
theorem iterListF_ok : ∀ (f : Nat) (st : List (Node T × Bool)), stackNoWire st →
    2 * (expCost st + popCost st) < f →
    iterListF f st = Option.some (stackVals st)
  | 0, st, _, hf => by omega
  | f + 1, st, hnw, hf => by
    obtain ⟨res, heq, hnw2, hm, hcase⟩ := nextVal_ok (f + 1) st hnw (by omega)
    rw [show iterListF (f + 1) st = (match nextValF (f + 1) st with
      | Option.none => Option.none
      | Option.some (Option.none, _) => Option.some []
      | Option.some (Option.some v, st2) =>
        match iterListF f st2 with
        | Option.none => Option.none
        | Option.some vs => Option.some (v :: vs)) from rfl, heq]
    obtain ⟨r1, r2⟩ := res
    dsimp only at hnw2 hm hcase
    rcases hcase with ⟨h1, h2⟩ | ⟨v, h1, h2, h3⟩
    · subst h1
      rw [h2]
    · subst h1
      have hrec := iterListF_ok f r2 hnw2 (by omega)
      dsimp only
      rw [hrec, h2]

/-- `node.iter()` on a wire-free node yields exactly the stored values in
depth-first post-order. -/
theorem iterList_post (n : Node T) (hnw : Node.noWire n = true) :
    Node.iterList n = Option.some (Node.postorderVals n) := by
  have h2 := iterListF_ok (4 * Node.size n + 4) [(n, false)]
    (by intro p hp; simp at hp; rw [hp]; exact hnw)
    (by simp only [expCost, popCost]; omega)
  rw [Node.iterList, h2]
  simp [stackVals, pendingVals]


theorem kidsFold_present : ∀ (i : Nat) (cs : Kids T),
    kidsFold i cs = (((kidsPresent i cs).map (fun p => p.1 :: commitOf p.2)).flatten,
      (kidsPresent i cs).length)
  | i, .nil => rfl
  | i, .cons .none tl => by
    simp only [kidsFold, kidsPresent]
    exact kidsFold_present (i + 1) tl
  | i, .cons (.some c) tl => by
    simp only [kidsFold, kidsPresent, List.map_cons, List.flatten_cons, List.length_cons,
      List.cons_append, kidsFold_present (i + 1) tl]

/-- The byte string `Node::commit` hashes is exactly the layout the claim
describes. -/
theorem commitPreimage_spec (s : List Nat) (v : Option T) (c : OKids T) :
    commitPreimage ser s v c = specCommitBytes ser s v c := by
  cases c with
  | none => rfl
  | some cs => simp [commitPreimage, specCommitBytes, kidsFold_present 0 cs]


theorem get_cm (s : List Nat) (v : Option T) (c : OKids T) (cm1 cm2 : List Nat)
    (k : List Nat) : Node.get (.mk s v c cm1) k = Node.get (.mk s v c cm2) k := by
  rw [get_unfold, get_unfold]

/-- A node with no value and no children answers `None` to every lookup. -/
theorem get_husk (s : List Nat) (cm : List Nat) (k : List Nat) :
    Node.get (.mk s Option.none (.none : OKids T) cm) k = .ok Option.none := by
  rw [get_unfold]
  by_cases h1 : s.length > prefixLen k s
  · rw [if_pos h1]
  · rw [if_neg h1]
    by_cases h2 : k.length > prefixLen k s
    · rw [if_pos h2]
    · rw [if_neg h2]

theorem kidAt_mem_present : ∀ (cs : Kids T) (off j : Nat) (x : Node T),
    kidAt cs j = .some x ↔ (off + j, x) ∈ kidsPresent off cs
  | .nil, off, j, x => by simp [kidAt, kidsPresent]
  | .cons .none tl, off, 0, x => by
    simp only [kidAt, kidsPresent]
    constructor
    · intro h
      cases h
    · intro h
      have h2 := kidsPresent_mem_bound tl (off + 1) _ h
      omega
  | .cons (.some n) tl, off, 0, x => by
    simp only [kidAt, kidsPresent, List.mem_cons]
    constructor
    · intro h
      injection h with h
      subst h
      exact Or.inl (by simp)
    · intro h
      rcases h with h | h
      · rw [Prod.mk.injEq] at h
        rw [h.2]
      · have h2 := kidsPresent_mem_bound tl (off + 1) _ h
        omega
  | .cons .none tl, off, j + 1, x => by
    simp only [kidAt, kidsPresent]
    have h2 := kidAt_mem_present tl (off + 1) j x
    rw [show off + (j + 1) = off + 1 + j from by omega]
    exact h2
  | .cons (.some n) tl, off, j + 1, x => by
    simp only [kidAt, kidsPresent, List.mem_cons]
    have h2 := kidAt_mem_present tl (off + 1) j x
    rw [show off + (j + 1) = off + 1 + j from by omega]
    constructor
    · intro h
      exact Or.inr (h2.mp h)
    · intro h
      rcases h with h | h
      · rw [Prod.mk.injEq] at h
        omega
      · exact h2.mpr h

theorem kidsPresent_singleton_at (cs : Kids T) (i : Nat) (child : Node T)
    (hp : kidsPresent 0 cs = [(i, child)]) : kidAt cs i = .some child := by
  have h2 := (kidAt_mem_present cs 0 i child).mpr
  rw [hp] at h2
  exact h2 (by simp)

theorem kidsPresent_singleton_ne (cs : Kids T) (i : Nat) (child : Node T)
    (hp : kidsPresent 0 cs = [(i, child)]) (j : Nat) (hj : j ≠ i) :
    kidAt cs j = .none := by
  cases hh : kidAt cs j with
  | none => rfl
  | some x =>
    have h2 := (kidAt_mem_present cs 0 j x).mp hh
    rw [hp] at h2
    simp only [List.mem_cons, List.not_mem_nil, or_false, Prod.mk.injEq] at h2
    omega

theorem kidsPresent_nil_kidAt (cs : Kids T) (hp : kidsPresent 0 cs = [])
    (j : Nat) : kidAt cs j = .none := by
  cases hh : kidAt cs j with
  | none => rfl
  | some x =>
    have h2 := (kidAt_mem_present cs 0 j x).mp hh
    rw [hp] at h2
    simp at h2

theorem prefixLen_append : ∀ (s a b : List Nat),
    prefixLen (s ++ a) (s ++ b) = s.length + prefixLen a b
  | [], a, b => by simp
  | x :: xs, a, b => by
    show (if x = x then prefixLen (xs ++ a) (xs ++ b) + 1 else 0) =
      (x :: xs).length + prefixLen a b
    rw [if_pos rfl, prefixLen_append xs a b, List.length_cons]
    omega

theorem prefixLen_append_right : ∀ (a b c : List Nat), prefixLen a b < b.length →
    prefixLen a (b ++ c) = prefixLen a b
  | [], b, c, h => by cases b with
    | nil => simp [prefixLen] at h
    | cons y ys => simp [prefixLen]
  | x :: xs, [], c, h => by simp [prefixLen] at h
  | x :: xs, y :: ys, c, h => by
    by_cases hxy : x = y
    · simp only [prefixLen, if_pos hxy, List.length_cons] at h
      show (if x = y then prefixLen xs (ys ++ c) + 1 else 0) =
        (if x = y then prefixLen xs ys + 1 else 0)
      rw [if_pos hxy, if_pos hxy, prefixLen_append_right xs ys c (by omega)]
    · show (if x = y then prefixLen xs (ys ++ c) + 1 else 0) =
        (if x = y then prefixLen xs ys + 1 else 0)
      rw [if_neg hxy, if_neg hxy]

theorem drop_cons (k : List Nat) (c : Nat) (h : c < k.length) :
    k.drop c = k.getD c 0 :: k.drop (c + 1) := by
  rw [List.drop_eq_getElem_cons h]
  congr 1
  rw [List.getD_eq_getElem]


theorem pruneKids_eq_some (d cs2 : Kids T) (h : pruneKids d = .some cs2) : cs2 = d := by
  unfold pruneKids at h
  cases hp : kidsPresent 0 d with
  | nil =>
    rw [hp] at h
    cases h
  | cons hd tl =>
    rw [hp] at h
    injection h with h
    exact h.symm

theorem pruneKids_eq_none (d : Kids T) (h : pruneKids d = .none) :
    kidsPresent 0 d = [] := by
  unfold pruneKids at h
  cases hp : kidsPresent 0 d with
  | nil => rfl
  | cons hd tl =>
    rw [hp] at h
    cases h

theorem drop_append_cons (s : List Nat) (i : Nat) (t : List Nat) :
    (s ++ i :: t).drop (s.length + 1) = t := by
  rw [show s.length + 1 = (s ++ [i]).length from by simp,
    show s ++ i :: t = (s ++ [i]) ++ t from by simp, List.drop_left]

/-- A successful `Node::unsplit` does not change any lookup. -/
theorem unsplit_get (s : List Nat) (v : Option T) (c2 : OKids T) (cm : List Nat)
    (u : Node T) (h : Node.unsplit ser (.mk s v c2 cm) = .ok u) (k2 : List Nat) :
    Node.get u k2 = Node.get (.mk s v c2 cm) k2 := by
  cases v with
  | some x =>
    simp only [Node.unsplit] at h
    injection h with h
    subst h
    rw [Node.new]
    exact get_cm _ _ _ _ _ _
  | none =>
    cases c2 with
    | none =>
      simp only [Node.unsplit] at h
      injection h with h
      subst h
      rw [Node.new]
      exact get_cm _ _ _ _ _ _
    | some cs =>
      simp only [Node.unsplit] at h
      cases hp : kidsPresent 0 cs with
      | nil =>
        rw [hp] at h
        injection h with h
        subst h
        rw [Node.new]
        exact get_cm _ _ _ _ _ _
      | cons hd tl =>
        cases tl with
        | cons p2 rest =>
          rw [hp] at h
          injection h with h
          subst h
          rw [Node.new]
          exact get_cm _ _ _ _ _ _
        | nil =>
          obtain ⟨i, child⟩ := hd
          cases child with
          | wire ccm =>
            rw [hp] at h
            cases h
          | mk csub cval ckids ccm =>
            rw [hp] at h
            injection h with h
            subst h
            have hsub : (s ++ i :: csub).length = s.length + 1 + csub.length := by
              simp
              omega
            by_cases h1 : prefixLen k2 s < s.length
            · have hpl : prefixLen k2 (s ++ i :: csub) = prefixLen k2 s :=
                prefixLen_append_right k2 s (i :: csub) h1
              rw [Node.new, get_unfold, get_unfold, hpl]
              rw [if_pos (show (s ++ i :: csub).length > prefixLen k2 s from by omega),
                if_pos (show s.length > prefixLen k2 s from h1)]
            · have h2 : prefixLen k2 s = s.length := by
                have h3 := prefixLen_le_right k2 s
                omega
              have htake : k2.take s.length = s := by
                have h4 := prefixLen_take_eq k2 s s.length (by omega)
                rwa [List.take_length] at h4
              by_cases h3 : k2.length > s.length
              · have hk2eq : k2 = s ++ k2.getD s.length 0 :: k2.drop (s.length + 1) := by
                  conv_lhs => rw [← List.take_append_drop s.length k2]
                  rw [htake, drop_cons k2 s.length (by omega)]
                by_cases h5 : k2.getD s.length 0 = i
                · have hplen : prefixLen k2 (s ++ i :: csub) =
                      s.length + 1 + prefixLen (k2.drop (s.length + 1)) csub := by
                    conv_lhs => rw [hk2eq]
                    rw [h5, show (i : Nat) :: k2.drop (s.length + 1) =
                        [i] ++ k2.drop (s.length + 1) from rfl,
                      show (i : Nat) :: csub = [i] ++ csub from rfl,
                      ← List.append_assoc, ← List.append_assoc, prefixLen_append]
                    simp only [List.length_append, List.length_cons, List.length_nil]
                  have hstrip := get_strip (s ++ i :: csub) (cval) (ckids)
                    (commitCalc ser (s ++ i :: csub) cval ckids) ccm k2 (s.length + 1)
                    (by omega)
                  rw [drop_append_cons] at hstrip
                  rw [Node.new, ← hstrip]
                  conv_rhs => rw [get_unfold]
                  rw [if_neg (show ¬ s.length > prefixLen k2 s from by omega),
                    if_pos (show k2.length > prefixLen k2 s from by omega)]
                  dsimp only
                  rw [h2, h5, kidsPresent_singleton_at cs i (Node.mk csub cval ckids ccm) hp]
                · have hplen : prefixLen k2 (s ++ i :: csub) = s.length := by
                    conv_lhs => rw [hk2eq]
                    rw [show s ++ k2.getD s.length 0 :: k2.drop (s.length + 1) =
                      s ++ (k2.getD s.length 0 :: k2.drop (s.length + 1)) from rfl,
                      prefixLen_append]
                    have h6 : prefixLen (k2.getD s.length 0 :: k2.drop (s.length + 1))
                        (i :: csub) = 0 := by
                      show (if k2.getD s.length 0 = i then _ + 1 else 0) = 0
                      rw [if_neg h5]
                    omega
                  rw [Node.new, get_unfold, get_unfold, hplen]
                  rw [if_pos (show (s ++ i :: csub).length > s.length from by omega),
                    if_neg (show ¬ s.length > prefixLen k2 s from by omega),
                    if_pos (show k2.length > prefixLen k2 s from by omega)]
                  dsimp only
                  rw [h2, kidsPresent_singleton_ne cs i _ hp (k2.getD s.length 0) h5]
              · have hk2s : k2 = s := by
                  have h4 := prefixLen_le_left k2 s
                  have h5 : k2.length = s.length := by omega
                  rw [← htake, ← h5, List.take_length]
                subst hk2s
                have hplen : prefixLen k2 (k2 ++ i :: csub) = k2.length := by
                  have h6 := prefixLen_append k2 [] (i :: csub)
                  simp only [List.append_nil] at h6
                  rw [h6]
                  rfl
                rw [Node.new, get_unfold, get_unfold, hplen, prefixLen_refl]
                rw [if_pos (show (k2 ++ i :: csub).length > k2.length from by simp),
                  if_neg (lt_irrefl k2.length), if_neg h3]


theorem dropKid_kidAt_same (cs : Kids T) (nib : Nat) (r1 : Node T)
    (hnib : nib < kidsCount cs) :
    kidAt (dropKid cs nib r1) nib =
      (match r1 with
        | .mk _ Option.none .none _ => ONode.none
        | _ => ONode.some r1) := by
  unfold dropKid
  cases r1 with
  | wire c => rw [kidAt_kidSet_same _ _ _ hnib]
  | mk a b c d => cases b <;> cases c <;> rw [kidAt_kidSet_same _ _ _ hnib]

theorem dropKid_kidAt_ne (cs : Kids T) (nib j : Nat) (r1 : Node T) (hj : j ≠ nib) :
    kidAt (dropKid cs nib r1) j = kidAt cs j := by
  unfold dropKid
  cases r1 with
  | wire c => rw [kidAt_kidSet_ne _ _ _ _ hj]
  | mk a b c d => cases b <;> cases c <;> rw [kidAt_kidSet_ne _ _ _ _ hj]

/-- Lookup behaviour of a successful `Node::remove`: the removed key now
reads `None`, and every other key reads exactly as before. -/
theorem remove_frame : ∀ (f : Nat) (n : Node T) (k : List Nat) (n2 : Node T) (old : Option T),
    Node.removeF ser f n k = .ok (n2, old) →
    Node.shape n = true → (∀ x ∈ k, x < 16) →
    Node.get n2 k = .ok Option.none ∧
    (∀ k2, k2 ≠ k → Node.get n2 k2 = Node.get n k2)
  | 0, n, k, n2, old, h, _, _ => by simp [Node.removeF] at h
  | f + 1, .wire cm, k, n2, old, h, _, _ => by simp [Node.removeF] at h
  | f + 1, .mk s v c cm, k, n2, old, h, hshape, hk16 => by
    have hpk := prefixLen_le_left k s
    have hps := prefixLen_le_right k s
    have hsh : s.all (fun x => x < 16) = true ∧ OKids.shape c = true := by
      rw [shape_mk] at hshape
      simpa using hshape
    by_cases hk : k.length > prefixLen k s
    · by_cases hs : s.length > prefixLen k s
      · simp only [Node.removeF, if_pos hk, if_pos hs] at h
        injection h with h
        rw [Prod.mk.injEq] at h
        obtain ⟨h1, h2⟩ := h
        subst h1
        subst h2
        exact ⟨by rw [get_unfold, if_pos hs], fun k2 _ => rfl⟩
      · cases c with
        | none =>
          simp only [Node.removeF, if_pos hk, if_neg hs] at h
          injection h with h
          rw [Prod.mk.injEq] at h
          obtain ⟨h1, h2⟩ := h
          subst h1
          subst h2
          refine ⟨?_, fun k2 _ => rfl⟩
          rw [get_unfold, if_neg hs, if_pos hk]
        | some cs =>
          have hcs : kidsCount cs = 16 ∧ Kids.shape cs = true := by
            have h4 := hsh.2
            rw [okidsShape_some] at h4
            simpa using h4
          have hik : k.getD (prefixLen k s) 0 < 16 := hk16 _ (getD_mem k _ hk)
          have hcut : prefixLen k s = s.length := by omega
          simp only [Node.removeF, if_pos hk, if_neg hs] at h
          cases hc : kidAt cs (k.getD (prefixLen k s) 0) with
          | none =>
            rw [hc] at h
            dsimp only at h
            injection h with h
            rw [Prod.mk.injEq] at h
            obtain ⟨h1, h2⟩ := h
            subst h1
            subst h2
            refine ⟨?_, fun k2 _ => rfl⟩
            rw [get_unfold, if_neg hs, if_pos hk]
            dsimp only
            rw [hc]
          | some child =>
            rw [hc] at h
            dsimp only at h
            have hchsh : Node.shape child = true := by
              have h2 := kidsShape_kidAt cs (k.getD (prefixLen k s) 0) hcs.2
              rw [hc, onodeShape_some] at h2
              exact h2
            have hk16s : ∀ x ∈ k.drop (prefixLen k s + 1), x < 16 :=
              fun x hx => hk16 x (List.drop_subset _ _ hx)
            cases hrec : Node.removeF ser f child (k.drop (prefixLen k s + 1)) with
            | error e => simp [hrec, Except.bind, bind] at h
            | ok r =>
              obtain ⟨r1, r2⟩ := r
              simp only [hrec, Except.bind, bind] at h
              have IH := remove_frame f child (k.drop (prefixLen k s + 1)) r1 r2 hrec
                hchsh hk16s
              cases r1 with
              | wire rcm => simp at h
              | mk rs rv rc rcm =>
                dsimp only at h
                cases hu : Node.unsplit ser
                    (.mk s v (pruneKids (dropKid cs (k.getD (prefixLen k s) 0)
                      (.mk rs rv rc rcm))) cm) with
                | error e =>
                  rw [hu] at h
                  simp [Except.bind, bind] at h
                | ok u =>
                  rw [hu] at h
                  simp only [Except.bind, bind] at h
                  cases u with
                  | wire ucm => simp at h
                  | mk us uv uc ucm =>
                    dsimp only at h
                    injection h with h
                    rw [Prod.mk.injEq] at h
                    obtain ⟨h1, h2⟩ := h
                    subst h1
                    subst h2
                    have hgetu : ∀ k2, Node.get (Node.new ser us uv uc) k2 =
                        Node.get (.mk s v (pruneKids (dropKid cs (k.getD (prefixLen k s) 0)
                          (.mk rs rv rc rcm))) cm) k2 := by
                      intro k2
                      have h7 := unsplit_get s v _ cm _ hu k2
                      rw [Node.new, get_cm us uv uc _ ucm k2]
                      exact h7
                    have hktake : k.take (prefixLen k s) = s := by
                      have h4 := prefixLen_take_eq k s (prefixLen k s) (le_refl _)
                      rw [h4, hcut, List.take_length]
                    have hkeq : ∀ k2 : List Nat, prefixLen k2 s = s.length →
                        k2.length > s.length →
                        k2.getD s.length 0 = k.getD (prefixLen k s) 0 →
                        k2.drop (s.length + 1) = k.drop (prefixLen k s + 1) → k2 = k := by
                      intro k2 hpp hlen hgd hdr
                      have h5 := prefixLen_take_eq k2 s s.length (by omega)
                      rw [List.take_length] at h5
                      refine list_eq_of_parts k2 k s.length (by omega) (by omega) ?_ ?_ ?_
                      · rw [h5]
                        conv_rhs => rw [← hcut]
                        rw [hktake]
                      · rw [hgd, hcut]
                      · rw [hdr, hcut]
                    refine ⟨?_, ?_⟩
                    · rw [hgetu k]
                      cases hq : pruneKids (dropKid cs (k.getD (prefixLen k s) 0)
                          (.mk rs rv rc rcm)) with
                      | none =>
                        rw [get_unfold, if_neg hs, if_pos hk]
                      | some cs2 =>
                        have hcs2 := pruneKids_eq_some _ _ hq
                        rw [hcs2, get_unfold, if_neg hs, if_pos hk]
                        dsimp only
                        rw [dropKid_kidAt_same cs _ _ (by rw [hcs.1]; exact hik)]
                        cases rv with
                        | none =>
                          cases rc with
                          | none => rfl
                          | some rcs =>
                            dsimp only
                            exact IH.1
                        | some rv0 =>
                          cases rc with
                          | none =>
                            dsimp only
                            exact IH.1
                          | some rcs =>
                            dsimp only
                            exact IH.1
                    · intro k2 hne
                      rw [hgetu k2]
                      cases hq : pruneKids (dropKid cs (k.getD (prefixLen k s) 0)
                          (.mk rs rv rc rcm)) with
                      | some cs2 =>
                        have hcs2 := pruneKids_eq_some _ _ hq
                        rw [hcs2]
                        have main : ∀ x : ONode T,
                            (∀ k2r, k2r ≠ k.drop (prefixLen k s + 1) →
                              onodeGet x k2r = Node.get child k2r) →
                            Node.get (.mk s v (.some (kidSet cs (k.getD (prefixLen k s) 0) x))
                              cm) k2 = Node.get (.mk s v (.some cs) cm) k2 := by
                          intro x hx
                          refine get_replace_child s v cs cm cm (k.getD (prefixLen k s) 0)
                            x k2 hcs.1 hik ?_
                          intro hpp hlen hgd
                          have hdrop : k2.drop (s.length + 1) ≠ k.drop (prefixLen k s + 1) := by
                            intro hdr
                            exact hne (hkeq k2 hpp hlen hgd hdr)
                          rw [hx _ hdrop, hc]
                          rfl
                        cases rv with
                        | none =>
                          cases rc with
                          | none =>
                            rw [show dropKid cs (k.getD (prefixLen k s) 0)
                                (.mk rs Option.none OKids.none rcm) =
                              kidSet cs (k.getD (prefixLen k s) 0) ONode.none from rfl]
                            refine main ONode.none ?_
                            intro k2r hr
                            rw [show onodeGet (ONode.none : ONode T) k2r =
                              Except.ok Option.none from rfl, ← IH.2 k2r hr, get_husk]
                          | some rcs =>
                            rw [show dropKid cs (k.getD (prefixLen k s) 0)
                                (.mk rs Option.none (OKids.some rcs) rcm) =
                              kidSet cs (k.getD (prefixLen k s) 0)
                                (ONode.some (.mk rs Option.none (OKids.some rcs) rcm))
                              from rfl]
                            refine main _ ?_
                            intro k2r hr
                            exact IH.2 k2r hr
                        | some rv0 =>
                          cases rc with
                          | none =>
                            rw [show dropKid cs (k.getD (prefixLen k s) 0)
                                (.mk rs (Option.some rv0) OKids.none rcm) =
                              kidSet cs (k.getD (prefixLen k s) 0)
                                (ONode.some (.mk rs (Option.some rv0) OKids.none rcm))
                              from rfl]
                            refine main _ ?_
                            intro k2r hr
                            exact IH.2 k2r hr
                          | some rcs =>
                            rw [show dropKid cs (k.getD (prefixLen k s) 0)
                                (.mk rs (Option.some rv0) (OKids.some rcs) rcm) =
                              kidSet cs (k.getD (prefixLen k s) 0)
                                (ONode.some (.mk rs (Option.some rv0) (OKids.some rcs) rcm))
                              from rfl]
                            refine main _ ?_
                            intro k2r hr
                            exact IH.2 k2r hr
                      | none =>
                        have hnil := pruneKids_eq_none _ hq
                        have hbound : k.getD (prefixLen k s) 0 < kidsCount cs := by
                          rw [hcs.1]
                          exact hik
                        have hhusk : rv = Option.none ∧ rc = OKids.none := by
                          cases rv with
                          | none =>
                            cases rc with
                            | none => exact ⟨rfl, rfl⟩
                            | some rcs =>
                              exfalso
                              have h8 := dropKid_kidAt_same cs (k.getD (prefixLen k s) 0)
                                (.mk rs Option.none (OKids.some rcs) rcm) hbound
                              dsimp only at h8
                              have h9 := (kidAt_mem_present _ 0 _ _).mp h8
                              rw [hnil] at h9
                              simp at h9
                          | some rv0 =>
                            exfalso
                            have h8 := dropKid_kidAt_same cs (k.getD (prefixLen k s) 0)
                              (.mk rs (Option.some rv0) rc rcm) hbound
                            have h8b : kidAt (dropKid cs (k.getD (prefixLen k s) 0)
                                (.mk rs (Option.some rv0) rc rcm)) (k.getD (prefixLen k s) 0) =
                                ONode.some (.mk rs (Option.some rv0) rc rcm) := by
                              rw [h8]
                            have h9 := (kidAt_mem_present _ 0 _ _).mp h8b
                            rw [hnil] at h9
                            simp at h9
                        obtain ⟨hrv, hrc⟩ := hhusk
                        subst hrv
                        subst hrc
                        rw [get_unfold, get_unfold]
                        by_cases ha : s.length > prefixLen k2 s
                        · rw [if_pos ha, if_pos ha]
                        · rw [if_neg ha, if_neg ha]
                          by_cases hb : k2.length > prefixLen k2 s
                          · rw [if_pos hb, if_pos hb]
                            dsimp only
                            have hcut2 : prefixLen k2 s = s.length := by
                              have h10 := prefixLen_le_right k2 s
                              omega
                            by_cases hj : k2.getD (prefixLen k2 s) 0 =
                                k.getD (prefixLen k s) 0
                            · rw [hj, hc]
                              dsimp only
                              have hdrop : k2.drop (prefixLen k2 s + 1) ≠
                                  k.drop (prefixLen k s + 1) := by
                                rw [hcut2]
                                intro hdr
                                refine hne (hkeq k2 hcut2 (by omega) ?_ hdr)
                                rw [← hj, hcut2]
                              rw [← IH.2 _ hdrop, get_husk]
                            · have h9 : kidAt cs (k2.getD (prefixLen k2 s) 0) = .none := by
                                have h10 := dropKid_kidAt_ne cs (k.getD (prefixLen k s) 0)
                                  (k2.getD (prefixLen k2 s) 0)
                                  (.mk rs Option.none OKids.none rcm) hj
                                rw [kidsPresent_nil_kidAt _ hnil] at h10
                                exact h10.symm
                              rw [h9]
                          · rw [if_neg hb, if_neg hb]
    · by_cases hs : s.length > prefixLen k s
      · simp only [Node.removeF, if_neg hk, if_pos hs] at h
        injection h with h
        rw [Prod.mk.injEq] at h
        obtain ⟨h1, h2⟩ := h
        subst h1
        subst h2
        exact ⟨by rw [get_unfold, if_pos hs], fun k2 _ => rfl⟩
      · simp only [Node.removeF, if_neg hk, if_neg hs] at h
        cases hu : Node.unsplit ser (.mk s Option.none c cm) with
        | error e =>
          rw [hu] at h
          simp [Except.bind, bind] at h
        | ok u =>
          rw [hu] at h
          simp only [Except.bind, bind] at h
          injection h with h
          rw [Prod.mk.injEq] at h
          obtain ⟨h1, h2⟩ := h
          subst h1
          subst h2
          have hks : k = s := by
            have h4 := prefixLen_take_eq k s (prefixLen k s) (le_refl _)
            have h5 : prefixLen k s = k.length := by omega
            have h6 : prefixLen k s = s.length := by omega
            rw [h5, List.take_length] at h4
            have h7 : k.length = s.length := by omega
            rw [h4, h7, List.take_length]
          refine ⟨?_, ?_⟩
          · rw [unsplit_get s Option.none c cm u hu k, get_unfold, if_neg hs, if_neg hk]
          · intro k2 hne
            rw [unsplit_get s Option.none c cm u hu k2]
            exact get_replace_value s Option.none v c cm cm k2 (by rw [← hks]; exact hne)


/-- Any single stored value is bounded by the weighted sum over the tree. -/
theorem get_le_sumW (w : T → Nat) : ∀ (f : Nat) (n : Node T) (k : List Nat) (v : T),
    Node.getF f n k = .ok (Option.some v) → w v ≤ Node.sumW w n
  | 0, n, k, v, h => by simp [Node.getF] at h
  | f + 1, .wire cm, k, v, h => by simp [Node.getF] at h
  | f + 1, .mk s v0 c cm, k, v, h => by
    simp only [Node.getF] at h
    by_cases hs : s.length > prefixLen k s
    · rw [if_pos hs] at h
      cases h
    · rw [if_neg hs] at h
      by_cases hk : k.length > prefixLen k s
      · rw [if_pos hk] at h
        cases c with
        | none => cases h
        | some cs =>
          dsimp only at h
          cases hc : kidAt cs (k.getD (prefixLen k s) 0) with
          | none =>
            rw [hc] at h
            cases h
          | some child =>
            rw [hc] at h
            dsimp only at h
            have h2 := get_le_sumW w f child (k.drop (prefixLen k s + 1)) v h
            have h3 := kidsSumW_kidAt w cs (k.getD (prefixLen k s) 0)
            rw [hc, onodeSumW_some] at h3
            rw [sumW_mk, okidsSumW_some]
            omega
      · rw [if_neg hk] at h
        injection h with h
        subst h
        rw [sumW_mk]
        simp [optW]

/-- Bundled map-level behaviour of an `insert` whose result is discarded, on
a well-shaped wire-free map (on which it always succeeds). -/
theorem insertD_spec (w : T → Nat) (m : MMap T) (k : List Nat) (v : T)
    (hsh : Node.shape m.root = true) (hnw : Node.noWire m.root = true) :
    Node.shape (MMap.insertD ser m k v).root = true ∧
    Node.noWire (MMap.insertD ser m k v).root = true ∧
    MMap.getOpt (MMap.insertD ser m k v) k = Option.some v ∧
    (∀ k2, toDigest k2 ≠ toDigest k →
      MMap.getOpt (MMap.insertD ser m k v) k2 = MMap.getOpt m k2) ∧
    Node.sumW w (MMap.insertD ser m k v).root + optW w (MMap.getOpt m k) =
      Node.sumW w m.root + w v := by
  obtain ⟨⟨n1, old1⟩, hins⟩ := @insertF_ok T ser ((toDigest k).length + 1) m.root
    (toDigest k) v (by omega) hnw
  have hm1 : MMap.insertD ser m k v = ⟨n1⟩ := by
    simp [MMap.insertD, MMap.insert, Node.insert, hins, Except.map]
  have hspec := insert_spec ((toDigest k).length + 1) m.root (toDigest k) v n1 old1
    hins hsh (toDigest_lt16 k)
  have hold : MMap.getOpt m k = old1 := by
    show (match Node.get m.root (toDigest k) with
      | .ok o => o
      | .error _ => Option.none) = old1
    rw [show Node.get m.root (toDigest k) = .ok old1 from hspec.2.1]
  rw [hm1]
  refine ⟨hspec.2.2.2.1, hspec.2.2.2.2.1 hnw, ?_, ?_, ?_⟩
  · show (match Node.get n1 (toDigest k) with
      | .ok o => o
      | .error _ => Option.none) = Option.some v
    rw [show Node.get n1 (toDigest k) = .ok (Option.some v) from hspec.1]
  · intro k2 hne
    show (match Node.get n1 (toDigest k2) with
      | .ok o => o
      | .error _ => Option.none) = _
    rw [hspec.2.2.1 _ hne]
    rfl
  · rw [hold]
    exact hspec.2.2.2.2.2.2 w

/-- Bundled map-level behaviour of a `remove` whose result is discarded, on
a well-shaped wire-free map (on which it always succeeds). -/
theorem removeD_spec (w : T → Nat) (m : MMap T) (k : List Nat)
    (hsh : Node.shape m.root = true) (hnw : Node.noWire m.root = true) :
    Node.shape (MMap.removeD ser m k).root = true ∧
    Node.noWire (MMap.removeD ser m k).root = true ∧
    MMap.getOpt (MMap.removeD ser m k) k = Option.none ∧
    (∀ k2, toDigest k2 ≠ toDigest k →
      MMap.getOpt (MMap.removeD ser m k) k2 = MMap.getOpt m k2) ∧
    Node.sumW w (MMap.removeD ser m k).root + optW w (MMap.getOpt m k) =
      Node.sumW w m.root := by
  obtain ⟨⟨n2, old2⟩, hrem⟩ := @removeF_ok T ser ((toDigest k).length + 1) m.root
    (toDigest k) (by omega) hsh hnw (toDigest_lt16 k)
  have hm2 : MMap.removeD ser m k = ⟨n2⟩ := by
    simp [MMap.removeD, MMap.remove, Node.remove, hrem, Except.map]
  have hspec := remove_spec ((toDigest k).length + 1) m.root (toDigest k) n2 old2
    hrem hsh (toDigest_lt16 k)
  have hframe := remove_frame ((toDigest k).length + 1) m.root (toDigest k) n2 old2
    hrem hsh (toDigest_lt16 k)
  have hold : MMap.getOpt m k = old2 := by
    show (match Node.get m.root (toDigest k) with
      | .ok o => o
      | .error _ => Option.none) = old2
    rw [show Node.get m.root (toDigest k) = .ok old2 from hspec.1]
  rw [hm2]
  refine ⟨hspec.2.1, hspec.2.2.1 hnw, ?_, ?_, ?_⟩
  · show (match Node.get n2 (toDigest k) with
      | .ok o => o
      | .error _ => Option.none) = Option.none
    rw [show Node.get n2 (toDigest k) = .ok Option.none from hframe.1]
  · intro k2 hne
    show (match Node.get n2 (toDigest k2) with
      | .ok o => o
      | .error _ => Option.none) = _
    rw [hframe.2 _ hne]
    rfl
  · rw [hold]
    exact hspec.2.2.2.2 w

/-- A stored value is bounded by the weighted sum, at map level. -/
theorem getOpt_le_sumW (w : T → Nat) (m : MMap T) (k : List Nat) (v : T)
    (h : MMap.getOpt m k = Option.some v) : w v ≤ Node.sumW w m.root := by
  have h2 : Node.get m.root (toDigest k) = .ok (Option.some v) := by
    revert h
    show (match Node.get m.root (toDigest k) with
      | .ok o => o
      | .error _ => Option.none) = Option.some v → _
    cases hg : Node.get m.root (toDigest k) with
    | error e =>
      intro h3
      cases h3
    | ok o =>
      intro h3
      dsimp only at h3
      rw [h3]
  exact get_le_sumW w ((toDigest k).length + 1) m.root (toDigest k) v h2

/-- Two values stored under different digests are jointly bounded by the
weighted sum. -/
theorem getOpt_two_le_sumW (w : T → Nat) (m : MMap T) (k1 k2 : List Nat) (v1 v2 : T)
    (hsh : Node.shape m.root = true) (hnw : Node.noWire m.root = true)
    (hne : toDigest k1 ≠ toDigest k2)
    (h1 : MMap.getOpt m k1 = Option.some v1) (h2 : MMap.getOpt m k2 = Option.some v2) :
    w v1 + w v2 ≤ Node.sumW w m.root := by
  have hr := @removeD_spec T (fun _ => []) w m k1 hsh hnw
  have h3 : MMap.getOpt (MMap.removeD (fun _ => []) m k1) k2 = Option.some v2 := by
    rw [hr.2.2.2.1 k2 (fun hh => hne hh.symm)]
    exact h2
  have h4 := getOpt_le_sumW w (MMap.removeD (fun _ => []) m k1) k2 v2 h3
  have h5 := hr.2.2.2.2
  rw [h1] at h5
  simp only [optW] at h5
  omega

theorem beBytes_lt : ∀ (n x : Nat), ∀ b ∈ beBytes n x, b < 256
  | 0, x, b, hb => by simp [beBytes] at hb
  | n + 1, x, b, hb => by
    simp only [beBytes, List.mem_append, List.mem_cons, List.not_mem_nil, or_false] at hb
    rcases hb with hb | hb
    · exact beBytes_lt n (x / 256) b hb
    · rw [hb]
      exact Nat.mod_lt _ (by norm_num)

/-- SHA-256 digests are byte lists: every entry is below 256. -/
theorem sha256_bytes_lt (msg : List Nat) : ∀ b ∈ sha256 msg, b < 256 := by
  intro b hb
  simp only [sha256, List.mem_flatten, List.mem_map] at hb
  obtain ⟨l, ⟨x, _, hx⟩, hbl⟩ := hb
  subst hx
  exact beBytes_lt 4 x b hbl

/-- `to_digest` is injective on byte lists. -/
theorem toDigest_inj : ∀ (a b : List Nat), (∀ x ∈ a, x < 256) → (∀ x ∈ b, x < 256) →
    toDigest a = toDigest b → a = b
  | [], [], _, _, _ => rfl
  | [], y :: ys, _, _, h => by simp [toDigest] at h
  | x :: xs, [], _, _, h => by simp [toDigest] at h
  | x :: xs, y :: ys, ha, hb, h => by
    simp only [toDigest, List.map_cons, List.flatten_cons, List.cons_append,
      List.cons.injEq] at h
    obtain ⟨h1, h2, h3⟩ := h
    have hx := ha x (by simp)
    have hy := hb y (by simp)
    have hxy : x = y := by
      have hxd : x = 16 * (x / 16 % 16) + x % 16 := by omega
      have hyd : y = 16 * (y / 16 % 16) + y % 16 := by omega
      omega
    have h4 := toDigest_inj xs ys (fun z hz => ha z (by simp [hz]))
      (fun z hz => hb z (by simp [hz])) (by simpa [toDigest] using h3)
    rw [hxy, h4]

theorem debe_beBytes : ∀ (w x acc : Nat),
    (beBytes w x).foldl (fun a b => a * 256 + b) acc =
      acc * 256 ^ w + x % 256 ^ w := by
  intro w
  induction w with
  | zero =>
    intro x acc
    simp [beBytes, Nat.mod_one]
  | succ w ih =>
    intro x acc
    simp only [beBytes, List.foldl_append, List.foldl_cons, List.foldl_nil]
    rw [ih]
    rw [pow_succ, Nat.mul_comm (256 ^ w) 256, Nat.mod_mul]
    ring

theorem debe_beBytes8 (x : Nat) : debe (beBytes 8 x) = x % 256 ^ 8 := by
  have h := debe_beBytes 8 x 0
  simpa [debe] using h

theorem c6_key_ne (i j : Nat) (hi : i < 4294967296) (hj : j < 4294967296)
    (hne : j ≠ i) :
    toDigest (be64 (c6Idx j)) ≠ toDigest (be64 (c6Idx i)) := by
  intro hd
  have hb := toDigest_inj _ _ (beBytes_lt 8 _) (beBytes_lt 8 _) hd
  have h2 := congrArg debe hb
  rw [debe_beBytes8, debe_beBytes8] at h2
  have hp : (256 : Nat) ^ 8 = 18446744073709551616 := by norm_num
  rw [hp] at h2
  simp only [c6Idx] at h2
  omega

theorem prefixLen_nil_right : ∀ (a : List Nat), prefixLen a [] = 0
  | [] => rfl
  | _ :: _ => rfl

theorem get_default (s2 : T → List Nat) (key : List Nat) :
    Node.get (Node.default s2) key = .ok Option.none := by
  show Node.get (.mk [] Option.none .none
    (commitCalc s2 [] Option.none .none)) key = .ok Option.none
  rw [get_unfold, prefixLen_nil_right]
  simp only [List.length_nil]
  rw [if_neg (by omega)]
  by_cases h : key.length > 0
  · rw [if_pos h]
  · rw [if_neg h]

theorem getOpt_default (s2 : T → List Nat) (k : List Nat) :
    MMap.getOpt (MMap.default s2) k = Option.none := by
  show (match MMap.get (MMap.default s2) k with
    | .ok o => o
    | .error _ => Option.none) = Option.none
  rw [show MMap.get (MMap.default s2) k = .ok Option.none from
    get_default s2 (toDigest k)]

/-- A verified self-payment applies as two overwrites of the sender's
account: the intermediate debited record, then the record with the original
balance and the bumped (wrapping) nonce. -/
theorem selfApply_ok (S : State) (stxn : Signed Txn) (a : AccountData)
    (hga : MMap.getOpt S.accounts (sha256 stxn.fromPk) = Option.some a)
    (hself : stxn.msg.toA = sha256 stxn.fromPk)
    (hroot : stxn.msg.toA ≠ VALIDATOR_ROOT)
    (hsig : Signed.verify serTxn stxn = true)
    (hnonce : stxn.msg.nonce = a.nonce)
    (hamt : stxn.msg.amount ≤ a.bal) :
    State.apply S stxn = .ok
      (State.applyUpdate (State.applyUpdate S
        (Update.AccountUp (sha256 stxn.fromPk)
          (Option.some ⟨a.bal - stxn.msg.amount, u32 (a.nonce + 1)⟩)))
        (Update.AccountUp (sha256 stxn.fromPk)
          (Option.some ⟨a.bal, u32 (a.nonce + 1)⟩))) := by
  have hver : State.verify S stxn = .ok
      [Update.AccountUp (sha256 stxn.fromPk)
        (Option.some ⟨a.bal - stxn.msg.amount, u32 (a.nonce + 1)⟩),
       Update.AccountUp (sha256 stxn.fromPk)
        (Option.some ⟨a.bal, u32 (a.nonce + 1)⟩)] := by
    simp only [State.verify]
    rw [hga]
    dsimp only
    rw [if_neg (not_not_intro hsig)]
    rw [if_neg (by omega : ¬ a.nonce > stxn.msg.nonce)]
    rw [if_neg (by omega : ¬ a.nonce < stxn.msg.nonce)]
    rw [if_neg (by omega : ¬ a.bal < stxn.msg.amount)]
    rw [if_neg hroot]
    rw [hself, hga]
    dsimp only
    rw [if_neg (not_not_intro rfl)]
  rw [State.apply, hver]
  rfl

set_option maxHeartbeats 1000000 in
/-- One C6 chain step: applying the `i`-th self-payment to a state whose
account reads `(5, i)` produces `c6NextState`. -/
theorem c6_step (S : State) (i : Nat)
    (hga : MMap.getOpt S.accounts (sha256 [2]) = Option.some ⟨5, i⟩) :
    State.apply S (c6Txn i) = .ok (c6NextState S i) := by
  have hself : (c6Txn i).msg.toA = sha256 ((c6Txn i).fromPk) := by
    simp only [c6Txn]
  have hroot : (c6Txn i).msg.toA ≠ VALIDATOR_ROOT := by
    simp only [c6Txn]
    decide
  have hsig : Signed.verify serTxn (c6Txn i) = true := by
    simp [Signed.verify, c6Txn]
  have hnonce : (c6Txn i).msg.nonce = (⟨5, i⟩ : AccountData).nonce := by
    simp only [c6Txn]
  have hamt : (c6Txn i).msg.amount ≤ (⟨5, i⟩ : AccountData).bal := by
    simp only [c6Txn]
    decide
  have hga2 : MMap.getOpt S.accounts (sha256 ((c6Txn i).fromPk)) =
      Option.some (⟨5, i⟩ : AccountData) := hga
  have h := selfApply_ok S (c6Txn i) ⟨5, i⟩ hga2 hself hroot hsig hnonce hamt
  rw [h]
  rfl

/-- The C6 chain: from a builder whose working account reads `(5, i)`, whose
transaction map holds `i` values and is empty at every future key of the
`(batch << 32) | count` scheme, and whose counters sit at `i`, the `k`
self-payments with nonces `i, ..., i + k - 1` are all accepted and leave
`i + k` stored transactions. -/
theorem c6_chain : ∀ (k i : Nat) (b : Builder),
    i + k < 4294967295 →
    MapReach serAccountData b.state.accounts →
    MMap.getOpt b.state.accounts (sha256 [2]) = Option.some ⟨5, i⟩ →
    MapReach serSignedTxn b.txnseq →
    (∀ j, i ≤ j → j < 4294967296 →
      MMap.getOpt b.txnseq (be64 (c6Idx j)) = Option.none) →
    b.batch = i / 128 → b.count = i % 128 →
    Node.countVals b.txnseq.root = i →
    ∃ b2, Builder.addAll b (c6TxnsFrom i k) = Option.some b2 ∧
      Node.countVals b2.txnseq.root = i + k := by
  intro k
  induction k with
  | zero =>
    intro i b hbound hra hga hrt hfresh hbatch hcount hcnt
    exact ⟨b, rfl, by omega⟩
  | succ k ih =>
    intro i b hbound hra hga hrt hfresh hbatch hcount hcnt
    obtain ⟨hshA, hnwA, _⟩ := reach_inv b.state.accounts hra
    obtain ⟨hshT, hnwT, _⟩ := reach_inv b.txnseq hrt
    have hstep := c6_step b.state i hga
    obtain ⟨⟨n1, old⟩, hinsF⟩ := @insertF_ok (Signed Txn) serSignedTxn
      ((toDigest (be64 (c6Idx i))).length + 1) b.txnseq.root
      (toDigest (be64 (c6Idx i))) (c6Txn i) (by omega) hnwT
    have hmmIns : MMap.insert serSignedTxn b.txnseq (be64 (c6Idx i)) (c6Txn i) =
        .ok (⟨n1⟩, old) := by
      simp [MMap.insert, Node.insert, hinsF, Except.map]
    have hd1 : MMap.insertD serSignedTxn b.txnseq (be64 (c6Idx i)) (c6Txn i) =
        (⟨n1⟩ : MMap (Signed Txn)) := by
      simp [MMap.insertD, hmmIns]
    have ht1 := @insertD_spec (Signed Txn) serSignedTxn (fun _ => (1 : Nat))
      b.txnseq (be64 (c6Idx i)) (c6Txn i) hshT hnwT
    rw [hd1] at ht1
    have ha1 := @insertD_spec AccountData serAccountData AccountData.bal
      b.state.accounts (sha256 [2]) ⟨5, u32 (i + 1)⟩ hshA hnwA
    have ha2 := @insertD_spec AccountData serAccountData AccountData.bal
      (MMap.insertD serAccountData b.state.accounts (sha256 [2]) ⟨5, u32 (i + 1)⟩)
      (sha256 [2]) ⟨5, u32 (i + 1)⟩ ha1.1 ha1.2.1
    have hiu : u32 (i + 1) = i + 1 := Nat.mod_eq_of_lt (by omega)
    have hfreshi := hfresh i (Nat.le_refl i) (by omega)
    have hcnt2 : Node.countVals n1 = i + 1 := by
      have hsum := ht1.2.2.2.2
      rw [hfreshi] at hsum
      simp only [optW] at hsum
      try rw [show ({ root := n1 } : MMap (Signed Txn)).root = n1 from rfl] at hsum
      try rw [show ((fun x => (1 : Nat)) (c6Txn i)) = 1 from rfl] at hsum
      rw [Node.countVals] at hcnt ⊢
      clear ht1 ha1 ha2
      omega
    have hfresh2 : ∀ j, i + 1 ≤ j → j < 4294967296 →
        MMap.getOpt (⟨n1⟩ : MMap (Signed Txn)) (be64 (c6Idx j)) = Option.none := by
      intro j hj hj2
      rw [ht1.2.2.2.1 (be64 (c6Idx j)) (c6_key_ne i j (by omega) hj2 (by omega))]
      exact hfresh j (by omega) hj2
    have hrt2 : MapReach serSignedTxn (⟨n1⟩ : MMap (Signed Txn)) :=
      hd1 ▸ MapReach.ins b.txnseq (be64 (c6Idx i)) (c6Txn i) hrt
    have hra2 : MapReach serAccountData (c6NextState b.state i).accounts :=
      MapReach.ins _ (sha256 [2]) (⟨5, u32 (i + 1)⟩ : AccountData)
        (MapReach.ins _ (sha256 [2]) (⟨5, u32 (i + 1)⟩ : AccountData) hra)
    have hga2 : MMap.getOpt (c6NextState b.state i).accounts (sha256 [2]) =
        Option.some ⟨5, i + 1⟩ := by
      show MMap.getOpt (MMap.insertD serAccountData
        (MMap.insertD serAccountData b.state.accounts (sha256 [2])
          ⟨5, u32 (i + 1)⟩) (sha256 [2]) ⟨5, u32 (i + 1)⟩) (sha256 [2]) =
        Option.some ⟨5, i + 1⟩
      rw [ha2.2.2.1, hiu]
    simp only [c6Idx] at hmmIns
    by_cases hc : i % 128 = 127
    · have hAdd : Builder.add b (c6Txn i) = AddRes.ok
          { b with
            state := c6NextState (b.state) i,
            txnseq := (⟨n1⟩ : MMap (Signed Txn)),
            count := 0, batch := u32 (b.batch + 1) } := by
        simp only [Builder.add]
        rw [hstep]
        dsimp only
        rw [hbatch, hcount]
        rw [hmmIns]
        dsimp only
        rw [if_pos (show i % 128 + 1 = TXN_BATCH_SIZE from by rw [hc]; rfl)]
      obtain ⟨bf, hbf, hcntf⟩ := ih (i + 1)
        { b with
          state := c6NextState (b.state) i,
          txnseq := (⟨n1⟩ : MMap (Signed Txn)),
          count := 0, batch := u32 (b.batch + 1) }
        (by omega) hra2 hga2 hrt2 hfresh2
        (by show u32 (b.batch + 1) = (i + 1) / 128
            rw [hbatch]
            simp only [u32]
            omega)
        (by show (0 : Nat) = (i + 1) % 128
            omega)
        hcnt2
      refine ⟨bf, ?_, by omega⟩
      show Builder.addAll b (c6Txn i :: c6TxnsFrom (i + 1) k) = Option.some bf
      simp only [Builder.addAll]
      rw [hAdd]
      exact hbf
    · have hAdd : Builder.add b (c6Txn i) = AddRes.ok
          { b with
            state := c6NextState (b.state) i,
            txnseq := (⟨n1⟩ : MMap (Signed Txn)),
            count := b.count + 1 } := by
        simp only [Builder.add]
        rw [hstep]
        dsimp only
        rw [hbatch, hcount]
        rw [hmmIns]
        dsimp only
        rw [if_neg (show ¬ i % 128 + 1 = TXN_BATCH_SIZE from by
          rw [show TXN_BATCH_SIZE = 128 from rfl]
          omega)]
      obtain ⟨bf, hbf, hcntf⟩ := ih (i + 1)
        { b with
          state := c6NextState (b.state) i,
          txnseq := (⟨n1⟩ : MMap (Signed Txn)),
          count := b.count + 1 }
        (by omega) hra2 hga2 hrt2 hfresh2
        (by show b.batch = (i + 1) / 128
            rw [hbatch]
            omega)
        (by show b.count + 1 = (i + 1) % 128
            rw [hcount]
            omega)
        hcnt2
      refine ⟨bf, ?_, by omega⟩
      show Builder.addAll b (c6Txn i :: c6TxnsFrom (i + 1) k) = Option.some bf
      simp only [Builder.addAll]
      rw [hAdd]
      exact hbf


/-! Lexicographic order and key-value list lemmas for the round-trip proof. -/

theorem lexLtB_nil_right : ∀ (a : List Nat), lexLtB a [] = false
  | [] => rfl
  | _ :: _ => rfl

theorem lexLtB_irrefl : ∀ (a : List Nat), lexLtB a a = false
  | [] => rfl
  | x :: xs => by simp [lexLtB, lexLtB_irrefl xs]

theorem lexLtB_cons_self (x : Nat) (a b : List Nat) :
    lexLtB (x :: a) (x :: b) = lexLtB a b := by
  simp [lexLtB]

theorem lexLtB_cons_of_lt {x y : Nat} (h : x < y) (a b : List Nat) :
    lexLtB (x :: a) (y :: b) = true := by
  simp [lexLtB, h]

theorem lexLtB_cons_inv {x y : Nat} {a b : List Nat}
    (h : lexLtB (x :: a) (y :: b) = true) :
    x < y ∨ (x = y ∧ lexLtB a b = true) := by
  by_cases h1 : x < y
  · exact Or.inl h1
  · by_cases h2 : x = y
    · simp only [lexLtB, if_neg h1, if_pos h2] at h
      exact Or.inr ⟨h2, h⟩
    · simp only [lexLtB, if_neg h1, if_neg h2] at h
      exact absurd h (by decide)

theorem lexLtB_append_common : ∀ (c a b : List Nat),
    lexLtB (c ++ a) (c ++ b) = lexLtB a b
  | [], a, b => rfl
  | x :: xs, a, b => by
    show lexLtB (x :: (xs ++ a)) (x :: (xs ++ b)) = lexLtB a b
    rw [lexLtB_cons_self]
    exact lexLtB_append_common xs a b

theorem lexLtB_trans : ∀ (a b c : List Nat),
    lexLtB a b = true → lexLtB b c = true → lexLtB a c = true
  | a, [], c, hab, _ => by
    rw [lexLtB_nil_right] at hab
    exact absurd hab (by decide)
  | _, _ :: _, [], _, hbc => by
    rw [lexLtB_nil_right] at hbc
    exact absurd hbc (by decide)
  | [], y :: ys, z :: zs, _, _ => rfl
  | x :: xs, y :: ys, z :: zs, hab, hbc => by
    rcases lexLtB_cons_inv hab with h1 | ⟨he1, h1⟩
    · rcases lexLtB_cons_inv hbc with h2 | ⟨he2, h2⟩
      · exact lexLtB_cons_of_lt (by omega) xs zs
      · exact lexLtB_cons_of_lt (by omega) xs zs
    · rcases lexLtB_cons_inv hbc with h2 | ⟨he2, h2⟩
      · exact lexLtB_cons_of_lt (by omega) xs zs
      · subst he1
        subst he2
        rw [lexLtB_cons_self]
        exact lexLtB_trans xs ys zs h1 h2

theorem list_decomp : ∀ (l : List Nat) (c : Nat), c < l.length →
    l.take c ++ l.getD c 0 :: l.drop (c + 1) = l
  | [], c, h => by simp at h
  | x :: xs, 0, _ => by simp
  | x :: xs, c + 1, h => by
    simp only [List.take_succ_cons, List.getD_cons_succ, List.drop_succ_cons,
      List.cons_append]
    rw [list_decomp xs c (by simpa using h)]

theorem keyvals_mk (s : List Nat) (v : Option T) (c : OKids T) (cm : List Nat) :
    Node.keyvals (.mk s v c cm) =
      (OKids.keyvals c ++ (match v with
        | Option.none => []
        | Option.some w => [([], w)])).map (fun p => (s ++ p.1, p.2)) := rfl

theorem keyvals_new (s : List Nat) (v : Option T) (c : OKids T) :
    Node.keyvals (Node.new ser s v c) =
      (OKids.keyvals c ++ (match v with
        | Option.none => []
        | Option.some w => [([], w)])).map (fun p => (s ++ p.1, p.2)) := rfl

theorem okidsKeyvals_some (cs : Kids T) :
    OKids.keyvals (.some cs) = Kids.keyvals 0 cs := rfl

theorem okidsKeyvals_none : OKids.keyvals (.none : OKids T) = [] := rfl

theorem keyvals_emptyKids : ∀ (n i : Nat), Kids.keyvals i (emptyKids n : Kids T) = []
  | 0, i => rfl
  | n + 1, i => by
    show Kids.keyvals i (.cons .none (emptyKids n)) = []
    simp only [Kids.keyvals, ONode.keyvals, List.nil_append]
    exact keyvals_emptyKids n (i + 1)

theorem kidsPresent_emptyKids : ∀ (n i : Nat), kidsPresent i (emptyKids n : Kids T) = []
  | 0, i => rfl
  | n + 1, i => by
    show kidsPresent i (.cons .none (emptyKids n)) = []
    simp only [kidsPresent]
    exact kidsPresent_emptyKids n (i + 1)

theorem kids_keyvals_present : ∀ (i : Nat) (cs : Kids T),
    Kids.keyvals i cs =
      ((kidsPresent i cs).map
        (fun q => (Node.keyvals q.2).map (fun p => (q.1 :: p.1, p.2)))).flatten
  | i, .nil => rfl
  | i, .cons .none tl => by
    simp only [Kids.keyvals, ONode.keyvals, kidsPresent, List.nil_append]
    exact kids_keyvals_present (i + 1) tl
  | i, .cons (.some n) tl => by
    simp only [Kids.keyvals, ONode.keyvals, kidsPresent, List.map_cons, List.flatten_cons]
    rw [kids_keyvals_present (i + 1) tl]

theorem kidsPresent_set_none : ∀ (cs : Kids T) (i r : Nat) (x : Node T),
    r < kidsCount cs → kidAt cs r = .none →
    ∃ pre post,
      kidsPresent i cs = pre ++ post ∧
      kidsPresent i (kidSet cs r (.some x)) = pre ++ (i + r, x) :: post ∧
      (∀ q ∈ post, i + r < q.1)
  | .nil, i, r, x, hr, _ => by simp [kidsCount] at hr
  | .cons (.some n) tl, i, 0, x, _, hat => by simp [kidAt] at hat
  | .cons .none tl, i, 0, x, _, _ => by
    refine ⟨[], kidsPresent (i + 1) tl, by simp [kidsPresent], ?_, ?_⟩
    · show kidsPresent i (.cons (.some x) tl) = [] ++ (i + 0, x) :: kidsPresent (i + 1) tl
      simp [kidsPresent]
    · intro q hq
      have := kidsPresent_mem_bound tl (i + 1) q hq
      omega
  | .cons hd tl, i, r + 1, x, hr, hat => by
    have hr2 : r < kidsCount tl := by simp [kidsCount] at hr; omega
    obtain ⟨pre, post, h1, h2, h4⟩ := kidsPresent_set_none tl (i + 1) r x hr2 hat
    cases hd with
    | none =>
      refine ⟨pre, post, ?_, ?_, ?_⟩
      · show kidsPresent (i + 1) tl = pre ++ post
        exact h1
      · show kidsPresent (i + 1) (kidSet tl r (.some x)) = pre ++ (i + (r + 1), x) :: post
        rw [h2, show i + 1 + r = i + (r + 1) from by omega]
      · intro q hq
        have := h4 q hq
        omega
    | some n =>
      refine ⟨(i, n) :: pre, post, ?_, ?_, ?_⟩
      · show (i, n) :: kidsPresent (i + 1) tl = (i, n) :: pre ++ post
        rw [h1]
        rfl
      · show (i, n) :: kidsPresent (i + 1) (kidSet tl r (.some x)) =
          (i, n) :: pre ++ (i + (r + 1), x) :: post
        rw [h2, show i + 1 + r = i + (r + 1) from by omega]
        rfl
      · intro q hq
        have := h4 q hq
        omega

theorem kidsPresent_set_some : ∀ (cs : Kids T) (i r : Nat) (child x : Node T),
    kidAt cs r = .some child →
    ∃ pre post,
      kidsPresent i cs = pre ++ (i + r, child) :: post ∧
      kidsPresent i (kidSet cs r (.some x)) = pre ++ (i + r, x) :: post ∧
      (∀ q ∈ post, i + r < q.1)
  | .nil, i, r, child, x, hat => by simp [kidAt] at hat
  | .cons .none tl, i, 0, child, x, hat => by simp [kidAt] at hat
  | .cons (.some n) tl, i, 0, child, x, hat => by
    have hn : n = child := by simpa [kidAt] using hat
    subst hn
    refine ⟨[], kidsPresent (i + 1) tl, ?_, ?_, ?_⟩
    · show (i, n) :: kidsPresent (i + 1) tl = [] ++ (i + 0, n) :: kidsPresent (i + 1) tl
      simp
    · show (i, x) :: kidsPresent (i + 1) tl = [] ++ (i + 0, x) :: kidsPresent (i + 1) tl
      simp
    · intro q hq
      have := kidsPresent_mem_bound tl (i + 1) q hq
      omega
  | .cons hd tl, i, r + 1, child, x, hat => by
    obtain ⟨pre, post, h1, h2, h4⟩ := kidsPresent_set_some tl (i + 1) r child x hat
    cases hd with
    | none =>
      refine ⟨pre, post, ?_, ?_, ?_⟩
      · show kidsPresent (i + 1) tl = pre ++ (i + (r + 1), child) :: post
        rw [h1, show i + 1 + r = i + (r + 1) from by omega]
      · show kidsPresent (i + 1) (kidSet tl r (.some x)) = pre ++ (i + (r + 1), x) :: post
        rw [h2, show i + 1 + r = i + (r + 1) from by omega]
      · intro q hq
        have := h4 q hq
        omega
    | some m =>
      refine ⟨(i, m) :: pre, post, ?_, ?_, ?_⟩
      · show (i, m) :: kidsPresent (i + 1) tl =
          (i, m) :: pre ++ (i + (r + 1), child) :: post
        rw [h1, show i + 1 + r = i + (r + 1) from by omega]
        rfl
      · show (i, m) :: kidsPresent (i + 1) (kidSet tl r (.some x)) =
          (i, m) :: pre ++ (i + (r + 1), x) :: post
        rw [h2, show i + 1 + r = i + (r + 1) from by omega]
        rfl
      · intro q hq
        have := h4 q hq
        omega

theorem flatten_nil_of {A B : Type} (l : List A) (F : A → List B)
    (h : ∀ x ∈ l, F x = []) : (l.map F).flatten = [] := by
  induction l with
  | nil => rfl
  | cons x xs ih =>
    simp only [List.map_cons, List.flatten_cons, h x (by simp), List.nil_append]
    exact ih (fun y hy => h y (by simp [hy]))

theorem mem_keyvals_child (s : List Nat) (v : Option T) (cs : Kids T) (cm : List Nat)
    (j : Nat) (child : Node T) (hat : kidAt cs j = .some child)
    (p : List Nat × T) (hp : p ∈ Node.keyvals child) :
    (s ++ j :: p.1, p.2) ∈ Node.keyvals (.mk s v (.some cs) cm) := by
  rw [keyvals_mk]
  refine List.mem_map.mpr ⟨(j :: p.1, p.2), ?_, rfl⟩
  refine List.mem_append.mpr (Or.inl ?_)
  show (j :: p.1, p.2) ∈ Kids.keyvals 0 cs
  rw [kids_keyvals_present]
  refine List.mem_flatten.mpr
    ⟨(Node.keyvals child).map (fun q => (j :: q.1, q.2)), ?_, ?_⟩
  · refine List.mem_map.mpr ⟨(j, child), ?_, rfl⟩
    have := (kidAt_mem_present cs 0 j child).mp hat
    simpa using this
  · exact List.mem_map.mpr ⟨p, hp, rfl⟩

theorem mem_keyvals_value (s : List Nat) (w : T) (c : OKids T) (cm : List Nat) :
    (s, w) ∈ Node.keyvals (.mk s (Option.some w) c cm) := by
  rw [keyvals_mk]
  refine List.mem_map.mpr ⟨([], w), by simp, by simp⟩

theorem kidsCount_of_shape (cs : Kids T) (h : OKids.shape (.some cs) = true) :
    kidsCount cs = 16 := by
  simp only [okidsShape_some, Bool.and_eq_true, beq_iff_eq] at h
  exact h.1

theorem keyvals_child_nil_of_gt (s : List Nat) (val : Option T) (cs : Kids T)
    (cm : List Nat) (j : Nat) (child : Node T) (nib : Nat) (rest k : List Nat)
    (hat : kidAt cs j = .some child)
    (hk : k = s ++ nib :: rest)
    (H : ∀ p ∈ Node.keyvals (.mk s val (.some cs) cm), lexLtB p.1 k = true)
    (hgt : nib < j) :
    Node.keyvals child = [] := by
  cases hkv : Node.keyvals child with
  | nil => rfl
  | cons p ps =>
    exfalso
    have hp : p ∈ Node.keyvals child := by rw [hkv]; simp
    have hmem := mem_keyvals_child s val cs cm j child hat p hp
    have hlex := H _ hmem
    rw [hk, lexLtB_append_common] at hlex
    rcases lexLtB_cons_inv hlex with h | ⟨h, _⟩ <;> omega

theorem keyvals_old_collapse (s : List Nat) (val : Option T) (c : OKids T)
    (cm : List Nat) (cut : Nat) (hcut : cut < s.length) :
    ((Node.keyvals (Node.new ser (s.drop (cut + 1)) val c)).map
        (fun p => (s.getD cut 0 :: p.1, p.2))).map
      (fun p => (s.take cut ++ p.1, p.2)) =
    Node.keyvals (.mk s val c cm) := by
  rw [keyvals_new, keyvals_mk, List.map_map, List.map_map]
  apply List.map_congr_left
  intro q _
  show (s.take cut ++ s.getD cut 0 :: (s.drop (cut + 1) ++ q.1), q.2) = (s ++ q.1, q.2)
  rw [show s.take cut ++ s.getD cut 0 :: (s.drop (cut + 1) ++ q.1) =
      (s.take cut ++ s.getD cut 0 :: s.drop (cut + 1)) ++ q.1 from by simp,
    list_decomp s cut hcut]

theorem keyvals_leaf_collapse (k : List Nat) (v : T) (cut : Nat) (hcut : cut < k.length)
    (pre : List Nat) (hpre : pre = k.take cut) :
    ((Node.keyvals (Node.new ser (k.drop (cut + 1)) (Option.some v)
        (.none : OKids T))).map
        (fun p => (k.getD cut 0 :: p.1, p.2))).map
      (fun p => (pre ++ p.1, p.2)) = [(k, v)] := by
  rw [keyvals_new]
  simp only [okidsKeyvals_none, List.nil_append, List.map_cons, List.map_nil,
    List.append_nil, hpre]
  rw [list_decomp k cut hcut]

/-- Inserting a key that is strictly lex-greater than every stored key (all
stored keys having the key's length) appends the binding at the end of the
key-value traversal and finds no previous value. -/
theorem ins_keyvals : ∀ (f : Nat) (n : Node T) (k : List Nat) (v : T) (n2 : Node T)
    (old : Option T),
    Node.insertF ser f n k v = .ok (n2, old) →
    Node.shape n = true →
    (∀ x ∈ k, x < 16) →
    (∀ p ∈ Node.keyvals n, lexLtB p.1 k = true ∧ p.1.length = k.length) →
    Node.keyvals n2 = Node.keyvals n ++ [(k, v)] ∧ old = Option.none
  | 0, n, k, v, n2, old, him, _, _, _ => by simp [Node.insertF] at him
  | f + 1, .wire cm, k, v, n2, old, him, _, _, _ => by simp [Node.insertF] at him
  | f + 1, .mk s val c cm, k, v, n2, old, him, hsh, hk16, H => by
    rw [shape_mk, Bool.and_eq_true] at hsh
    by_cases hk : k.length > prefixLen k s
    · by_cases hs : prefixLen k s < s.length
      · -- fork: the key leaves the substr strictly inside it
        rw [insertF_fork f s val c cm k v hk hs] at him
        injection him with him
        injection him with hn2 hold
        subst hn2
        subst hold
        refine ⟨?_, rfl⟩
        have hcutk : prefixLen k s < k.length := hk
        have hne : k.getD (prefixLen k s) 0 ≠ s.getD (prefixLen k s) 0 :=
          prefixLen_mismatch k s hcutk hs
        have hktake : k.take (prefixLen k s) = s.take (prefixLen k s) :=
          prefixLen_take_eq k s (prefixLen k s) (Nat.le_refl _)
        obtain ⟨pre0, post0, h01, h02, h04⟩ :=
          kidsPresent_set_none (emptyKids 16) 0 (s.getD (prefixLen k s) 0)
            (Node.new ser (s.drop (prefixLen k s + 1)) val c)
            (by rw [kidsCount_emptyKids]
                have h1 := getD_mem s (prefixLen k s) hs
                have h2 := List.all_eq_true.mp hsh.1 _ h1
                simpa using h2)
            (kidAt_emptyKids 16 _)
        rw [kidsPresent_emptyKids] at h01
        obtain ⟨hpre0, hpost0⟩ := List.append_eq_nil.mp h01.symm
        subst hpre0
        subst hpost0
        obtain ⟨pre, post, h11, h12, h14⟩ :=
          kidsPresent_set_none
            (kidSet (emptyKids 16) (s.getD (prefixLen k s) 0)
              (.some (Node.new ser (s.drop (prefixLen k s + 1)) val c)))
            0 (k.getD (prefixLen k s) 0)
            (Node.new ser (k.drop (prefixLen k s + 1)) (Option.some v) .none)
            (by rw [kidsCount_kidSet, kidsCount_emptyKids]
                exact hk16 _ (getD_mem k _ hcutk))
            (by rw [kidAt_kidSet_ne _ _ _ _ hne, kidAt_emptyKids])
        rw [h02] at h11
        simp only [List.nil_append, Nat.zero_add] at h11 h12 h14
        rw [keyvals_new, okidsKeyvals_some, kids_keyvals_present, h12]
        simp only [List.map_append, List.map_cons, List.flatten_append,
          List.flatten_cons, List.append_nil]
        cases pre with
        | nil =>
          -- the old subtree landed after the new leaf: it must be empty
          have hpost : post = [(s.getD (prefixLen k s) 0,
              Node.new ser (s.drop (prefixLen k s + 1)) val c)] := by
            simpa using h11.symm
          have hgt : k.getD (prefixLen k s) 0 < s.getD (prefixLen k s) 0 := by
            have h5 := h14 _ (by rw [hpost]; exact List.mem_singleton.mpr rfl)
            simpa using h5
          have hkvold : Node.keyvals
              (Node.new ser (s.drop (prefixLen k s + 1)) val c) = [] := by
            cases hkv : Node.keyvals
                (Node.new ser (s.drop (prefixLen k s + 1)) val c) with
            | nil => rfl
            | cons p ps =>
              exfalso
              have hp : p ∈ Node.keyvals
                  (Node.new ser (s.drop (prefixLen k s + 1)) val c) := by
                rw [hkv]
                exact List.mem_cons_self p ps
              have h5 : (s.getD (prefixLen k s) 0 :: p.1, p.2) ∈
                  (Node.keyvals (Node.new ser (s.drop (prefixLen k s + 1)) val c)).map
                    (fun p => (s.getD (prefixLen k s) 0 :: p.1, p.2)) :=
                List.mem_map.mpr ⟨p, hp, rfl⟩
              have h6 : (s.take (prefixLen k s) ++ s.getD (prefixLen k s) 0 :: p.1,
                  p.2) ∈
                  ((Node.keyvals (Node.new ser (s.drop (prefixLen k s + 1))
                    val c)).map
                    (fun p => (s.getD (prefixLen k s) 0 :: p.1, p.2))).map
                    (fun p => (s.take (prefixLen k s) ++ p.1, p.2)) :=
                List.mem_map.mpr ⟨_, h5, rfl⟩
              rw [keyvals_old_collapse s val c cm (prefixLen k s) hs] at h6
              have hlex : lexLtB (s.take (prefixLen k s) ++
                  s.getD (prefixLen k s) 0 :: p.1) k = true := (H _ h6).1
              obtain ⟨cut, hc⟩ : ∃ c2, prefixLen k s = c2 := ⟨_, rfl⟩
              rw [hc] at hlex hktake hgt hcutk
              rw [show k = s.take cut ++ k.getD cut 0 :: k.drop (cut + 1) from by
                  conv_lhs => rw [← list_decomp k cut hcutk]
                  rw [hktake]] at hlex
              rw [lexLtB_append_common] at hlex
              rcases lexLtB_cons_inv hlex with h | ⟨h, _⟩ <;> omega
          have hkvn : Node.keyvals (.mk s val c cm) = [] := by
            rw [← keyvals_old_collapse s val c cm (prefixLen k s) hs, hkvold]
            rfl
          rw [hkvn, hpost]
          simp only [List.map_nil, List.flatten_nil, List.nil_append, List.append_nil,
            List.map_cons, List.flatten_cons, hkvold]
          rw [keyvals_leaf_collapse k v (prefixLen k s) hcutk _ hktake.symm]
        | cons p0 pre2 =>
          have hsplit : p0 = (s.getD (prefixLen k s) 0,
              Node.new ser (s.drop (prefixLen k s + 1)) val c) ∧
              pre2 ++ post = [] := by
            rw [List.cons_append] at h11
            injection h11 with ha hb
            exact ⟨ha.symm, hb.symm⟩
          obtain ⟨hp0, hrest⟩ := hsplit
          obtain ⟨hpre2, hpost⟩ := List.append_eq_nil.mp hrest
          subst hp0
          subst hpre2
          subst hpost
          simp only [List.map_nil, List.flatten_nil, List.nil_append, List.append_nil,
            List.map_cons, List.flatten_cons]
          rw [keyvals_old_collapse s val c cm (prefixLen k s) hs,
            keyvals_leaf_collapse k v (prefixLen k s) hcutk _ hktake.symm]
      · -- the key runs past the whole substr
        have hcut : prefixLen k s = s.length := by
          have := prefixLen_le_right k s
          omega
        have hcutk : prefixLen k s < k.length := hk
        have hktake : k.take (prefixLen k s) = s := by
          rw [prefixLen_take_eq k s (prefixLen k s) (Nat.le_refl _), hcut,
            List.take_length]
        have hkdec : k = s ++ k.getD (prefixLen k s) 0 ::
            k.drop (prefixLen k s + 1) := by
          conv_lhs => rw [← list_decomp k (prefixLen k s) hcutk]
          rw [hktake]
        have hval : val = Option.none := by
          cases val with
          | none => rfl
          | some w =>
            exfalso
            have hmem := mem_keyvals_value s w c cm
            have hlen : s.length = k.length := (H _ hmem).2
            omega
        subst hval
        cases c with
        | none =>
          rw [insertF_leaf_none f s Option.none cm k v hk hs] at him
          injection him with him
          injection him with hn2 hold
          subst hn2
          subst hold
          refine ⟨?_, rfl⟩
          have hkvn : Node.keyvals (.mk s Option.none (.none : OKids T) cm) = [] := rfl
          rw [hkvn, List.nil_append]
          rw [keyvals_new, okidsKeyvals_some, kids_keyvals_present]
          obtain ⟨pre, post, h1, h2, h4⟩ :=
            kidsPresent_set_none (emptyKids 16) 0 (k.getD (prefixLen k s) 0)
              (Node.new ser (k.drop (prefixLen k s + 1)) (Option.some v) .none)
              (by rw [kidsCount_emptyKids]
                  exact hk16 _ (getD_mem k _ hcutk))
              (kidAt_emptyKids 16 _)
          rw [kidsPresent_emptyKids] at h1
          obtain ⟨hpre, hpost⟩ := List.append_eq_nil.mp h1.symm
          subst hpre
          subst hpost
          rw [h2]
          simp only [List.nil_append, Nat.zero_add, List.map_cons, List.map_nil,
            List.flatten_cons, List.flatten_nil, List.append_nil]
          rw [keyvals_leaf_collapse k v (prefixLen k s) hcutk _ hktake.symm]
        | some cs =>
          have hcscount : kidsCount cs = 16 := kidsCount_of_shape cs hsh.2
          have hkidsh : Kids.shape cs = true := by
            have h5 := hsh.2
            rw [okidsShape_some, Bool.and_eq_true] at h5
            exact h5.2
          cases hat : kidAt cs (k.getD (prefixLen k s) 0) with
          | none =>
            rw [insertF_leaf_some f s Option.none cs cm k v hk hs hat] at him
            injection him with him
            injection him with hn2 hold
            subst hn2
            subst hold
            refine ⟨?_, rfl⟩
            obtain ⟨pre, post, h1, h2, h4⟩ :=
              kidsPresent_set_none cs 0 (k.getD (prefixLen k s) 0)
                (Node.new ser (k.drop (prefixLen k s + 1)) (Option.some v) .none)
                (by rw [hcscount]
                    exact hk16 _ (getD_mem k _ hcutk))
                hat
            simp only [Nat.zero_add] at h1 h2 h4
            have hpostnil : ∀ q ∈ post, Node.keyvals q.2 = [] := by
              intro q hq
              have hqmem : q ∈ kidsPresent 0 cs := by
                rw [h1]
                exact List.mem_append.mpr (Or.inr hq)
              have hatq : kidAt cs q.1 = .some q.2 := by
                apply (kidAt_mem_present cs 0 q.1 q.2).mpr
                simpa using hqmem
              exact keyvals_child_nil_of_gt s Option.none cs cm q.1 q.2
                (k.getD (prefixLen k s) 0) (k.drop (prefixLen k s + 1)) k hatq hkdec
                (fun p hp => (H p hp).1) (h4 q hq)
            rw [keyvals_new, keyvals_mk, okidsKeyvals_some, okidsKeyvals_some,
              kids_keyvals_present, kids_keyvals_present, h1, h2]
            simp only [List.map_append, List.map_cons, List.flatten_append,
              List.flatten_cons, List.append_nil]
            rw [flatten_nil_of post _ (fun q hq => by rw [hpostnil q hq]; rfl)]
            simp only [List.map_nil, List.append_nil]
            rw [keyvals_leaf_collapse k v (prefixLen k s) hcutk _ hktake.symm]
          | some child =>
            cases hrec : Node.insertF ser f child (k.drop (prefixLen k s + 1)) v with
            | error e =>
              rw [insertF_child_err f s Option.none cs cm k v child e hk hs hat
                hrec] at him
              cases him
            | ok r =>
              rw [insertF_child f s Option.none cs cm k v child r hk hs hat hrec]
                at him
              injection him with him
              injection him with hn2 hold
              subst hn2
              subst hold
              have hchsh : Node.shape child = true := by
                have h5 := kidsShape_kidAt cs (k.getD (prefixLen k s) 0) hkidsh
                rw [hat] at h5
                exact h5
              have hk16c : ∀ x ∈ k.drop (prefixLen k s + 1), x < 16 :=
                fun x hx => hk16 x (List.mem_of_mem_drop hx)
              have Hc : ∀ p ∈ Node.keyvals child,
                  lexLtB p.1 (k.drop (prefixLen k s + 1)) = true ∧
                  p.1.length = (k.drop (prefixLen k s + 1)).length := by
                intro p hp
                have hmem := mem_keyvals_child s Option.none cs cm
                  (k.getD (prefixLen k s) 0) child hat p hp
                have h5 := H _ hmem
                constructor
                · have hlex : lexLtB (s ++ k.getD (prefixLen k s) 0 :: p.1) k =
                      true := h5.1
                  obtain ⟨cut, hc⟩ : ∃ c2, prefixLen k s = c2 := ⟨_, rfl⟩
                  rw [hc] at hlex hkdec ⊢
                  nth_rewrite 2 [hkdec] at hlex
                  rw [show s ++ k.getD cut 0 :: p.1 =
                      (s ++ [k.getD cut 0]) ++ p.1 from by simp,
                    show s ++ k.getD cut 0 :: k.drop (cut + 1) =
                      (s ++ [k.getD cut 0]) ++ k.drop (cut + 1) from by simp,
                    lexLtB_append_common] at hlex
                  exact hlex
                · have hlen : (s ++ k.getD (prefixLen k s) 0 :: p.1).length =
                      k.length := h5.2
                  rw [List.length_append, List.length_cons] at hlen
                  rw [List.length_drop]
                  omega
              obtain ⟨hkv1, hold1⟩ := ins_keyvals f child
                (k.drop (prefixLen k s + 1)) v r.1 r.2 hrec hchsh hk16c Hc
              refine ⟨?_, hold1⟩
              obtain ⟨pre, post, h1, h2, h4⟩ :=
                kidsPresent_set_some cs 0 (k.getD (prefixLen k s) 0) child r.1 hat
              simp only [Nat.zero_add] at h1 h2 h4
              have hpostnil : ∀ q ∈ post, Node.keyvals q.2 = [] := by
                intro q hq
                have hqmem : q ∈ kidsPresent 0 cs := by
                  rw [h1]
                  exact List.mem_append.mpr (Or.inr (List.mem_cons.mpr (Or.inr hq)))
                have hatq : kidAt cs q.1 = .some q.2 := by
                  apply (kidAt_mem_present cs 0 q.1 q.2).mpr
                  simpa using hqmem
                exact keyvals_child_nil_of_gt s Option.none cs cm q.1 q.2
                  (k.getD (prefixLen k s) 0) (k.drop (prefixLen k s + 1)) k hatq
                  hkdec (fun p hp => (H p hp).1) (h4 q hq)
              rw [keyvals_new, keyvals_mk, okidsKeyvals_some, okidsKeyvals_some,
                kids_keyvals_present, kids_keyvals_present, h1, h2]
              simp only [List.map_append, List.map_cons, List.flatten_append,
                List.flatten_cons, List.append_nil]
              rw [flatten_nil_of post _ (fun q hq => by rw [hpostnil q hq]; rfl)]
              simp only [List.map_nil, List.append_nil, hkv1, List.map_append]
              rw [List.append_assoc]
              congr 1
              simp only [List.map_cons, List.map_nil]
              rw [show (s ++ k.getD (prefixLen k s) 0 :: k.drop (prefixLen k s + 1) :
                  List Nat) = k from hkdec.symm]
    · by_cases hs : prefixLen k s < s.length
      · -- the key ends strictly inside the substr
        rw [insertF_contained f s val c cm k v hk hs] at him
        injection him with him
        injection him with hn2 hold
        subst hn2
        subst hold
        refine ⟨?_, rfl⟩
        have hkeq : k.length = prefixLen k s := by
          have := prefixLen_le_left k s
          omega
        have hktk : k = s.take (prefixLen k s) := by
          have h1 := prefixLen_take_eq k s (prefixLen k s) (Nat.le_refl _)
          calc k = k.take k.length := (List.take_length k).symm
            _ = k.take (prefixLen k s) := by rw [hkeq]
            _ = s.take (prefixLen k s) := h1
        obtain ⟨pre0, post0, h01, h02, h04⟩ :=
          kidsPresent_set_none (emptyKids 16) 0 (s.getD (prefixLen k s) 0)
            (Node.new ser (s.drop (prefixLen k s + 1)) val c)
            (by rw [kidsCount_emptyKids]
                have h1 := getD_mem s (prefixLen k s) hs
                have h2 := List.all_eq_true.mp hsh.1 _ h1
                simpa using h2)
            (kidAt_emptyKids 16 _)
        rw [kidsPresent_emptyKids] at h01
        obtain ⟨hpre0, hpost0⟩ := List.append_eq_nil.mp h01.symm
        subst hpre0
        subst hpost0
        rw [keyvals_new, okidsKeyvals_some, kids_keyvals_present, h02]
        simp only [List.nil_append, Nat.zero_add, List.map_cons, List.map_nil,
          List.flatten_cons, List.flatten_nil, List.append_nil, List.map_append]
        rw [keyvals_old_collapse s val c cm (prefixLen k s) hs]
        congr 1
        rw [← hktk]
      · -- the key equals the substr exactly
        have hcut : prefixLen k s = s.length := by
          have := prefixLen_le_right k s
          omega
        have hkeq : k = s := by
          have hlen : prefixLen k s = k.length := by
            have := prefixLen_le_left k s
            omega
          have h1 := prefixLen_left_prefix k s hlen
          rw [show k.length = s.length from by omega, List.take_length] at h1
          exact h1
        subst hkeq
        have hval : val = Option.none := by
          cases val with
          | none => rfl
          | some w =>
            exfalso
            have hmem := mem_keyvals_value k w c cm
            have hlex := (H _ hmem).1
            rw [lexLtB_irrefl] at hlex
            exact absurd hlex (by decide)
        subst hval
        cases c with
        | none =>
          rw [insertF_exact_none f k Option.none cm k v hk hs] at him
          injection him with him
          injection him with hn2 hold
          subst hn2
          subst hold
          refine ⟨?_, rfl⟩
          rw [keyvals_new, keyvals_mk, okidsKeyvals_some, okidsKeyvals_none,
            keyvals_emptyKids]
          simp
        | some cs =>
          rw [insertF_exact_some f k Option.none cs cm k v hk hs] at him
          injection him with him
          injection him with hn2 hold
          subst hn2
          subst hold
          refine ⟨?_, rfl⟩
          rw [keyvals_new, keyvals_mk]
          simp

theorem toDigest_length (k : List Nat) : (toDigest k).length = 2 * k.length := by
  induction k with
  | nil => rfl
  | cons x xs ih =>
    simp only [toDigest, List.map_cons, List.flatten_cons, List.length_append,
      List.length_cons, List.length_nil] at ih ⊢
    omega

theorem beBytes_length : ∀ (n x : Nat), (beBytes n x).length = n
  | 0, _ => rfl
  | n + 1, x => by
    show (beBytes n (x / 256) ++ [x % 256]).length = n + 1
    rw [List.length_append, beBytes_length n (x / 256)]
    rfl

/-- A strict lexicographic comparison between equal-length lists survives
appending arbitrary tails. -/
theorem lexLtB_append_of_lt : ∀ (a b u v2 : List Nat), a.length = b.length →
    lexLtB a b = true → lexLtB (a ++ u) (b ++ v2) = true
  | [], [], _, _, _, hab => by simp [lexLtB] at hab
  | [], _ :: _, _, _, hlen, _ => by simp at hlen
  | _ :: _, [], _, _, hlen, _ => by simp at hlen
  | x :: xs, y :: ys, u, v2, hlen, hab => by
    rcases lexLtB_cons_inv hab with h | ⟨he, h⟩
    · show lexLtB (x :: (xs ++ u)) (y :: (ys ++ v2)) = true
      exact lexLtB_cons_of_lt h _ _
    · subst he
      show lexLtB (x :: (xs ++ u)) (x :: (ys ++ v2)) = true
      rw [lexLtB_cons_self]
      exact lexLtB_append_of_lt xs ys u v2 (by simpa using hlen) h

/-- Big-endian fixed-width encoding is strictly monotone for the
lexicographic byte order. -/
theorem lexLtB_beBytes : ∀ (n x y : Nat), x < y → y < 256 ^ n →
    lexLtB (beBytes n x) (beBytes n y) = true
  | 0, x, y, hxy, hy => by
    rw [pow_zero] at hy
    omega
  | n + 1, x, y, hxy, hy => by
    show lexLtB (beBytes n (x / 256) ++ [x % 256])
      (beBytes n (y / 256) ++ [y % 256]) = true
    by_cases h : x / 256 < y / 256
    · refine lexLtB_append_of_lt _ _ _ _ (by rw [beBytes_length, beBytes_length]) ?_
      refine lexLtB_beBytes n (x / 256) (y / 256) h ?_
      refine Nat.div_lt_of_lt_mul ?_
      rw [pow_succ] at hy
      omega
    · have h2 : x / 256 ≤ y / 256 := Nat.div_le_div_right (Nat.le_of_lt hxy)
      have hdiv : x / 256 = y / 256 := by omega
      rw [hdiv, lexLtB_append_common]
      have hmod : x % 256 < y % 256 := by omega
      simp [lexLtB, hmod]

/-- Nibble expansion preserves strict lexicographic order on equal-length
byte lists. -/
theorem toDigest_mono : ∀ (a b : List Nat), (∀ u ∈ a, u < 256) →
    (∀ u ∈ b, u < 256) → a.length = b.length → lexLtB a b = true →
    lexLtB (toDigest a) (toDigest b) = true
  | [], [], _, _, _, hab => by simp [lexLtB] at hab
  | [], _ :: _, _, _, hlen, _ => by simp at hlen
  | _ :: _, [], _, _, hlen, _ => by simp at hlen
  | x :: xs, y :: ys, ha, hb, hlen, hab => by
    have hx : x < 256 := ha x (List.mem_cons_self x xs)
    have hy : y < 256 := hb y (List.mem_cons_self y ys)
    show lexLtB ([x / 16 % 16, x % 16] ++ toDigest xs)
      ([y / 16 % 16, y % 16] ++ toDigest ys) = true
    rcases lexLtB_cons_inv hab with h | ⟨he, h⟩
    · by_cases hd : x / 16 < y / 16
      · refine lexLtB_append_of_lt _ _ _ _ rfl ?_
        have hnib : x / 16 % 16 < y / 16 % 16 := by omega
        exact lexLtB_cons_of_lt hnib _ _
      · have h2 : x / 16 ≤ y / 16 := Nat.div_le_div_right (Nat.le_of_lt h)
        have hdiv : x / 16 = y / 16 := by omega
        have hmod : x % 16 < y % 16 := by omega
        show lexLtB (x / 16 % 16 :: ([x % 16] ++ toDigest xs))
          (y / 16 % 16 :: ([y % 16] ++ toDigest ys)) = true
        rw [hdiv, lexLtB_cons_self]
        refine lexLtB_append_of_lt _ _ _ _ rfl ?_
        exact lexLtB_cons_of_lt hmod _ _
    · subst he
      show lexLtB (x / 16 % 16 :: x % 16 :: toDigest xs)
        (x / 16 % 16 :: x % 16 :: toDigest ys) = true
      rw [lexLtB_cons_self, lexLtB_cons_self]
      exact toDigest_mono xs ys (fun u hu => ha u (List.mem_cons_of_mem x hu))
        (fun u hu => hb u (List.mem_cons_of_mem x hu)) (by simpa using hlen) h

/-- The builder's key indices are strictly increasing in the count of
accepted transactions. -/
theorem c6Idx_mono (j i : Nat) (h : j < i) : c6Idx j < c6Idx i := by
  simp only [c6Idx]
  omega

/-- The builder's trie keys are strictly increasing in the nibble
lexicographic order. -/
theorem c6Key_lt (j i : Nat) (h : j < i) (hi : i < 4294967296) :
    lexLtB (toDigest (be64 (c6Idx j))) (toDigest (be64 (c6Idx i))) = true := by
  refine toDigest_mono _ _ (beBytes_lt 8 _) (beBytes_lt 8 _)
    (by rw [show (be64 (c6Idx j)).length = 8 from beBytes_length 8 _,
      show (be64 (c6Idx i)).length = 8 from beBytes_length 8 _]) ?_
  refine lexLtB_beBytes 8 _ _ (c6Idx_mono j i h) ?_
  show c6Idx i < 256 ^ 8
  have hp : (256 : Nat) ^ 8 = 18446744073709551616 := by norm_num
  simp only [c6Idx]
  omega

/-- On a well-shaped wire-free map all of whose stored digest keys are
lex-smaller than (and of the same length as) the new key's digest, an insert
succeeds, finds no old binding, and appends the new pair at the end of the
key-value traversal. -/
theorem insert_keyvals (m : MMap T) (k : List Nat) (v : T)
    (hsh : Node.shape m.root = true) (hnw : Node.noWire m.root = true)
    (H : ∀ p ∈ Node.keyvals m.root, lexLtB p.1 (toDigest k) = true ∧
      p.1.length = (toDigest k).length) :
    ∃ n1, MMap.insert ser m k v = .ok (⟨n1⟩, Option.none) ∧
      Node.keyvals n1 = Node.keyvals m.root ++ [(toDigest k, v)] := by
  obtain ⟨⟨n1, old1⟩, hins⟩ := @insertF_ok T ser ((toDigest k).length + 1) m.root
    (toDigest k) v (by omega) hnw
  obtain ⟨hkv, holdn⟩ := ins_keyvals ((toDigest k).length + 1) m.root (toDigest k) v
    n1 old1 hins hsh (toDigest_lt16 k) H
  subst holdn
  refine ⟨n1, ?_, hkv⟩
  simp [MMap.insert, Node.insert, hins, Except.map]

/-- Replaying a block body extended by one more applicable transaction. -/
theorem replay_append (S0 S1 S2 : State) (l : List (Signed Txn)) (t : Signed Txn)
    (h1 : replayTxns S0 l = .ok S1) (h2 : State.apply S1 t = .ok S2) :
    replayTxns S0 (l ++ [t]) = .ok S2 := by
  induction l generalizing S0 with
  | nil =>
    simp only [replayTxns] at h1
    injection h1 with h1
    subst h1
    simp only [List.nil_append, replayTxns, h2]
  | cons x xs ih =>
    simp only [List.cons_append, replayTxns] at h1 ⊢
    cases happ : State.apply S0 x with
    | ok S3 =>
      rw [happ] at h1
      exact ih S3 h1
    | error e =>
      rw [happ] at h1
      exact Except.noConfusion h1

/-- Builder invariant for the round-trip: along any all-`Ok` run of
`Builder::add`, the transaction map stays reachable, its post-order value
list replays from the head state exactly to the working state, and the
metadata is untouched; `i` counts the transactions already stored,
`(batch, count) = (i / 128, i mod 128)`, and every stored digest key is
lex-below the next key of the `(batch << 32) | count` scheme. -/
theorem addAll_C1 : ∀ (ts : List (Signed Txn)) (b : Builder) (S0 : State) (i : Nat)
    (b2 : Builder),
    Builder.addAll b ts = Option.some b2 →
    i + ts.length ≤ 1024 →
    b.batch = i / 128 → b.count = i % 128 →
    MapReach serSignedTxn b.txnseq →
    (∀ p ∈ Node.keyvals b.txnseq.root,
      lexLtB p.1 (toDigest (be64 (c6Idx i))) = true ∧ p.1.length = 16) →
    replayTxns S0 (Node.postorderVals b.txnseq.root) = .ok b.state →
    MapReach serSignedTxn b2.txnseq ∧
    replayTxns S0 (Node.postorderVals b2.txnseq.root) = .ok b2.state ∧
    b2.metadata = b.metadata
  | [], b, S0, i, b2, hadd, _, _, _, hrt, _, hrep => by
    injection hadd with hadd
    subst hadd
    exact ⟨hrt, hrep, rfl⟩
  | t :: ts, b, S0, i, b2, hadd, hbound, hbatch, hcount, hrt, H, hrep => by
    simp only [List.length_cons] at hbound
    obtain ⟨hshT, hnwT, _⟩ := reach_inv b.txnseq hrt
    simp only [Builder.addAll] at hadd
    cases happ : State.apply b.state t with
    | error e =>
      rw [show Builder.add b t = AddRes.fail t e from by
        simp only [Builder.add]
        rw [happ]] at hadd
      exact Option.noConfusion hadd
    | ok S2 =>
      have hdlen : (toDigest (be64 (c6Idx i))).length = 16 := by
        rw [toDigest_length, show (be64 (c6Idx i)).length = 8 from beBytes_length 8 _]
      obtain ⟨n1, hins, hkv1⟩ := @insert_keyvals (Signed Txn) serSignedTxn b.txnseq
        (be64 (c6Idx i)) t hshT hnwT (by
          intro p hp
          exact ⟨(H p hp).1, by rw [hdlen]; exact (H p hp).2⟩)
      have hd1 : MMap.insertD serSignedTxn b.txnseq (be64 (c6Idx i)) t =
          (⟨n1⟩ : MMap (Signed Txn)) := by
        simp [MMap.insertD, hins]
      have hrt2 : MapReach serSignedTxn (⟨n1⟩ : MMap (Signed Txn)) :=
        hd1 ▸ MapReach.ins b.txnseq (be64 (c6Idx i)) t hrt
      have hrep2 : replayTxns S0 (Node.postorderVals n1) = .ok S2 := by
        rw [show Node.postorderVals n1 = (Node.keyvals n1).map Prod.snd from rfl,
          hkv1, List.map_append]
        exact replay_append S0 b.state S2 _ t hrep happ
      have H2next : ∀ p ∈ Node.keyvals n1,
          lexLtB p.1 (toDigest (be64 (c6Idx (i + 1)))) = true ∧ p.1.length = 16 := by
        intro p hp
        rw [hkv1] at hp
        rcases List.mem_append.mp hp with hp1 | hp2
        · exact ⟨lexLtB_trans _ _ _ (H p hp1).1
            (c6Key_lt i (i + 1) (by omega) (by omega)), (H p hp1).2⟩
        · have hpe : p = (toDigest (be64 (c6Idx i)), t) := by simpa using hp2
          subst hpe
          exact ⟨c6Key_lt i (i + 1) (by omega) (by omega), hdlen⟩
      by_cases hc : i % 128 = 127
      · have hAdd : Builder.add b t = AddRes.ok
            { b with
              state := S2,
              txnseq := (⟨n1⟩ : MMap (Signed Txn)),
              count := 0, batch := u32 (b.batch + 1) } := by
          simp only [Builder.add]
          rw [happ]
          dsimp only
          rw [hbatch, hcount]
          rw [show MMap.insert serSignedTxn b.txnseq
              (be64 (i / 128 * 4294967296 + i % 128)) t = .ok (⟨n1⟩, Option.none)
            from hins]
          dsimp only
          rw [if_pos (show i % 128 + 1 = TXN_BATCH_SIZE from by rw [hc]; rfl)]
        rw [hAdd] at hadd
        obtain ⟨h1, h2, h3⟩ := addAll_C1 ts
          { b with
            state := S2,
            txnseq := (⟨n1⟩ : MMap (Signed Txn)),
            count := 0, batch := u32 (b.batch + 1) } S0 (i + 1) b2 hadd
          (by omega)
          (by show u32 (b.batch + 1) = (i + 1) / 128
              rw [hbatch]
              simp only [u32]
              omega)
          (by show (0 : Nat) = (i + 1) % 128
              omega)
          hrt2 H2next hrep2
        exact ⟨h1, h2, h3⟩
      · have hAdd : Builder.add b t = AddRes.ok
            { b with
              state := S2,
              txnseq := (⟨n1⟩ : MMap (Signed Txn)),
              count := b.count + 1 } := by
          simp only [Builder.add]
          rw [happ]
          dsimp only
          rw [hbatch, hcount]
          rw [show MMap.insert serSignedTxn b.txnseq
              (be64 (i / 128 * 4294967296 + i % 128)) t = .ok (⟨n1⟩, Option.none)
            from hins]
          dsimp only
          rw [if_neg (show ¬ i % 128 + 1 = TXN_BATCH_SIZE from by
            rw [show TXN_BATCH_SIZE = 128 from rfl]
            omega)]
        rw [hAdd] at hadd
        obtain ⟨h1, h2, h3⟩ := addAll_C1 ts
          { b with
            state := S2,
            txnseq := (⟨n1⟩ : MMap (Signed Txn)),
            count := b.count + 1 } S0 (i + 1) b2 hadd
          (by omega)
          (by show b.batch = (i + 1) / 128
              rw [hbatch]
              omega)
          (by show b.count + 1 = (i + 1) % 128
              rw [hcount]
              omega)
          hrt2 H2next hrep2
        exact ⟨h1, h2, h3⟩

theorem bind_some_opt {A B : Type} (a : A) (f : A → Option B) :
    ((Option.some a : Option A) >>= f) = f a := rfl

end TrieLemmas


section ClaimTheorems

variable {T : Type}

/-- C10: every map reachable from `Map::default()` by any finite sequence of
`insert` and `remove` calls satisfies, at every node, that the payload is
present (the `node` field is `Some`; the wire shape occurs nowhere) and that
the cached commit equals the commitment recomputed from the node's contents
(`valid_commits()` returns `Ok`); consequently `get`, `insert` and `remove`
never take the `Err` branch on such maps. -/
theorem claim_C10 (ser : T → List Nat) (m : MMap T) (h : MapReach ser m) :
    Node.noWire m.root = true ∧
    MMap.validCommits ser m = Option.some true ∧
    (∀ k, ∃ o, MMap.get m k = .ok o) ∧
    (∀ k v, ∃ r, MMap.insert ser m k v = .ok r) ∧
    (∀ k, ∃ r, MMap.remove ser m k = .ok r) := by
  obtain ⟨hsh, hnw, hv⟩ := reach_inv m h
  refine ⟨hnw, hv, ?_, ?_, ?_⟩
  · intro k
    exact getF_ok ((toDigest k).length + 1) m.root (toDigest k) (by omega) hnw
  · intro k v
    obtain ⟨r, hr⟩ := @insertF_ok T ser ((toDigest k).length + 1) m.root (toDigest k) v
      (by omega) hnw
    exact ⟨(⟨r.1⟩, r.2), by simp [MMap.insert, Node.insert, hr, Except.map]⟩
  · intro k
    obtain ⟨r, hr⟩ := @removeF_ok T ser ((toDigest k).length + 1) m.root (toDigest k)
      (by omega) hsh hnw (toDigest_lt16 k)
    exact ⟨(⟨r.1⟩, r.2), by simp [MMap.remove, Node.remove, hr, Except.map]⟩

theorem witness_C10 :
    Node.noWire (MMap.insertD serNat (MMap.default serNat) [18] 5).root = true ∧
    MMap.validCommits serNat (MMap.insertD serNat (MMap.default serNat) [18] 5) =
      Option.some true ∧
    (∀ k, ∃ o, MMap.get (MMap.insertD serNat (MMap.default serNat) [18] 5) k = .ok o) ∧
    (∀ k v, ∃ r, MMap.insert serNat
      (MMap.insertD serNat (MMap.default serNat) [18] 5) k v = .ok r) ∧
    (∀ k, ∃ r, MMap.remove serNat
      (MMap.insertD serNat (MMap.default serNat) [18] 5) k = .ok r) :=
  claim_C10 serNat _ (MapReach.ins _ [18] 5 MapReach.base)

/-- C5, corrected: on every reachable map the iterator terminates and yields
exactly the stored values, each once, and calling it again yields the same
sequence (`iterList` is a function of the map); but the order is depth-first
**post-order** — the children of a node in ascending nibble order first and
the node's own value after them — not the claimed ascending
nibble-lexicographic key order, which would put a value held at a node
before the values of its children. The two orders agree exactly when no
stored key is a proper prefix of another. -/
theorem claim_C5 (ser : T → List Nat) (m : MMap T) (h : MapReach ser m) :
    MMap.iterList m = Option.some (Node.postorderVals m.root) := by
  obtain ⟨hsh, hnw, hv⟩ := reach_inv m h
  exact iterList_post m.root hnw

theorem witness_C5 :
    MMap.iterList
        (MMap.insertD serNat (MMap.insertD serNat (MMap.default serNat) [] 0) [18] 1) =
      Option.some (Node.postorderVals
        (MMap.insertD serNat (MMap.insertD serNat (MMap.default serNat) [] 0) [18] 1).root) :=
  claim_C5 serNat _ (MapReach.ins _ [18] 1 (MapReach.ins _ [] 0 MapReach.base))

theorem cex_C5 :
    MMap.iterList
        (MMap.insertD serNat (MMap.insertD serNat (MMap.default serNat) [] 0) [18] 1) ≠
      Option.some (lexOrderVals
        (MMap.insertD serNat (MMap.insertD serNat (MMap.default serNat) [] 0) [18] 1).root) := by
  decide


/-- C4: the commitment of every trie node is the SHA-256 of: the substr
bytes; the serialised value if present; for each present child at nibble `i`
in ascending order, the byte `i` followed by that child's cached 32-byte
commitment; the big-endian `u32` length of substr; and one byte holding the
count of present children. The commitment of the empty map is this hash of a
node with empty substr, no value and no children. -/
theorem claim_C4 (ser : T → List Nat) :
    (∀ (s : List Nat) (v : Option T) (c : OKids T),
      commitCalc ser s v c = sha256 (specCommitBytes ser s v c)) ∧
    MMap.commit (MMap.default ser) = sha256 (specCommitBytes ser [] Option.none .none) := by
  constructor
  · intro s v c
    rw [commitCalc, commitPreimage_spec]
  · have h1 : MMap.commit (MMap.default ser) = commitCalc ser [] Option.none .none := by
      simp only [MMap.commit, MMap.default, Node.default, commitOf_new]
    rw [h1, commitCalc, commitPreimage_spec]

theorem witness_C4 :
    (∀ (s : List Nat) (v : Option Nat) (c : OKids Nat),
      commitCalc serNat s v c = sha256 (specCommitBytes serNat s v c)) ∧
    MMap.commit (MMap.default serNat) =
      sha256 (specCommitBytes serNat [] Option.none .none) :=
  claim_C4 serNat


/-- C3, corrected: inserting a fresh key and then removing it returns a map
that reads identically to the original at **every** key, but not always one
with the original root **commitment**: the remove path runs `unsplit` on
every node along the key, the root included, so when the removal leaves the
root value-less with exactly one child, the root absorbs that child into its
`substr` — a form `insert` never produces for the same content (insert keeps
the root's substr and hangs children under it), so the recomputed root
commitment differs from the original. The content-level round trip is what
holds. -/
theorem claim_C3 (ser : T → List Nat) (m : MMap T) (h : MapReach ser m)
    (k : List Nat) (v : T) (hfresh : MMap.get m k = .ok Option.none) :
    ∀ k2, MMap.get (MMap.removeD ser (MMap.insertD ser m k v) k) k2 = MMap.get m k2 := by
  obtain ⟨hsh, hnw, hv⟩ := reach_inv m h
  obtain ⟨⟨n1, old1⟩, hins⟩ := @insertF_ok T ser ((toDigest k).length + 1) m.root
    (toDigest k) v (by omega) hnw
  have hm1 : MMap.insertD ser m k v = ⟨n1⟩ := by
    simp [MMap.insertD, MMap.insert, Node.insert, hins, Except.map]
  have hspec := insert_spec ((toDigest k).length + 1) m.root (toDigest k) v n1 old1
    hins hsh (toDigest_lt16 k)
  have hn1sh : Node.shape n1 = true := hspec.2.2.2.1
  have hn1nw : Node.noWire n1 = true := hspec.2.2.2.2.1 hnw
  obtain ⟨⟨n2, old2⟩, hrem⟩ := @removeF_ok T ser ((toDigest k).length + 1) n1
    (toDigest k) (by omega) hn1sh hn1nw (toDigest_lt16 k)
  have hm2 : MMap.removeD ser (⟨n1⟩ : MMap T) k = ⟨n2⟩ := by
    simp [MMap.removeD, MMap.remove, Node.remove, hrem, Except.map]
  have hframe := remove_frame ((toDigest k).length + 1) n1 (toDigest k) n2 old2 hrem
    hn1sh (toDigest_lt16 k)
  intro k2
  rw [hm1, hm2]
  show Node.get n2 (toDigest k2) = Node.get m.root (toDigest k2)
  by_cases hd : toDigest k2 = toDigest k
  · rw [hd, hframe.1]
    rw [show MMap.get m k = Node.get m.root (toDigest k) from rfl] at hfresh
    rw [hfresh]
  · rw [hframe.2 _ hd, hspec.2.2.1 _ hd]

theorem witness_C3 :
    MMap.get (MMap.removeD serNat (MMap.insertD serNat
        (MMap.insertD serNat (MMap.default serNat) [18] 0) [69] 1) [69]) [18] =
      MMap.get (MMap.insertD serNat (MMap.default serNat) [18] 0) [18] :=
  claim_C3 serNat _ (MapReach.ins _ [18] 0 MapReach.base) [69] 1 (by decide) [18]

theorem cex_C3 :
    MMap.get (MMap.insertD serNat (MMap.default serNat) [18] 0) [69] =
      .ok Option.none ∧
    MMap.commit (MMap.removeD serNat (MMap.insertD serNat
        (MMap.insertD serNat (MMap.default serNat) [18] 0) [69] 1) [69]) ≠
      MMap.commit (MMap.insertD serNat (MMap.default serNat) [18] 0) := by
  constructor
  · decide
  · decide


/-- C2, corrected: conservation of `sum of balances + VALIDATOR_STAKE *
|occupied slots|` holds for every transaction `State::verify` accepts —
including the self-payment case, which moves no funds — **provided** the
`u32` balance arithmetic does not wrap: the recipient-side `bal + amount`
(and the unstake refund `bal + VALIDATOR_STAKE`) are `u32` additions, so on
states whose conserved total is within `u32` range (hypothesis
`S.total + VALIDATOR_STAKE < 2^32`, which every state reachable from a
genesis respecting the invariant satisfies) the equality is exact, while
without that bound an overflowing payment destroys `2^32` units (see the
counterexample). Maps are assumed reachable (well-shaped, wire-free), and
the recipient id is a byte string as the Rust `[u8; 32]` type forces. -/
theorem claim_C2 (S : State) (stxn : Signed Txn) (ups : List Update)
    (hacc : MapReach serAccountData S.accounts)
    (hval : MapReach serValidatorData S.validators)
    (hbytes : ∀ b ∈ stxn.msg.toA, b < 256)
    (hbound : S.total + VALIDATOR_STAKE < 4294967296)
    (hver : State.verify S stxn = .ok ups) :
    State.apply S stxn = .ok (ups.foldl State.applyUpdate S) ∧
    (ups.foldl State.applyUpdate S).total = S.total := by
  obtain ⟨hshA, hnwA, _⟩ := reach_inv S.accounts hacc
  obtain ⟨hshV, hnwV, _⟩ := reach_inv S.validators hval
  refine ⟨by rw [State.apply, hver], ?_⟩
  have htot : S.total = Node.sumW AccountData.bal S.accounts.root +
      VALIDATOR_STAKE * Node.countVals S.validators.root := rfl
  simp only [State.verify] at hver
  cases hga : MMap.getOpt S.accounts (sha256 stxn.fromPk) with
  | none =>
    rw [hga] at hver
    simp at hver
  | some fromAccount =>
    rw [hga] at hver
    dsimp only at hver
    have hfb := getOpt_le_sumW AccountData.bal S.accounts (sha256 stxn.fromPk)
      fromAccount hga
    by_cases hsig : Signed.verify serTxn stxn = true
    · rw [if_neg (not_not_intro hsig)] at hver
      by_cases hn1 : fromAccount.nonce > stxn.msg.nonce
      · rw [if_pos hn1] at hver
        simp at hver
      · rw [if_neg hn1] at hver
        by_cases hn2 : fromAccount.nonce < stxn.msg.nonce
        · rw [if_pos hn2] at hver
          simp at hver
        · rw [if_neg hn2] at hver
          by_cases hbal : fromAccount.bal < stxn.msg.amount
          · rw [if_pos hbal] at hver
            simp at hver
          · rw [if_neg hbal] at hver
            by_cases hroot : stxn.msg.toA = VALIDATOR_ROOT
            · rw [if_pos hroot] at hver
              cases hm : dataGet stxn.msg.data keyMethod with
              | none =>
                rw [hm] at hver
                simp at hver
              | some mv =>
                rw [hm] at hver
                dsimp only at hver
                by_cases hmv : mv = bStake
                · rw [if_pos hmv] at hver
                  cases hidx : dataGet stxn.msg.data keyIdx with
                  | none =>
                    rw [hidx] at hver
                    simp at hver
                  | some idx =>
                    rw [hidx] at hver
                    dsimp only at hver
                    by_cases hl4 : idx.length = 4
                    · rw [if_neg (not_not_intro hl4)] at hver
                      by_cases hamt : stxn.msg.amount = VALIDATOR_STAKE
                      · rw [if_neg (not_not_intro hamt)] at hver
                        cases hvpk : dataGet stxn.msg.data keyValidator with
                        | none =>
                          rw [hvpk] at hver
                          simp at hver
                        | some vpk =>
                          rw [hvpk] at hver
                          dsimp only at hver
                          by_cases hv96 : vpk.length = 96
                          · rw [if_neg (not_not_intro hv96)] at hver
                            cases hslot : MMap.getOpt S.validators idx with
                            | some d =>
                              rw [hslot] at hver
                              simp at hver
                            | none =>
                              rw [hslot] at hver
                              simp only [Option.isSome_none, Bool.false_eq_true,
                                if_false] at hver
                              injection hver with hver
                              subst hver
                              -- stake: accounts -VALIDATOR_STAKE, one more slot
                              simp only [List.foldl, State.applyUpdate]
                              show Node.sumW AccountData.bal
                                  (MMap.insertD serAccountData S.accounts _ _).root +
                                VALIDATOR_STAKE * Node.countVals
                                  (MMap.insertD serValidatorData S.validators idx _).root
                                = S.total
                              have h1 := @insertD_spec AccountData serAccountData AccountData.bal S.accounts
                                (sha256 stxn.fromPk)
                                ⟨fromAccount.bal - stxn.msg.amount,
                                  u32 (fromAccount.nonce + 1)⟩ hshA hnwA
                              have h2 := @insertD_spec ValidatorData serValidatorData (fun _ => (1 : Nat)) S.validators
                                idx ⟨S.round, stxn.fromPk, vpk⟩ hshV hnwV
                              rw [hga] at h1
                              rw [hslot] at h2
                              have hs1 := h1.2.2.2.2
                              have hs2 := h2.2.2.2.2
                              simp only [optW] at hs1 hs2
                              rw [htot, Node.countVals, Node.countVals]
                              rw [htot, Node.countVals] at hbound
                              rw [show VALIDATOR_STAKE = 1024 from rfl] at hbound hamt ⊢
                              omega
                          · rw [if_pos hv96] at hver
                            simp at hver
                      · rw [if_pos hamt] at hver
                        simp at hver
                    · rw [if_pos hl4] at hver
                      simp at hver
                · rw [if_neg hmv] at hver
                  by_cases hmu : mv = bUnstake
                  · rw [if_pos hmu] at hver
                    cases hidx : dataGet stxn.msg.data keyIdx with
                    | none =>
                      rw [hidx] at hver
                      simp at hver
                    | some idx =>
                      rw [hidx] at hver
                      dsimp only at hver
                      by_cases hl4 : idx.length = 4
                      · rw [if_neg (not_not_intro hl4)] at hver
                        by_cases hamt : stxn.msg.amount = 0
                        · rw [if_neg (not_not_intro hamt)] at hver
                          cases hslot : MMap.getOpt S.validators idx with
                          | none =>
                            rw [hslot] at hver
                            simp at hver
                          | some stakeData =>
                            rw [hslot] at hver
                            dsimp only at hver
                            by_cases hown : stakeData.owner = stxn.fromPk
                            · rw [if_neg (not_not_intro hown)] at hver
                              injection hver with hver
                              subst hver
                              -- unstake: accounts +VALIDATOR_STAKE, one slot freed
                              simp only [List.foldl, State.applyUpdate]
                              show Node.sumW AccountData.bal
                                  (MMap.insertD serAccountData S.accounts _ _).root +
                                VALIDATOR_STAKE * Node.countVals
                                  (MMap.removeD serValidatorData S.validators idx).root
                                = S.total
                              have h1 := @insertD_spec AccountData serAccountData AccountData.bal S.accounts
                                (sha256 stxn.fromPk)
                                ⟨u32 (fromAccount.bal - stxn.msg.amount +
                                  VALIDATOR_STAKE), u32 (fromAccount.nonce + 1)⟩
                                hshA hnwA
                              have h2 := @removeD_spec ValidatorData serValidatorData (fun _ => (1 : Nat)) S.validators
                                idx hshV hnwV
                              rw [hga] at h1
                              rw [hslot] at h2
                              have hs1 := h1.2.2.2.2
                              have hs2 := h2.2.2.2.2
                              simp only [optW] at hs1 hs2
                              rw [htot, Node.countVals, Node.countVals]
                              rw [htot, Node.countVals] at hbound
                              rw [show VALIDATOR_STAKE = 1024 from rfl] at hbound hs1 ⊢
                              simp only [u32] at hs1 ⊢
                              omega
                            · rw [if_pos hown] at hver
                              simp at hver
                        · rw [if_pos hamt] at hver
                          simp at hver
                      · rw [if_pos hl4] at hver
                        simp at hver
                  · rw [if_neg hmu] at hver
                    simp at hver
            · rw [if_neg hroot] at hver
              cases hto : MMap.getOpt S.accounts stxn.msg.toA with
              | some toAccount =>
                rw [hto] at hver
                dsimp only at hver
                injection hver with hver
                subst hver
                simp only [List.foldl, State.applyUpdate]
                show Node.sumW AccountData.bal
                    (MMap.insertD serAccountData (MMap.insertD serAccountData S.accounts
                      (sha256 stxn.fromPk) _) stxn.msg.toA _).root +
                  VALIDATOR_STAKE * Node.countVals S.validators.root = S.total
                have h1 := @insertD_spec AccountData serAccountData AccountData.bal S.accounts
                  (sha256 stxn.fromPk)
                  ⟨fromAccount.bal - stxn.msg.amount, u32 (fromAccount.nonce + 1)⟩
                  hshA hnwA
                rw [hga] at h1
                have hs1 := h1.2.2.2.2
                simp only [optW] at hs1
                by_cases hself : sha256 stxn.fromPk = stxn.msg.toA
                · -- self payment: second insert overwrites the first
                  have hback : MMap.getOpt (MMap.insertD serAccountData S.accounts
                      (sha256 stxn.fromPk)
                      ⟨fromAccount.bal - stxn.msg.amount, u32 (fromAccount.nonce + 1)⟩)
                      stxn.msg.toA =
                      Option.some ⟨fromAccount.bal - stxn.msg.amount,
                        u32 (fromAccount.nonce + 1)⟩ := by
                    rw [← hself]
                    exact h1.2.2.1
                  have htoeq : toAccount = fromAccount := by
                    rw [← hself, hga] at hto
                    injection hto with hto
                    exact hto.symm
                  subst htoeq
                  have h2 := @insertD_spec AccountData serAccountData AccountData.bal _
                    stxn.msg.toA
                    (if sha256 stxn.fromPk ≠ stxn.msg.toA then
                      (⟨u32 (toAccount.bal + stxn.msg.amount), toAccount.nonce⟩ :
                        AccountData)
                    else ⟨toAccount.bal, u32 (toAccount.nonce + 1)⟩) h1.1 h1.2.1
                  rw [hback] at h2
                  have hs2 := h2.2.2.2.2
                  simp only [optW] at hs2
                  rw [if_neg (not_not_intro hself)] at hs2 ⊢
                  rw [show (⟨toAccount.bal, u32 (toAccount.nonce + 1)⟩ :
                    AccountData).bal = toAccount.bal from rfl] at hs2
                  clear h1 h2
                  rw [htot]
                  rw [show VALIDATOR_STAKE = 1024 from rfl]
                  omega
                · -- distinct recipient: funds move, no wrap under the bound
                  have hdig : toDigest stxn.msg.toA ≠ toDigest (sha256 stxn.fromPk) := by
                    intro hd
                    exact hself ((toDigest_inj _ _ hbytes
                      (sha256_bytes_lt stxn.fromPk) hd).symm)
                  have hto1 : MMap.getOpt (MMap.insertD serAccountData S.accounts
                      (sha256 stxn.fromPk)
                      ⟨fromAccount.bal - stxn.msg.amount, u32 (fromAccount.nonce + 1)⟩)
                      stxn.msg.toA = Option.some toAccount := by
                    rw [h1.2.2.2.1 _ hdig]
                    exact hto
                  have h2 := @insertD_spec AccountData serAccountData AccountData.bal _
                    stxn.msg.toA
                    (if sha256 stxn.fromPk ≠ stxn.msg.toA then
                      (⟨u32 (toAccount.bal + stxn.msg.amount), toAccount.nonce⟩ :
                        AccountData)
                    else ⟨toAccount.bal, u32 (toAccount.nonce + 1)⟩) h1.1 h1.2.1
                  rw [hto1] at h2
                  have hs2 := h2.2.2.2.2
                  simp only [optW] at hs2
                  rw [if_pos hself] at hs2 ⊢
                  rw [show (⟨u32 (toAccount.bal + stxn.msg.amount), toAccount.nonce⟩ :
                    AccountData).bal = u32 (toAccount.bal + stxn.msg.amount)
                    from rfl] at hs2
                  clear h1 h2
                  have hpair := getOpt_two_le_sumW AccountData.bal S.accounts
                    (sha256 stxn.fromPk) stxn.msg.toA fromAccount toAccount hshA hnwA
                    (fun hd => hdig hd.symm) hga hto
                  rw [htot]
                  rw [htot] at hbound
                  rw [show VALIDATOR_STAKE = 1024 from rfl] at hbound ⊢
                  simp only [u32] at hs1 hs2 ⊢
                  omega
              | none =>
                rw [hto] at hver
                dsimp only at hver
                injection hver with hver
                subst hver
                simp only [List.foldl, State.applyUpdate]
                show Node.sumW AccountData.bal
                    (MMap.insertD serAccountData (MMap.insertD serAccountData S.accounts
                      (sha256 stxn.fromPk) _) stxn.msg.toA _).root +
                  VALIDATOR_STAKE * Node.countVals S.validators.root = S.total
                have h1 := @insertD_spec AccountData serAccountData AccountData.bal S.accounts
                  (sha256 stxn.fromPk)
                  ⟨fromAccount.bal - stxn.msg.amount, u32 (fromAccount.nonce + 1)⟩
                  hshA hnwA
                rw [hga] at h1
                have hs1 := h1.2.2.2.2
                simp only [optW] at hs1
                have hself : sha256 stxn.fromPk ≠ stxn.msg.toA := by
                  intro hd
                  rw [← hd, hga] at hto
                  cases hto
                have hdig : toDigest stxn.msg.toA ≠ toDigest (sha256 stxn.fromPk) := by
                  intro hd
                  exact hself ((toDigest_inj _ _ hbytes
                    (sha256_bytes_lt stxn.fromPk) hd).symm)
                have hto1 : MMap.getOpt (MMap.insertD serAccountData S.accounts
                    (sha256 stxn.fromPk)
                    ⟨fromAccount.bal - stxn.msg.amount, u32 (fromAccount.nonce + 1)⟩)
                    stxn.msg.toA = Option.none := by
                  rw [h1.2.2.2.1 _ hdig]
                  exact hto
                have h2 := @insertD_spec AccountData serAccountData AccountData.bal _
                  stxn.msg.toA (⟨stxn.msg.amount, 0⟩ : AccountData) h1.1 h1.2.1
                rw [hto1] at h2
                have hs2 := h2.2.2.2.2
                simp only [optW] at hs2
                rw [htot]
                rw [show VALIDATOR_STAKE = 1024 from rfl]
                omega
    · rw [if_pos hsig] at hver
      simp at hver

theorem witness_C2 :
    State.apply wC2State wC2Stxn = .ok (wC2Ups.foldl State.applyUpdate wC2State) ∧
    (wC2Ups.foldl State.applyUpdate wC2State).total = wC2State.total :=
  claim_C2 wC2State wC2Stxn wC2Ups
    (show MapReach serAccountData wC2State.accounts from
      MapReach.ins _ (sha256 [2]) (⟨5, 0⟩ : AccountData) MapReach.base)
    (show MapReach serValidatorData wC2State.validators from MapReach.base)
    (by decide) (by decide) (by decide)

theorem cex_C2 :
    (State.apply cexC2State cexC2Stxn).map State.total = .ok 1705032704 ∧
    State.total cexC2State = 6000000000 :=
  ⟨by decide, by decide⟩


/-- C8, corrected: a verified self-payment (recipient id equal to the hash
of the sender's public key, correct nonce, valid signature, balance at
least the amount, not addressed to `VALIDATOR_ROOT`) applies successfully,
leaves the sender's balance unchanged, touches no other account entry and
leaves the validator map, round and seed untouched; but the nonce becomes
`u32 (nonce + 1)`, the **wrapping** `u32` increment, not an increment "by
exactly 1": at nonce `2^32 - 1` the new nonce is `0` (see the
counterexample). -/
theorem claim_C8 (S : State) (stxn : Signed Txn)
    (hacc : MapReach serAccountData S.accounts) (a : AccountData)
    (hga : MMap.getOpt S.accounts (sha256 stxn.fromPk) = Option.some a)
    (hself : stxn.msg.toA = sha256 stxn.fromPk)
    (hroot : stxn.msg.toA ≠ VALIDATOR_ROOT)
    (hsig : Signed.verify serTxn stxn = true)
    (hnonce : stxn.msg.nonce = a.nonce)
    (hamt : stxn.msg.amount ≤ a.bal) :
    ∃ S2, State.apply S stxn = .ok S2 ∧
      MMap.getOpt S2.accounts (sha256 stxn.fromPk) =
        Option.some ⟨a.bal, u32 (a.nonce + 1)⟩ ∧
      (∀ k, (∀ b ∈ k, b < 256) → k ≠ sha256 stxn.fromPk →
        MMap.getOpt S2.accounts k = MMap.getOpt S.accounts k) ∧
      S2.validators = S.validators ∧ S2.round = S.round ∧ S2.seed = S.seed := by
  obtain ⟨hshA, hnwA, _⟩ := reach_inv S.accounts hacc
  have hver : State.verify S stxn = .ok
      [Update.AccountUp (sha256 stxn.fromPk)
        (Option.some ⟨a.bal - stxn.msg.amount, u32 (a.nonce + 1)⟩),
       Update.AccountUp (sha256 stxn.fromPk)
        (Option.some ⟨a.bal, u32 (a.nonce + 1)⟩)] := by
    simp only [State.verify]
    rw [hga]
    dsimp only
    rw [if_neg (not_not_intro hsig)]
    rw [if_neg (by omega : ¬ a.nonce > stxn.msg.nonce)]
    rw [if_neg (by omega : ¬ a.nonce < stxn.msg.nonce)]
    rw [if_neg (by omega : ¬ a.bal < stxn.msg.amount)]
    rw [if_neg hroot]
    rw [hself, hga]
    dsimp only
    rw [if_neg (not_not_intro rfl)]
  have h1 := @insertD_spec AccountData serAccountData AccountData.bal S.accounts
    (sha256 stxn.fromPk) ⟨a.bal - stxn.msg.amount, u32 (a.nonce + 1)⟩ hshA hnwA
  have h2 := @insertD_spec AccountData serAccountData AccountData.bal
    (MMap.insertD serAccountData S.accounts (sha256 stxn.fromPk)
      ⟨a.bal - stxn.msg.amount, u32 (a.nonce + 1)⟩)
    (sha256 stxn.fromPk) ⟨a.bal, u32 (a.nonce + 1)⟩ h1.1 h1.2.1
  have happ : State.apply S stxn = .ok
      (State.applyUpdate (State.applyUpdate S
        (Update.AccountUp (sha256 stxn.fromPk)
          (Option.some ⟨a.bal - stxn.msg.amount, u32 (a.nonce + 1)⟩)))
        (Update.AccountUp (sha256 stxn.fromPk)
          (Option.some ⟨a.bal, u32 (a.nonce + 1)⟩))) := by
    rw [State.apply, hver]
    rfl
  refine ⟨_, happ, ?_, ?_, rfl, rfl, rfl⟩
  · show MMap.getOpt (MMap.insertD serAccountData
        (MMap.insertD serAccountData S.accounts (sha256 stxn.fromPk)
          ⟨a.bal - stxn.msg.amount, u32 (a.nonce + 1)⟩)
        (sha256 stxn.fromPk) ⟨a.bal, u32 (a.nonce + 1)⟩)
      (sha256 stxn.fromPk) = Option.some ⟨a.bal, u32 (a.nonce + 1)⟩
    exact h2.2.2.1
  · intro k hk hne
    have hdig : toDigest k ≠ toDigest (sha256 stxn.fromPk) := fun hd =>
      hne (toDigest_inj _ _ hk (sha256_bytes_lt _) hd)
    show MMap.getOpt (MMap.insertD serAccountData
        (MMap.insertD serAccountData S.accounts (sha256 stxn.fromPk)
          ⟨a.bal - stxn.msg.amount, u32 (a.nonce + 1)⟩)
        (sha256 stxn.fromPk) ⟨a.bal, u32 (a.nonce + 1)⟩) k =
      MMap.getOpt S.accounts k
    rw [h2.2.2.2.1 k hdig, h1.2.2.2.1 k hdig]

theorem witness_C8 :
    ∃ S2, State.apply wC2State wC2Stxn = .ok S2 ∧
      MMap.getOpt S2.accounts (sha256 wC2Stxn.fromPk) =
        Option.some ⟨(5 : Nat), u32 (0 + 1)⟩ ∧
      (∀ k, (∀ b ∈ k, b < 256) → k ≠ sha256 wC2Stxn.fromPk →
        MMap.getOpt S2.accounts k = MMap.getOpt wC2State.accounts k) ∧
      S2.validators = wC2State.validators ∧ S2.round = wC2State.round ∧
      S2.seed = wC2State.seed :=
  claim_C8 wC2State wC2Stxn
    (show MapReach serAccountData wC2State.accounts from
      MapReach.ins _ (sha256 [2]) (⟨5, 0⟩ : AccountData) MapReach.base)
    ⟨5, 0⟩ (by decide) (by decide) (by decide) (by decide) (by decide) (by decide)

theorem cex_C8 :
    MMap.getOpt cexC8State.accounts (sha256 [3]) =
      Option.some ⟨7, 4294967295⟩ ∧
    (State.apply cexC8State cexC8Stxn).map
        (fun S2 => MMap.getOpt S2.accounts (sha256 [3])) =
      .ok (Option.some ⟨7, 0⟩) :=
  ⟨by decide, by decide⟩


/-- C7, corrected: `Node::add_snap`'s runtime check only bounds the round
from above — `assert!(snap.round <= head.round + 1)` — so a snap whose round
exceeds `head.round + 1` panics and nothing is installed, but a snap whose
round is at most `head.round` — including rounds strictly **below** the
head, outside the claimed `{head.round, head.round + 1}` — is accepted
without any check failing: the head, pool, builder and the other ring slots
are left unchanged, and the snap **is** installed into ring slot
`round % MAX_FORK` under its header hash. -/
theorem claim_C7 (cl : NodeSt → NodeSt) (st : NodeSt) (snap : Snap) :
    (snap.block.sheader.msg.data.round >
        st.head.block.sheader.msg.data.round + 1 →
      NodeSt.addSnap cl st snap = Option.none) ∧
    (snap.block.sheader.msg.data.round ≤
        st.head.block.sheader.msg.data.round →
      NodeSt.addSnap cl st snap = Option.some
        { st with snaps := fun i =>
            if i = snap.block.sheader.msg.data.round % MAX_FORK then
              (ringInsert (st.snaps (snap.block.sheader.msg.data.round % MAX_FORK))
                snap.block.sheader.msg.hash snap)
            else st.snaps i }) := by
  constructor
  · intro h
    simp only [NodeSt.addSnap]
    rw [if_pos h]
  · intro h
    simp only [NodeSt.addSnap]
    rw [if_neg (by omega), if_neg (by omega)]
    rfl

theorem witness_C7 :
    ((c7Snap 7).block.sheader.msg.data.round >
        c7St.head.block.sheader.msg.data.round + 1 →
      NodeSt.addSnap id c7St (c7Snap 7) = Option.none) ∧
    ((c7Snap 7).block.sheader.msg.data.round ≤
        c7St.head.block.sheader.msg.data.round →
      NodeSt.addSnap id c7St (c7Snap 7) = Option.some
        { c7St with snaps := fun i =>
            if i = (c7Snap 7).block.sheader.msg.data.round % MAX_FORK then
              (ringInsert (c7St.snaps ((c7Snap 7).block.sheader.msg.data.round % MAX_FORK))
                (c7Snap 7).block.sheader.msg.hash (c7Snap 7))
            else c7St.snaps i }) :=
  claim_C7 id c7St (c7Snap 7)

theorem cex_C7 :
    (c7Snap 3).block.sheader.msg.data.round + 1 <
      c7St.head.block.sheader.msg.data.round ∧
    NodeSt.addSnap id c7St (c7Snap 3) = Option.some
      { c7St with snaps := fun i =>
          if i = (c7Snap 3).block.sheader.msg.data.round % MAX_FORK then
            (ringInsert (c7St.snaps ((c7Snap 3).block.sheader.msg.data.round % MAX_FORK))
              (c7Snap 3).block.sheader.msg.hash (c7Snap 3))
          else c7St.snaps i } :=
  ⟨by decide, rfl⟩


/-- C6, corrected: the key scheme holds — an accepted `Builder::add` applies
the transaction to the working state, inserts it at the 8-byte big-endian
key `(batch << 32) | count`, and advances the counters, `count` resetting to
0 and `batch` incrementing when `count + 1` reaches `TXN_BATCH_SIZE` (128) —
but **no block size limit exists**: `add` never consults `MAX_BLOCK_SIZE`
(1024), and a builder accepts and appends transactions past it (see the
counterexample: 1025 accepted adds leave 1025 stored transactions). -/
theorem claim_C6 (b : Builder) (stxn : Signed Txn) (b2 : Builder)
    (h : Builder.add b stxn = AddRes.ok b2) :
    (∃ S2 r, State.apply b.state stxn = .ok S2 ∧
      MMap.insert serSignedTxn b.txnseq
          (be64 (b.batch * 4294967296 + b.count)) stxn = .ok r ∧
      b2.txnseq = r.1 ∧ b2.state = S2 ∧ b2.metadata = b.metadata) ∧
    (b.count + 1 = TXN_BATCH_SIZE →
      b2.count = 0 ∧ b2.batch = u32 (b.batch + 1)) ∧
    (b.count + 1 ≠ TXN_BATCH_SIZE →
      b2.count = b.count + 1 ∧ b2.batch = b.batch) := by
  simp only [Builder.add] at h
  cases ha : State.apply b.state stxn with
  | error e =>
    rw [ha] at h
    cases h
  | ok S2 =>
    rw [ha] at h
    dsimp only at h
    cases hi : MMap.insert serSignedTxn b.txnseq
        (be64 (b.batch * 4294967296 + b.count)) stxn with
    | error e =>
      rw [hi] at h
      cases h
    | ok r =>
      rw [hi] at h
      dsimp only at h
      by_cases hc : b.count + 1 = TXN_BATCH_SIZE
      · rw [if_pos hc] at h
        injection h with h
        subst h
        exact ⟨⟨S2, r, rfl, rfl, rfl, rfl, rfl⟩, fun _ => ⟨rfl, rfl⟩,
          fun hn => absurd hc hn⟩
      · rw [if_neg hc] at h
        injection h with h
        subst h
        exact ⟨⟨S2, r, rfl, rfl, rfl, rfl, rfl⟩, fun hn => absurd hn hc,
          fun _ => ⟨rfl, rfl⟩⟩

theorem witness_C6 :
    (∃ S2 r, State.apply c6B0.state (c6Txn 0) = .ok S2 ∧
      MMap.insert serSignedTxn c6B0.txnseq
          (be64 (c6B0.batch * 4294967296 + c6B0.count)) (c6Txn 0) = .ok r ∧
      c6B1.txnseq = r.1 ∧ c6B1.state = S2 ∧ c6B1.metadata = c6B0.metadata) ∧
    (c6B0.count + 1 = TXN_BATCH_SIZE →
      c6B1.count = 0 ∧ c6B1.batch = u32 (c6B0.batch + 1)) ∧
    (c6B0.count + 1 ≠ TXN_BATCH_SIZE →
      c6B1.count = c6B0.count + 1 ∧ c6B1.batch = c6B0.batch) :=
  claim_C6 c6B0 (c6Txn 0) c6B1 rfl

theorem cex_C6 :
    MAX_BLOCK_SIZE < 1025 ∧
    ∃ b2, Builder.addAll (Builder.new ⟨[2]⟩ 1 c6Head) (c6TxnsFrom 0 1025) =
        Option.some b2 ∧
      Node.countVals b2.txnseq.root = 1025 := by
  refine ⟨by decide, ?_⟩
  exact c6_chain 1025 0 (Builder.new ⟨[2]⟩ 1 c6Head) (by decide)
    (show MapReach serAccountData (Builder.new ⟨[2]⟩ 1 c6Head).state.accounts from
      MapReach.ins _ (sha256 [2]) (⟨5, 0⟩ : AccountData) MapReach.base)
    (by decide)
    (show MapReach serSignedTxn (Builder.new ⟨[2]⟩ 1 c6Head).txnseq from
      MapReach.base)
    (fun j _ _ => getOpt_default serSignedTxn _)
    rfl rfl (by decide)

set_option maxHeartbeats 1600000 in
/-- C1: Block round-trip: for every head snap, proposal `p ≥ 1`, and keypair
that the leader draw selects at `(head.seed, p)`, if a builder is created
with `Builder::new(kp, p, head)` and a sequence of transactions (within the
block capacity `MAX_BLOCK_SIZE`, the scope of the claim's block) is added
with every `Builder::add` returning `Ok`, then `Verifier::finalize` on the
block of the snap produced by `Builder::finalize(kp)` returns `Ok` of
exactly that snap — in particular the verifier's replayed state is the
builder's working state, so the state commitments agree. -/
theorem claim_C1 (idxF : List Nat → Nat) (fuel : Nat) (head : Snap) (kp : Keypair)
    (p : Nat) (ts : List (Signed Txn)) (b2 : Builder)
    (hp : 1 ≤ p) (hlen : ts.length ≤ MAX_BLOCK_SIZE)
    (hleader : Snap.leader idxF fuel head p = Option.some kp.pk)
    (hadd : Builder.addAll (Builder.new kp p head) ts = Option.some b2) :
    Verifier.finalize idxF fuel head (Builder.finalize b2 kp).block =
      Option.some (.ok (Builder.finalize b2 kp)) := by
  obtain ⟨hrt, hrep, hmeta⟩ := addAll_C1 ts (Builder.new kp p head) head.state 0 b2 hadd
    (by rw [show MAX_BLOCK_SIZE = 1024 from rfl] at hlen; omega)
    rfl rfl MapReach.base
    (by intro q hq; cases hq)
    rfl
  obtain ⟨hshT, hnwT, hvc⟩ := reach_inv b2.txnseq hrt
  have hmeta2 : b2.metadata = Metadata.new kp p head := hmeta
  have hprop : (Builder.finalize b2 kp).block.sheader.msg.data.proposal = p :=
    (congrArg Metadata.proposal hmeta2).trans rfl
  have hprev : (Builder.finalize b2 kp).block.sheader.msg.data.prevHash =
      head.blockHash :=
    (congrArg Metadata.prevHash hmeta2).trans rfl
  have hsig : Signed.verify serHeader (Builder.finalize b2 kp).block.sheader = true := by
    simp [Builder.finalize, Keypair.sign, Signed.verify]
  have hround : (Builder.finalize b2 kp).block.sheader.msg.data.round =
      head.block.sheader.msg.data.round + 1 :=
    (congrArg Metadata.round hmeta2).trans rfl
  have htime : (Builder.finalize b2 kp).block.sheader.msg.data.timestamp =
      head.block.sheader.msg.data.timestamp +
        (Builder.finalize b2 kp).block.sheader.msg.data.proposal * BLOCK_TIME := by
    rw [hprop]
    have h2 : (Builder.finalize b2 kp).block.sheader.msg.data.timestamp =
        head.block.sheader.msg.data.timestamp + BLOCK_TIME * p :=
      (congrArg Metadata.timestamp hmeta2).trans rfl
    rw [h2, Nat.mul_comm]
  have hbeaconEq : (Builder.finalize b2 kp).block.sheader.msg.data.beacon =
      Keypair.signBytes kp head.block.sheader.msg.data.seed :=
    (congrArg Metadata.beacon hmeta2).trans rfl
  have hbeacon : Signed.verify id
      (⟨head.block.sheader.msg.data.seed, (Builder.finalize b2 kp).block.sheader.fromPk,
        (Builder.finalize b2 kp).block.sheader.msg.data.beacon⟩ : Signed (List Nat)) =
      true := by
    rw [hbeaconEq]
    simp [Signed.verify, Keypair.signBytes, Builder.finalize]
  have hseed : (Builder.finalize b2 kp).block.sheader.msg.data.seed =
      sha256 (sigBytes (Builder.finalize b2 kp).block.sheader.msg.data.beacon) := by
    rw [hbeaconEq]
    exact (congrArg Metadata.seed hmeta2).trans rfl
  have hvc2 : MMap.validCommits serSignedTxn (Builder.finalize b2 kp).block.txnseq =
      Option.some true := hvc
  have hlead2 : Snap.leader idxF fuel head
      (Builder.finalize b2 kp).block.sheader.msg.data.proposal = Option.some kp.pk := by
    rw [hprop]
    exact hleader
  have hiter : MMap.iterList (Builder.finalize b2 kp).block.txnseq =
      Option.some (Node.postorderVals b2.txnseq.root) :=
    iterList_post b2.txnseq.root hnwT
  simp only [Verifier.finalize]
  rw [if_neg (not_not_intro hprev)]
  rw [if_neg (not_not_intro hsig)]
  rw [if_neg (not_not_intro hround)]
  rw [if_neg (not_not_intro htime)]
  rw [if_neg (not_not_intro hbeacon)]
  rw [if_neg (not_not_intro hseed)]
  rw [if_neg (not_not_intro
    (show (Builder.finalize b2 kp).block.sheader.msg.commits.txnseq =
      MMap.commit (Builder.finalize b2 kp).block.txnseq from rfl))]
  rw [if_neg (not_not_intro hvc2)]
  rw [hlead2]
  simp only [bind_some_opt]
  rw [if_neg (not_not_intro
    (show kp.pk = (Builder.finalize b2 kp).block.sheader.fromPk from rfl))]
  rw [hiter]
  simp only [bind_some_opt]
  split
  next te heq =>
    rw [heq] at hrep
    exact Except.noConfusion hrep
  next S2 heq =>
    rw [heq] at hrep
    injection hrep with hS2
    subst hS2
    rw [if_neg (not_not_intro
      (show (Builder.finalize b2 kp).block.sheader.msg.commits.state =
        State.commit b2.state from rfl))]
    rfl

theorem witness_C1 :
    Verifier.finalize (fun _ => 0) 1 c1Head
        (Builder.finalize (Builder.new ⟨[7]⟩ 1 c1Head) ⟨[7]⟩).block =
      Option.some (.ok (Builder.finalize (Builder.new ⟨[7]⟩ 1 c1Head) ⟨[7]⟩)) :=
  claim_C1 (fun _ => 0) 1 c1Head ⟨[7]⟩ 1 [] (Builder.new ⟨[7]⟩ 1 c1Head)
    (by decide) (by decide) rfl rfl

end ClaimTheorems

end Tam
